import Mathlib

/-! A verification development for `queue.c`.

The queue of `queue.c` is a singly linked list of heap-allocated elements, each owning a
heap-allocated string. The embedding keeps the pointer structure: elements and strings live in a
heap indexed by addresses, `NULL` is `none`, and every dereference of a pointer that is `NULL` or
not live is an explicit `fault`. Loops and recursion take a fuel argument; running out of fuel is
the separate outcome `timeout`.

`qsortImplement` exchanges the strings of two elements by XORing their `char *value` fields
through `int *` casts. The embedding follows the bytes: an address is a natural number, the
`int` such a cast reaches is its low 32 bits, and the bits above them are not touched. Sorting
is therefore proved for queues whose string addresses agree above the low 32 bits (`OneWindow`),
and evaluated on queues for which they do not.
-/

namespace Queue

/-! ## Data model -/

/-- Modelled from the spec: `queue.h` is not among the sources, so the element type is taken from
the fields `queue.c` uses. `value` is the whole word held in the `char *value` field: the
address of the element's string. A pointer may be wider than an `int`: on an LP64 machine the
word has 64 bits, and the `(int *)` casts of `qsortImplement` reach only its low 32 bits (see
`rdInt` and `wrInt`). A word below `2 ^ 32` is a pointer that fits an `int`. `next` is the link
to the following element, `none` for `NULL`. -/
structure list_ele_t where
  value : Nat
  next : Option Nat
deriving DecidableEq

/-- Modelled from the spec: `queue.h` is not among the sources; the queue header has the three
fields `queue.c` uses. `size` is a C `int`, kept as an integer without wrap-around. -/
structure queue_t where
  head : Option Nat
  tail : Option Nat
  size : Int
deriving DecidableEq

/-- The heap: the live elements and the live strings, by address. A string is the list of its
bytes without the terminating NUL. -/
structure Heap where
  ele : Nat → Option list_ele_t
  str : Nat → Option (List Nat)

/-- Result of running code that may dereference a bad pointer (`fault`) or, for the fuelled
loops, run out of fuel (`timeout`). -/
inductive Outcome (α : Type) where
  | done : α → Outcome α
  | fault : Outcome α
  | timeout : Outcome α

/-- Store (or, with `none`, free) the element at address `a`. -/
def Heap.setEle (h : Heap) (a : Nat) (e : Option list_ele_t) : Heap :=
  { h with ele := fun x => if x = a then e else h.ele x }

/-- Store (or, with `none`, free) the string at address `p`. -/
def Heap.setStr (h : Heap) (p : Nat) (s : Option (List Nat)) : Heap :=
  { h with str := fun x => if x = p then s else h.str x }

/-- Dereference an element pointer: `none` when it is `NULL` or not live. -/
def deref (h : Heap) (p : Option Nat) : Option list_ele_t :=
  match p with
  | none => none
  | some a => h.ele a

/-- The heap with no live object. -/
def emptyHeap : Heap := ⟨fun _ => none, fun _ => none⟩

/-! ## Library functions used by `queue.c` -/

/-- C `strcmp` on NUL-free byte strings, as its sign: bytes are compared as unsigned values and
the terminator is smaller than every byte. -/
def strcmp : List Nat → List Nat → Int
  | [], [] => 0
  | [], _ :: _ => -1
  | _ :: _, [] => 1
  | a :: as, b :: bs => if a < b then -1 else if b < a then 1 else strcmp as bs

/-- C `strncpy dst src n` on a destination region `dst`: exactly `n` bytes are written, the first
bytes of `src` followed by NUL padding. Writing past the region is a fault. -/
def strncpy (dst src : List Nat) (n : Nat) : Outcome (List Nat) :=
  if n ≤ dst.length then
    Outcome.done (src.take n ++ List.replicate (n - src.length) 0 ++ dst.drop n)
  else Outcome.fault

/-- The C string held in a memory region: the bytes before the first NUL. -/
def cstr (buf : List Nat) : List Nat := buf.takeWhile (fun b => b != 0)

/-! ## The operations of `queue.c` -/

/-- `q_new`: `alloc` tells whether `malloc` succeeds. -/
def q_new (alloc : Bool) : Option queue_t :=
  if alloc then some ⟨none, none, 0⟩ else none

/-- `q_insert_head`. `newh` is what `malloc` returns for the element and `dup` what `strdup`
returns, should the call get that far. -/
def q_insert_head (h : Heap) (q : Option queue_t) (s : Option (List Nat))
    (newh dup : Option Nat) : Bool × Option queue_t × Heap :=
  match q, s with
  | none, _ => (false, q, h)
  | some _, none => (false, q, h)
  | some qv, some sv =>
    match newh with
    | none => (false, q, h)
    | some a =>
      let h1 := h.setEle a (some ⟨0, none⟩)
      match dup with
      | none => (false, q, h1.setEle a none)
      | some p =>
        let h2 := (h1.setStr p (some sv)).setEle a (some ⟨p, qv.head⟩)
        (true, some ⟨some a, if qv.tail = none then some a else qv.tail, qv.size + 1⟩, h2)

/-- `q_insert_tail`, with the allocator results as in `q_insert_head`. -/
def q_insert_tail (h : Heap) (q : Option queue_t) (s : Option (List Nat))
    (newh dup : Option Nat) : Outcome (Bool × Option queue_t × Heap) :=
  match q, s with
  | none, _ => Outcome.done (false, q, h)
  | some _, none => Outcome.done (false, q, h)
  | some qv, some sv =>
    match newh with
    | none => Outcome.done (false, q, h)
    | some a =>
      let h1 := h.setEle a (some ⟨0, none⟩)
      match dup with
      | none => Outcome.done (false, q, h1.setEle a none)
      | some p =>
        let h2 := (h1.setStr p (some sv)).setEle a (some ⟨p, none⟩)
        let head1 := if qv.head = none then some a else qv.head
        match qv.tail with
        | none => Outcome.done (true, some ⟨head1, some a, qv.size + 1⟩, h2)
        | some t =>
          match h2.ele t with
          | none => Outcome.fault
          | some et =>
            let h3 := h2.setEle t (some { et with next := some a })
            match h3.ele t with
            | none => Outcome.fault
            | some et1 => Outcome.done (true, some ⟨head1, et1.next, qv.size + 1⟩, h3)

/-- The copy into the caller's buffer made by `q_remove_head`: `sp` is the buffer region (`none`
for `NULL`), `v` the string of the head element. -/
def copyOut (sp : Option (List Nat)) (v : List Nat) (bufsize : Nat) :
    Outcome (Option (List Nat)) :=
  match sp with
  | none => Outcome.done none
  | some buf =>
    if bufsize > 1 then
      match strncpy buf v bufsize with
      | Outcome.done b1 => Outcome.done (some (b1.set (bufsize - 1) 0))
      | Outcome.fault => Outcome.fault
      | Outcome.timeout => Outcome.timeout
    else Outcome.done (some buf)

/-- `q_remove_head`: returns the flag, the queue header, the heap and the caller's buffer. -/
def q_remove_head (h : Heap) (q : Option queue_t) (sp : Option (List Nat)) (bufsize : Nat) :
    Outcome (Bool × Option queue_t × Heap × Option (List Nat)) :=
  match q with
  | none => Outcome.done (false, q, h, sp)
  | some qv =>
    match qv.head with
    | none => Outcome.done (false, q, h, sp)
    | some hd =>
      match h.ele hd with
      | none => Outcome.fault
      | some e =>
        match h.str e.value with
        | none => Outcome.fault
        | some v =>
          match copyOut sp v bufsize with
          | Outcome.done sp1 =>
            let h1 := (h.setStr e.value none).setEle hd none
            Outcome.done (true, some ⟨e.next, qv.tail, qv.size - 1⟩, h1, sp1)
          | Outcome.fault => Outcome.fault
          | Outcome.timeout => Outcome.timeout

/-- `q_size`. -/
def q_size (q : Option queue_t) : Int :=
  match q with
  | none => 0
  | some qv => qv.size

/-- The `while` loop of `q_reverse`; `head` is `q->head`, `ptr` never moves. -/
def reverseLoop : Nat → Heap → Option Nat → Option Nat → Outcome (Heap × Option Nat)
  | 0, _, _, _ => Outcome.timeout
  | fuel + 1, h, head, ptr =>
    match ptr with
    | none => Outcome.done (h, head)
    | some p =>
      match h.ele p with
      | none => Outcome.fault
      | some ep =>
        match ep.next with
        | none => Outcome.done (h, head)
        | some t =>
          match h.ele t with
          | none => Outcome.fault
          | some et =>
            let h1 := h.setEle p (some { ep with next := et.next })
            match h1.ele t with
            | none => Outcome.fault
            | some et1 =>
              let h2 := h1.setEle t (some { et1 with next := head })
              reverseLoop fuel h2 (some t) ptr

/-- `q_reverse`. -/
def q_reverse (fuel : Nat) (h : Heap) (q : Option queue_t) : Outcome (Option queue_t × Heap) :=
  match q with
  | none => Outcome.done (q, h)
  | some qv =>
    match qv.head with
    | none => Outcome.done (q, h)
    | some _ =>
      match reverseLoop fuel h qv.head qv.head with
      | Outcome.done (h1, head1) => Outcome.done (some ⟨head1, qv.head, qv.size⟩, h1)
      | Outcome.fault => Outcome.fault
      | Outcome.timeout => Outcome.timeout

/-- Write `v` into the `value` field of the live element at `a`. -/
def wrValue (h : Heap) (a : Nat) (v : Nat) : Heap :=
  match h.ele a with
  | none => h
  | some e => h.setEle a (some { e with value := v })

/-- Read the `value` field of the element at `a`. -/
def rdValue (h : Heap) (a : Nat) : Nat :=
  match h.ele a with
  | none => 0
  | some e => e.value

/-- The `int` that `(int *) &e->value` points to, for the element `e` at `a`: the low 32 bits of
the `value` word (a 32-bit `int` at the lowest address of a little-endian pointer, as on x86-64
and AArch64). The `int` is given by its 32 bits, as a number below `2 ^ 32`; unequal `int`s
have unequal bits, and XOR works on the bits. -/
def rdInt (h : Heap) (a : Nat) : Nat := rdValue h a % 4294967296

/-- Store the `int` `i` through `(int *) &e->value`: the low 32 bits of the `value` word are
replaced, the bits above them stay. -/
def wrInt (h : Heap) (a : Nat) (i : Nat) : Heap :=
  wrValue h a (rdValue h a / 4294967296 * 4294967296 + i % 4294967296)

/-- `swapValue a b`, where `a` and `b` are `(int *) &x->value` and `(int *) &y->value` for the
elements `x` and `y` (the only way `queue.c` calls it, lines 238 and 240): the guard compares
the two `int`s, and the three XOR assignments each read what the previous one stored. -/
def swapValue (h : Heap) (a b : Option Nat) : Outcome Heap :=
  match a, b with
  | some x, some y =>
    match h.ele x, h.ele y with
    | some _, some _ =>
      if rdInt h x ≠ rdInt h y then
        let h1 := wrInt h x (rdInt h x ^^^ rdInt h y)
        let h2 := wrInt h1 y (rdInt h1 y ^^^ rdInt h1 x)
        let h3 := wrInt h2 x (rdInt h2 x ^^^ rdInt h2 y)
        Outcome.done h3
      else Outcome.done h
    | _, _ => Outcome.fault
  | _, _ => Outcome.fault

/-- One pass through the body of the `do ... while` loop of `qsortImplement`: returns the heap,
`pivot` and `ptr` at the end of the body. -/
def partitionBody (h : Heap) (pivot ptr : Option Nat) : Outcome (Heap × Option Nat × Option Nat) :=
  match deref h ptr with
  | none => Outcome.fault
  | some eptr =>
    let ptr1 := eptr.next
    match deref h pivot, deref h ptr1 with
    | some epiv, some ep1 =>
      match h.str epiv.value, h.str ep1.value with
      | some s0, some s1 =>
        if strcmp s0 s1 > 0 then
          match swapValue h pivot ptr1 with
          | Outcome.done h1 =>
            match deref h1 pivot with
            | none => Outcome.fault
            | some epiv1 =>
              let pivot1 := epiv1.next
              match swapValue h1 pivot1 ptr1 with
              | Outcome.done h2 => Outcome.done (h2, pivot1, ptr1)
              | Outcome.fault => Outcome.fault
              | Outcome.timeout => Outcome.timeout
          | Outcome.fault => Outcome.fault
          | Outcome.timeout => Outcome.timeout
        else Outcome.done (h, pivot, ptr1)
      | _, _ => Outcome.fault
    | _, _ => Outcome.fault

/-- The `do ... while` loop of `qsortImplement`; returns the heap and `pivot` at loop exit. -/
def partitionLoop : Nat → Heap → Option Nat → Option Nat → Option Nat → Outcome (Heap × Option Nat)
  | 0, _, _, _, _ => Outcome.timeout
  | fuel + 1, h, pivot, ptr, e =>
    match partitionBody h pivot ptr with
    | Outcome.done (h1, pivot1, ptr1) =>
      if ptr1 ≠ none ∧ ptr1 ≠ e ∧ pivot1 ≠ none ∧ pivot1 ≠ e then
        partitionLoop fuel h1 pivot1 ptr1 e
      else Outcome.done (h1, pivot1)
    | Outcome.fault => Outcome.fault
    | Outcome.timeout => Outcome.timeout

/-- `qsortImplement start end`. -/
def qsortImplement : Nat → Heap → Option Nat → Option Nat → Outcome Heap
  | 0, _, _, _ => Outcome.timeout
  | fuel + 1, h, start, e =>
    if start = none ∨ e = none ∨ start = e then Outcome.done h
    else
      match partitionLoop fuel h start start e with
      | Outcome.done (h1, pivot) =>
        match qsortImplement fuel h1 start pivot with
        | Outcome.done h2 =>
          match deref h2 pivot with
          | none => Outcome.fault
          | some ep => qsortImplement fuel h2 ep.next e
        | Outcome.fault => Outcome.fault
        | Outcome.timeout => Outcome.timeout
      | Outcome.fault => Outcome.fault
      | Outcome.timeout => Outcome.timeout

/-- `q_sort`. -/
def q_sort (fuel : Nat) (h : Heap) (q : Option queue_t) : Outcome Heap :=
  match q with
  | none => Outcome.done h
  | some qv => if qv.size ≤ 1 then Outcome.done h else qsortImplement fuel h qv.head qv.tail

/-! ## Reading a queue -/

/-- The elements `ns` are linked in this order starting at `p`, the last one pointing to `r`. -/
def Lseg (h : Heap) : Option Nat → List Nat → Option Nat → Prop
  | p, [], r => p = r
  | p, a :: as, r => p = some a ∧ ∃ e, h.ele a = some e ∧ Lseg h e.next as r

/-- The string an element holds, `none` when the element or its string is not live. -/
def strAt (h : Heap) (a : Nat) : Option (List Nat) :=
  match h.ele a with
  | none => none
  | some e => h.str e.value

/-- Follow `next` from `p` for at most `fuel` elements and collect the strings: `none` when the
walk meets a dead element or string, or does not reach `NULL` within `fuel` elements. -/
def readFrom (h : Heap) : Nat → Option Nat → Option (List (List Nat))
  | _, none => some []
  | 0, some _ => none
  | fuel + 1, some a =>
    match h.ele a with
    | none => none
    | some e =>
      match h.str e.value, readFrom h fuel e.next with
      | some v, some rest => some (v :: rest)
      | _, _ => none

/-- A well-formed queue: `ns` lists the addresses of its elements from head to end and `L` their
strings. The chain from `head` is `ns` and ends in `NULL`, `tail` is its last element, `size`
its length, every element owns a live string and no two elements share one. -/
structure WF (h : Heap) (q : queue_t) (ns : List Nat) (L : List (List Nat)) : Prop where
  chain : Lseg h q.head ns none
  tail_last : q.tail = ns.getLast?
  size_len : q.size = ns.length
  vals : ns.map (strAt h) = L.map some
  owned : (ns.map (rdValue h)).Nodup

/-- The heap `h1` holds the same strings as `h` and every element has the same `value` word;
only links may differ. -/
def SameValues (h h1 : Heap) : Prop :=
  h1.str = h.str ∧ ∀ a, (h1.ele a).map (fun e => e.value) = (h.ele a).map (fun e => e.value)

/-- The heap `h1` holds the same strings as `h`, every element has the same link, and elements
outside `seg` are untouched; only the `value` words of elements of `seg` may differ. -/
structure SameLinks (h h1 : Heap) (seg : List Nat) : Prop where
  str_eq : h1.str = h.str
  next_eq : ∀ a, (h1.ele a).map (fun e => e.next) = (h.ele a).map (fun e => e.next)
  frame : ∀ a, a ∉ seg → h1.ele a = h.ele a

/-- The string a `value` word points to (empty when it is not a live string). -/
def key (h : Heap) (p : Nat) : List Nat := (h.str p).getD []

/-- The `value` words of the elements `seg` agree above their low 32 bits: the strings these
elements hold lie in one 4 GiB window of the address space (as all of them do when a pointer
fits an `int`). -/
def OneWindow (h : Heap) (seg : List Nat) : Prop :=
  ∀ a ∈ seg, ∀ b ∈ seg, rdValue h a / 4294967296 = rdValue h b / 4294967296

/-- The partition loop invariant of `qsortImplement`, for pivot value `P` first held by the start
element: `A` are the elements before the pivot element `pv`, `B` the scanned ones after it and
`C` the ones not scanned yet; `h0` is the heap at loop entry. -/
structure PInv (h0 h : Heap) (seg : List Nat) (P : Nat) (A : List Nat) (pv : Nat)
    (B C : List Nat) : Prop where
  split : seg = A ++ pv :: (B ++ C)
  links : SameLinks h0 h seg
  perm : (seg.map (rdValue h)).Perm (seg.map (rdValue h0))
  lt : ∀ a ∈ A, strcmp (key h0 P) (key h0 (rdValue h a)) > 0
  piv : rdValue h pv = P
  ge : ∀ b ∈ B, strcmp (key h0 P) (key h0 (rdValue h b)) ≤ 0
  rest : ∀ c ∈ C, rdValue h c = rdValue h0 c

/-- The last element `en` of the range `seg` holds a string strictly greater than the string of
every other element of the range. -/
def SMax (h : Heap) (seg : List Nat) (en : Nat) : Prop :=
  ∀ a ∈ seg.dropLast, strcmp (key h (rdValue h a)) (key h (rdValue h en)) < 0

/-- The heap `h1` is `h` with the values of the range `seg` rearranged into non-decreasing
order of their strings; links, strings and everything outside the range are as in `h`. -/
structure SortedRange (h h1 : Heap) (seg : List Nat) : Prop where
  links : SameLinks h h1 seg
  perm : (seg.map (rdValue h1)).Perm (seg.map (rdValue h))
  sorted : (seg.map (fun a => key h (rdValue h1 a))).Pairwise (fun x y => strcmp x y ≤ 0)

/-! ## Sequences of calls and the example queues -/

/-- One call of the queue interface, with what the allocator returns for it (insertions), the
caller's buffer and its capacity (removal), or the fuel granted (reversal and sorting). -/
inductive Call where
  | insert_head (s : Option (List Nat)) (newh dup : Option Nat)
  | insert_tail (s : Option (List Nat)) (newh dup : Option Nat)
  | remove_head (sp : Option (List Nat)) (bufsize : Nat)
  | reverse (fuel : Nat)
  | sort (fuel : Nat)

/-- The queue header and heap after one call. -/
def step (st : Option queue_t × Heap) : Call → Outcome (Option queue_t × Heap)
  | Call.insert_head s newh dup =>
    Outcome.done ((q_insert_head st.2 st.1 s newh dup).2.1, (q_insert_head st.2 st.1 s newh dup).2.2)
  | Call.insert_tail s newh dup =>
    match q_insert_tail st.2 st.1 s newh dup with
    | Outcome.done (_, q1, h1) => Outcome.done (q1, h1)
    | Outcome.fault => Outcome.fault
    | Outcome.timeout => Outcome.timeout
  | Call.remove_head sp bufsize =>
    match q_remove_head st.2 st.1 sp bufsize with
    | Outcome.done (_, q1, h1, _) => Outcome.done (q1, h1)
    | Outcome.fault => Outcome.fault
    | Outcome.timeout => Outcome.timeout
  | Call.reverse fuel => q_reverse fuel st.2 st.1
  | Call.sort fuel =>
    match q_sort fuel st.2 st.1 with
    | Outcome.done h1 => Outcome.done (st.1, h1)
    | Outcome.fault => Outcome.fault
    | Outcome.timeout => Outcome.timeout

/-- The queue header and heap after a sequence of calls. -/
def run : List Call → Option queue_t × Heap → Outcome (Option queue_t × Heap)
  | [], st => Outcome.done st
  | c :: cs, st =>
    match step st c with
    | Outcome.done st1 => run cs st1
    | Outcome.fault => Outcome.fault
    | Outcome.timeout => Outcome.timeout

/-- The queue header of a finished run (`none` when it did not finish). -/
def Outcome.queue : Outcome (Option queue_t × Heap) → Option queue_t
  | Outcome.done (q, _) => q
  | _ => none

/-- The heap of a finished run (the empty heap when it did not finish). -/
def Outcome.heap : Outcome (Option queue_t × Heap) → Heap
  | Outcome.done (_, h) => h
  | _ => emptyHeap

/-- The start of every run: the queue `q_new` returns, in an empty heap. -/
def initial : Option queue_t × Heap := (q_new true, emptyHeap)

/-- The strings "banana", "apple", "cherry". -/
def fruit : List (List Nat) :=
  [[98, 97, 110, 97, 110, 97], [97, 112, 112, 108, 101], [99, 104, 101, 114, 114, 121]]

/-- The queue after `insert_tail` of "banana", "apple", "cherry". -/
def fruitState : Outcome (Option queue_t × Heap) :=
  run [Call.insert_tail (some [98, 97, 110, 97, 110, 97]) (some 0) (some 0),
    Call.insert_tail (some [97, 112, 112, 108, 101]) (some 1) (some 1),
    Call.insert_tail (some [99, 104, 101, 114, 114, 121]) (some 2) (some 2)] initial

/-- The queue after `insert_head` of "a", "b", "c". -/
def abcState : Outcome (Option queue_t × Heap) :=
  run [Call.insert_head (some [97]) (some 0) (some 0),
    Call.insert_head (some [98]) (some 1) (some 1),
    Call.insert_head (some [99]) (some 2) (some 2)] initial

/-- The queue after `insert_head` of "a". -/
def oneState : Outcome (Option queue_t × Heap) :=
  run [Call.insert_head (some [97]) (some 0) (some 0)] initial

/-- The queue after `insert_head` of "a" followed by `remove_head`. -/
def emptiedState : Outcome (Option queue_t × Heap) :=
  run [Call.insert_head (some [97]) (some 0) (some 0), Call.remove_head none 0] initial

/-- The queue after `insert_head` of "a", "a", "a". -/
def aaaState : Outcome (Option queue_t × Heap) :=
  run [Call.insert_head (some [97]) (some 0) (some 0),
    Call.insert_head (some [97]) (some 1) (some 1),
    Call.insert_head (some [97]) (some 2) (some 2)] initial

/-- The queue after `insert_tail` of "b" and "a", the allocator placing the string "b" at the
address `2 ^ 32 + 5` and the string "a" at the address `2 ^ 33 + 9`: two addresses of a 64-bit
address space that differ above their low 32 bits. -/
def farState : Outcome (Option queue_t × Heap) :=
  run [Call.insert_tail (some [98]) (some 0) (some 4294967301),
    Call.insert_tail (some [97]) (some 1) (some 8589934601)] initial

/-- A heap in which two strings of the caller, which belong to no queue, are live: "x" at the
address `2 ^ 32 + 9` and "y" at the address `2 ^ 33 + 5`. -/
def callerHeap : Heap :=
  (emptyHeap.setStr 4294967305 (some [120])).setStr 8589934597 (some [121])

/-- The queue of `farState`, "b" at `2 ^ 32 + 5` and "a" at `2 ^ 33 + 9`, built by a caller
whose heap is `callerHeap`. -/
def mixState : Outcome (Option queue_t × Heap) :=
  run [Call.insert_tail (some [98]) (some 0) (some 4294967301),
    Call.insert_tail (some [97]) (some 1) (some 8589934601)] (q_new true, callerHeap)

/-- The queue after `insert_tail` of "d" and "a" in `callerHeap`, the allocator placing "d" at
`2 ^ 33 + 9` and "a" at `2 ^ 32 + 5`. -/
def loopState : Outcome (Option queue_t × Heap) :=
  run [Call.insert_tail (some [100]) (some 0) (some 8589934601),
    Call.insert_tail (some [97]) (some 1) (some 4294967301)] (q_new true, callerHeap)

/-- The queue after `insert_tail` of "b", "c" and "a" in `callerHeap`, the allocator placing
"b" at `2 ^ 32 + 5`, "c" at `2 ^ 32 + 7` and "a" at `2 ^ 33 + 9`. -/
def strayState : Outcome (Option queue_t × Heap) :=
  run [Call.insert_tail (some [98]) (some 0) (some 4294967301),
    Call.insert_tail (some [99]) (some 1) (some 4294967303),
    Call.insert_tail (some [97]) (some 2) (some 8589934601)] (q_new true, callerHeap)

/-! ## Observed runs and the reference list model -/

/-- What the caller observes of one call: the flag an insertion returns, the flag a removal
returns together with the caller's buffer after the call, or nothing (`q_reverse`, `q_sort`). -/
inductive Obs where
  | ins (ok : Bool)
  | rem (ok : Bool) (buf : Option (List Nat))
  | unit
deriving DecidableEq

/-- One call, with the queue header and heap after it and what the caller observes. -/
def stepObs (st : Option queue_t × Heap) : Call → Outcome ((Option queue_t × Heap) × Obs)
  | Call.insert_head s newh dup =>
    Outcome.done (((q_insert_head st.2 st.1 s newh dup).2.1,
      (q_insert_head st.2 st.1 s newh dup).2.2), Obs.ins (q_insert_head st.2 st.1 s newh dup).1)
  | Call.insert_tail s newh dup =>
    match q_insert_tail st.2 st.1 s newh dup with
    | Outcome.done (ok, q1, h1) => Outcome.done ((q1, h1), Obs.ins ok)
    | Outcome.fault => Outcome.fault
    | Outcome.timeout => Outcome.timeout
  | Call.remove_head sp bufsize =>
    match q_remove_head st.2 st.1 sp bufsize with
    | Outcome.done (ok, q1, h1, sp1) => Outcome.done ((q1, h1), Obs.rem ok sp1)
    | Outcome.fault => Outcome.fault
    | Outcome.timeout => Outcome.timeout
  | Call.reverse fuel =>
    match q_reverse fuel st.2 st.1 with
    | Outcome.done st1 => Outcome.done (st1, Obs.unit)
    | Outcome.fault => Outcome.fault
    | Outcome.timeout => Outcome.timeout
  | Call.sort fuel =>
    match q_sort fuel st.2 st.1 with
    | Outcome.done h1 => Outcome.done ((st.1, h1), Obs.unit)
    | Outcome.fault => Outcome.fault
    | Outcome.timeout => Outcome.timeout

/-- A sequence of calls, with the final queue header and heap and the list of observations. -/
def runObs : List Call → Option queue_t × Heap →
    Outcome ((Option queue_t × Heap) × List Obs)
  | [], st => Outcome.done (st, [])
  | c :: cs, st =>
    match stepObs st c with
    | Outcome.done (st1, o) =>
      match runObs cs st1 with
      | Outcome.done (st2, os) => Outcome.done (st2, o :: os)
      | Outcome.fault => Outcome.fault
      | Outcome.timeout => Outcome.timeout
    | Outcome.fault => Outcome.fault
    | Outcome.timeout => Outcome.timeout

/-- The number of insertions that returned true. -/
def inserted : List Obs → Int
  | [] => 0
  | Obs.ins true :: os => inserted os + 1
  | _ :: os => inserted os

/-- The number of removals that returned true. -/
def removed : List Obs → Int
  | [] => 0
  | Obs.rem true _ :: os => removed os + 1
  | _ :: os => removed os

/-- What the removals of a run returned: the flag and, for a successful removal, the C string
left in the caller's buffer. -/
def removals : List Obs → List (Bool × List Nat)
  | [] => []
  | Obs.rem ok buf :: os => (ok, if ok then cstr (buf.getD []) else []) :: removals os
  | _ :: os => removals os

/-- The result of a finished computation, `none` when it faulted or ran out of fuel. -/
def Outcome.get? {α : Type} : Outcome α → Option α
  | Outcome.done a => some a
  | Outcome.fault => none
  | Outcome.timeout => none

/-- The conditions on the caller and the allocator under which a call is made on a queue: the
allocator hands out addresses that are not live, a provided buffer has at least `bufsize`
bytes, and `q_remove_head` is not applied to a queue of size 1. Only the three calls
`q_insert_head`, `q_insert_tail` and `q_remove_head` are admitted. -/
def CallOK (st : Option queue_t × Heap) : Call → Prop
  | Call.insert_head _ newh dup =>
    (∀ a, newh = some a → st.2.ele a = none) ∧ (∀ p, dup = some p → st.2.str p = none)
  | Call.insert_tail _ newh dup =>
    (∀ a, newh = some a → st.2.ele a = none) ∧ (∀ p, dup = some p → st.2.str p = none)
  | Call.remove_head sp bufsize =>
    (∀ buf, sp = some buf → bufsize ≤ buf.length) ∧ (∀ q, st.1 = some q → q.size ≠ 1)
  | Call.reverse _ => False
  | Call.sort _ => False

/-- Every call of the sequence is made under `CallOK`, in the state the calls before it have
left. -/
def SafeRun : List Call → Option queue_t × Heap → Prop
  | [], _ => True
  | c :: cs, st => CallOK st c ∧ ∀ st1 o, stepObs st c = Outcome.done (st1, o) → SafeRun cs st1

/-- The reference list model (C19), one call: `insert_head` is cons, `insert_tail` is
append at the end, `remove_head` takes the first element and fails on the empty list. Returns
the list after the call and what a removal returns (flag and string). Insertions are taken to
succeed; an insertion of an absent string leaves the list as it is. -/
def refStep (l : List (List Nat)) : Call → List (List Nat) × List (Bool × List Nat)
  | Call.insert_head (some s) _ _ => (s :: l, [])
  | Call.insert_tail (some s) _ _ => (l ++ [s], [])
  | Call.remove_head _ _ =>
    match l with
    | [] => ([], [(false, [])])
    | x :: xs => (xs, [(true, x)])
  | _ => (l, [])

/-- The reference list model on a sequence of calls: the final list and what the removals
returned. -/
def refRun : List Call → List (List Nat) → List (List Nat) × List (Bool × List Nat)
  | [], l => (l, [])
  | c :: cs, l =>
    ((refRun cs (refStep l c).1).1, (refStep l c).2 ++ (refRun cs (refStep l c).1).2)

/-- The trace examined for C19: `insert_head` "a", `remove_head`, `insert_head` "b",
`insert_tail` "c", `remove_head`, `remove_head`, with buffers of four bytes. The allocator
gives "a" the addresses 0, "b" the new addresses 1, and "c" the addresses 0 again, which were
freed by the first removal. -/
def candidateTrace : List Call :=
  [Call.insert_head (some [97]) (some 0) (some 0),
    Call.remove_head (some [0, 0, 0, 0]) 4,
    Call.insert_head (some [98]) (some 1) (some 1),
    Call.insert_tail (some [99]) (some 0) (some 0),
    Call.remove_head (some [0, 0, 0, 0]) 4,
    Call.remove_head (some [0, 0, 0, 0]) 4]

/-- A run of five calls: `insert_head` "a", `insert_tail` "b", `remove_head`,
`insert_head` "c", and `insert_head` with an absent string. -/
def countTrace : List Call :=
  [Call.insert_head (some [97]) (some 0) (some 0),
    Call.insert_tail (some [98]) (some 1) (some 1),
    Call.remove_head none 0,
    Call.insert_head (some [99]) (some 2) (some 2),
    Call.insert_head none (some 3) (some 3)]

/-- A run of three calls: `insert_head` "a", `remove_head`, and `insert_tail` "b", for which
the allocator returns new addresses. -/
def staleTrace : List Call :=
  [Call.insert_head (some [97]) (some 0) (some 0),
    Call.remove_head none 0,
    Call.insert_tail (some [98]) (some 1) (some 1)]

/-- A run of five calls: `insert_head` "a", `remove_head`, `insert_tail` "b", for which the
allocator hands out again the addresses freed by the removal, and `remove_head` twice. -/
def reuseTrace : List Call :=
  [Call.insert_head (some [97]) (some 0) (some 0),
    Call.remove_head none 0,
    Call.insert_tail (some [98]) (some 0) (some 0),
    Call.remove_head none 0,
    Call.remove_head none 0]

/-! ## The calls and loop states of `qsortImplement` -/

/-- A call of `qsortImplement`: the heap on entry, `start` and `end`. The call `c1` is one of
the two recursive calls made by the call `c`: the guard of `c` fails, its partition loop
returns `h1` and `pivot`, and `c1` is either the first recursive call, on `start` and `pivot`,
or, once that one has returned `h2`, the second one, on `pivot->next` and `end`. -/
def SubCall (c c1 : Heap × Option Nat × Option Nat) : Prop :=
  ¬ (c.2.1 = none ∨ c.2.2 = none ∨ c.2.1 = c.2.2) ∧
  ∃ fuel h1 pivot, partitionLoop fuel c.1 c.2.1 c.2.1 c.2.2 = Outcome.done (h1, pivot) ∧
    (c1 = (h1, c.2.1, pivot) ∨
      ∃ fuel2 h2 ep, qsortImplement fuel2 h1 c.2.1 pivot = Outcome.done h2 ∧
        deref h2 pivot = some ep ∧ c1 = (h2, ep.next, c.2.2))

/-- The states (heap, `pivot`, `ptr`) in which the body of the `do ... while` loop of the call
on `start` and `e` with entry heap `h0` is entered: the entry state, and every state a pass
through the body leaves in which the loop condition holds. -/
inductive AtHead (h0 : Heap) (start e : Option Nat) : Heap → Option Nat → Option Nat → Prop
  | entry : AtHead h0 start e h0 start start
  | again {h : Heap} {pv pt : Option Nat} {h1 : Heap} {pv1 pt1 : Option Nat} :
      AtHead h0 start e h pv pt →
      partitionBody h pv pt = Outcome.done (h1, pv1, pt1) →
      (pt1 ≠ none ∧ pt1 ≠ e ∧ pv1 ≠ none ∧ pv1 ≠ e) →
      AtHead h0 start e h1 pv1 pt1

/-- What holds of every call `c` made while sorting a chain `ns` whose strings lie in one
window: `start` is `NULL`, or `start` to `end` is a range `seg` of distinct elements of `ns`
with live strings in one window, linked in this order, after which the chain ends or whose last
element holds the strict maximum. -/
def RangeOK (ns : List Nat) (c : Heap × Option Nat × Option Nat) : Prop :=
  c.2.1 = none ∨
  ∃ seg s0 en r, c.2.1 = some s0 ∧ c.2.2 = some en ∧ seg.Nodup ∧ Lseg c.1 (some s0) seg r ∧
    (∀ a ∈ seg, c.1.str (rdValue c.1 a) ≠ none) ∧ OneWindow c.1 seg ∧
    seg.getLast? = some en ∧ (r = none ∨ SMax c.1 seg en) ∧ (∀ a ∈ seg, a ∈ ns)

/-! ## Basic facts about heaps and chains -/

@[simp]
theorem setEle_ele (h : Heap) (a : Nat) (e : Option list_ele_t) (x : Nat) :
    (h.setEle a e).ele x = if x = a then e else h.ele x := rfl

@[simp]
theorem setEle_str (h : Heap) (a : Nat) (e : Option list_ele_t) :
    (h.setEle a e).str = h.str := rfl

@[simp]
theorem setStr_str (h : Heap) (p : Nat) (s : Option (List Nat)) (x : Nat) :
    (h.setStr p s).str x = if x = p then s else h.str x := rfl

@[simp]
theorem setStr_ele (h : Heap) (p : Nat) (s : Option (List Nat)) :
    (h.setStr p s).ele = h.ele := rfl

theorem heap_ext {h h1 : Heap} (he : ∀ x, h1.ele x = h.ele x) (hs : ∀ x, h1.str x = h.str x) :
    h1 = h := by
  cases h; cases h1
  simp only [Heap.mk.injEq]
  exact ⟨funext he, funext hs⟩

/-- Allocating a fresh element and freeing it again gives back the heap. -/
theorem alloc_free_ele (h : Heap) (a : Nat) (e : list_ele_t) (hf : h.ele a = none) :
    (h.setEle a (some e)).setEle a none = h := by
  apply heap_ext
  · intro x
    by_cases hx : x = a
    · simp [hx, hf]
    · simp [hx]
  · intro x; rfl

theorem Lseg_live {h : Heap} : ∀ {ns : List Nat} {p r : Option Nat}, Lseg h p ns r →
    ∀ x ∈ ns, ∃ e, h.ele x = some e
  | [], _, _, _, x, hx => by simp at hx
  | a :: as, p, r, hl, x, hx => by
    obtain ⟨-, e, he, hrest⟩ := hl
    rcases List.mem_cons.1 hx with rfl | hx1
    · exact ⟨e, he⟩
    · exact Lseg_live hrest x hx1

theorem Lseg_frame {h h1 : Heap} : ∀ {ns : List Nat} {p r : Option Nat},
    (∀ x ∈ ns, h1.ele x = h.ele x) → Lseg h p ns r → Lseg h1 p ns r
  | [], _, _, _, hl => hl
  | a :: as, p, r, hf, hl => by
    obtain ⟨hp, e, he, hrest⟩ := hl
    refine ⟨hp, e, ?_, Lseg_frame (fun x hx => hf x (List.mem_cons_of_mem _ hx)) hrest⟩
    rw [hf a (List.mem_cons_self _ _)]; exact he

theorem Lseg_append {h : Heap} : ∀ {l1 l2 : List Nat} {p r : Option Nat},
    Lseg h p (l1 ++ l2) r ↔ ∃ m, Lseg h p l1 m ∧ Lseg h m l2 r
  | [], l2, p, r => by
    constructor
    · intro hl; exact ⟨p, rfl, hl⟩
    · rintro ⟨m, hm, hl⟩
      have : p = m := hm
      subst this; exact hl
  | a :: l1, l2, p, r => by
    constructor
    · rintro ⟨hp, e, he, hrest⟩
      obtain ⟨m, h1, h2⟩ := Lseg_append.1 hrest
      exact ⟨m, ⟨hp, e, he, h1⟩, h2⟩
    · rintro ⟨m, ⟨hp, e, he, h1⟩, h2⟩
      exact ⟨hp, e, he, Lseg_append.2 ⟨m, h1, h2⟩⟩

theorem Lseg_single {h : Heap} {p r : Option Nat} {a : Nat} :
    Lseg h p [a] r ↔ p = some a ∧ ∃ e, h.ele a = some e ∧ e.next = r := Iff.rfl

/-- Two chains from the same pointer that both end in `NULL` are the same chain. -/
theorem Lseg_none_unique {h : Heap} : ∀ {l1 l2 : List Nat} {p : Option Nat},
    Lseg h p l1 none → Lseg h p l2 none → l1 = l2
  | [], [], _, _, _ => rfl
  | [], b :: l2, p, h1, h2 => by
    have hp : p = none := h1
    obtain ⟨hp2, -⟩ := h2
    rw [hp] at hp2; cases hp2
  | a :: l1, [], p, h1, h2 => by
    have hp : p = none := h2
    obtain ⟨hp1, -⟩ := h1
    rw [hp] at hp1; cases hp1
  | a :: l1, b :: l2, p, h1, h2 => by
    obtain ⟨hp1, e1, he1, hr1⟩ := h1
    obtain ⟨hp2, e2, he2, hr2⟩ := h2
    rw [hp1] at hp2
    cases hp2
    rw [he1] at he2
    cases he2
    rw [Lseg_none_unique hr1 hr2]

/-- A chain that ends in `NULL` visits no element twice. -/
theorem Lseg_nodup {h : Heap} : ∀ {ns : List Nat} {p : Option Nat}, Lseg h p ns none → ns.Nodup
  | [], _, _ => List.nodup_nil
  | a :: as, p, hl => by
    have hl0 := hl
    obtain ⟨hp, e, he, hrest⟩ := hl
    refine List.nodup_cons.2 ⟨?_, Lseg_nodup hrest⟩
    intro hmem
    obtain ⟨l1, l2, hsplit⟩ := List.append_of_mem hmem
    rw [hsplit] at hrest
    obtain ⟨m, -, h2⟩ := Lseg_append.1 hrest
    have hm : m = some a := h2.1
    rw [hm, ← hp] at h2
    have := Lseg_none_unique hl0 h2
    have hlen := congrArg List.length this
    rw [hsplit] at hlen
    simp at hlen
    omega

theorem strAt_congr {h h1 : Heap} {x : Nat} {v : List Nat} (he : h1.ele x = h.ele x)
    (hs : ∀ p, h.str p ≠ none → h1.str p = h.str p) (hv : strAt h x = some v) :
    strAt h1 x = some v := by
  unfold strAt at hv ⊢
  rw [he]
  cases hx : h.ele x with
  | none => rw [hx] at hv; cases hv
  | some e =>
    rw [hx] at hv
    simp only at hv ⊢
    rw [hs e.value (by rw [hv]; simp), hv]

theorem rdValue_congr {h h1 : Heap} {x : Nat} (he : h1.ele x = h.ele x) :
    rdValue h1 x = rdValue h x := by
  unfold rdValue; rw [he]

theorem map_strAt_frame {h h1 : Heap} {ns : List Nat} {L : List (List Nat)}
    (he : ∀ x ∈ ns, h1.ele x = h.ele x) (hs : ∀ p, h.str p ≠ none → h1.str p = h.str p)
    (hv : ns.map (strAt h) = L.map some) : ns.map (strAt h1) = L.map some := by
  rw [← hv]
  apply List.map_congr_left
  intro x hx
  have hmem : strAt h x ∈ L.map some := by rw [← hv]; exact List.mem_map_of_mem _ hx
  obtain ⟨v, -, hv1⟩ := List.mem_map.1 hmem
  rw [strAt_congr (he x hx) hs hv1.symm, hv1]

theorem map_rdValue_frame {h h1 : Heap} {ns : List Nat}
    (he : ∀ x ∈ ns, h1.ele x = h.ele x) : ns.map (rdValue h1) = ns.map (rdValue h) :=
  List.map_congr_left (fun x hx => rdValue_congr (he x hx))

/-- In a well-formed queue every element holds a live string. -/
theorem WF.strAt_some {h : Heap} {q : queue_t} {ns : List Nat} {L : List (List Nat)}
    (w : WF h q ns L) : ∀ x ∈ ns, ∃ v, v ∈ L ∧ strAt h x = some v := by
  intro x hx
  have hmem : strAt h x ∈ L.map some := by rw [← w.vals]; exact List.mem_map_of_mem _ hx
  obtain ⟨v, hv, hv1⟩ := List.mem_map.1 hmem
  exact ⟨v, hv, hv1.symm⟩

theorem WF.length_eq {h : Heap} {q : queue_t} {ns : List Nat} {L : List (List Nat)}
    (w : WF h q ns L) : ns.length = L.length := by
  have := congrArg List.length w.vals
  simpa using this

/-- The string pointer of an element with a live string is a live string address. -/
theorem strAt_some_str {h : Heap} {x : Nat} {v : List Nat} (hv : strAt h x = some v) :
    h.str (rdValue h x) = some v := by
  unfold strAt at hv
  unfold rdValue
  cases hx : h.ele x with
  | none => rw [hx] at hv; cases hv
  | some e => rw [hx] at hv; exact hv

/-- Walking a `NULL`-terminated chain whose elements hold the strings `L` reads `L`. -/
theorem readFrom_of_chain {h : Heap} : ∀ {ns : List Nat} {L : List (List Nat)} {p : Option Nat}
    (fuel : Nat), Lseg h p ns none → ns.map (strAt h) = L.map some → ns.length ≤ fuel →
    readFrom h fuel p = some L
  | [], L, p, fuel, hl, hv, _ => by
    have hp : p = none := hl
    subst hp
    have : L = [] := by
      cases L with
      | nil => rfl
      | cons v L => simp at hv
    subst this
    cases fuel <;> rfl
  | a :: as, [], p, fuel, hl, hv, _ => by simp at hv
  | a :: as, v :: L, p, 0, hl, hv, hf => by simp at hf
  | a :: as, v :: L, p, fuel + 1, hl, hv, hf => by
    obtain ⟨hp, e, he, hrest⟩ := hl
    subst hp
    simp only [List.map_cons, List.cons.injEq] at hv
    have hv1 : h.str e.value = some v := by
      have := hv.1
      unfold strAt at this
      rw [he] at this
      exact this
    have ih := readFrom_of_chain fuel hrest hv.2 (by simpa using hf)
    simp only [readFrom, he, hv1, ih]

theorem WF.readFrom {h : Heap} {q : queue_t} {ns : List Nat} {L : List (List Nat)}
    (w : WF h q ns L) (fuel : Nat) (hf : L.length ≤ fuel) : readFrom h fuel q.head = some L :=
  readFrom_of_chain fuel w.chain w.vals (by rw [w.length_eq]; exact hf)

/-- An address that is not live is not an element of a well-formed queue. -/
theorem WF.not_mem_of_fresh {h : Heap} {q : queue_t} {ns : List Nat} {L : List (List Nat)}
    (w : WF h q ns L) {a : Nat} (ha : h.ele a = none) : a ∉ ns := by
  intro hmem
  obtain ⟨e, he⟩ := Lseg_live w.chain a hmem
  rw [ha] at he; cases he

/-- A string address that is not live is not the string of an element of a well-formed queue. -/
theorem WF.fresh_str_not_mem {h : Heap} {q : queue_t} {ns : List Nat} {L : List (List Nat)}
    (w : WF h q ns L) {p : Nat} (hp : h.str p = none) : p ∉ ns.map (rdValue h) := by
  intro hmem
  obtain ⟨x, hx, hxp⟩ := List.mem_map.1 hmem
  obtain ⟨v, -, hv⟩ := w.strAt_some x hx
  have := strAt_some_str hv
  rw [hxp, hp] at this; cases this

/-- The empty queue in any heap is well formed. -/
theorem WF_empty (h : Heap) : WF h ⟨none, none, 0⟩ [] [] :=
  ⟨rfl, rfl, rfl, rfl, List.nodup_nil⟩

theorem WF.head_eq {h : Heap} {q : queue_t} {ns : List Nat} {L : List (List Nat)}
    (w : WF h q ns L) : q.head = ns.head? := by
  cases ns with
  | nil => exact w.chain
  | cons a as => exact w.chain.1

/-- Effect of a successful `q_insert_head` on a well-formed queue. -/
theorem insert_head_wf {h : Heap} {q : queue_t} {ns : List Nat} {L : List (List Nat)}
    (s : List Nat) {a p : Nat} (w : WF h q ns L) (ha : h.ele a = none) (hp : h.str p = none) :
    WF (((h.setEle a (some ⟨0, none⟩)).setStr p (some s)).setEle a (some ⟨p, q.head⟩))
      ⟨some a, if q.tail = none then some a else q.tail, q.size + 1⟩ (a :: ns) (s :: L) := by
  have hna : a ∉ ns := w.not_mem_of_fresh ha
  have hfr : ∀ x ∈ ns,
      (((h.setEle a (some ⟨0, none⟩)).setStr p (some s)).setEle a (some ⟨p, q.head⟩)).ele x
        = h.ele x := by
    intro x hx
    have hxa : x ≠ a := fun hxa => hna (hxa ▸ hx)
    simp [hxa]
  have hsr : ∀ x, h.str x ≠ none →
      (((h.setEle a (some ⟨0, none⟩)).setStr p (some s)).setEle a (some ⟨p, q.head⟩)).str x
        = h.str x := by
    intro x hx
    have hxp : x ≠ p := fun hxp => hx (hxp ▸ hp)
    simp [hxp]
  refine ⟨?_, ?_, ?_, ?_, ?_⟩
  · exact ⟨rfl, ⟨p, q.head⟩, by simp, Lseg_frame hfr w.chain⟩
  · simp only
    rw [w.tail_last]
    cases ns with
    | nil => simp
    | cons b bs =>
      have : (b :: bs).getLast? ≠ none := by simp
      rw [if_neg this, List.getLast?_cons_cons]
  · simp only [List.length_cons, w.size_len]; push_cast; ring
  · simp only [List.map_cons, List.cons.injEq]
    refine ⟨?_, map_strAt_frame hfr hsr w.vals⟩
    simp [strAt]
  · simp only [List.map_cons]
    rw [map_rdValue_frame hfr]
    refine List.nodup_cons.2 ⟨?_, w.owned⟩
    have : rdValue (((h.setEle a (some ⟨0, none⟩)).setStr p (some s)).setEle a
        (some ⟨p, q.head⟩)) a = p := by simp [rdValue]
    rw [this]
    exact w.fresh_str_not_mem hp

theorem Lseg_snoc {h : Heap} {l : List Nat} {p r : Option Nat} {t : Nat} :
    Lseg h p (l ++ [t]) r ↔ Lseg h p l (some t) ∧ ∃ e, h.ele t = some e ∧ e.next = r := by
  rw [Lseg_append]
  constructor
  · rintro ⟨m, h1, hm, e, he, hr⟩
    subst hm
    exact ⟨h1, e, he, hr⟩
  · rintro ⟨h1, e, he, hr⟩
    exact ⟨some t, h1, rfl, e, he, hr⟩

/-- Effect of a successful `q_insert_tail` on a well-formed non-empty queue whose last element
is `t`. -/
theorem insert_tail_wf {h : Heap} {q : queue_t} {l : List Nat} {t : Nat} {L : List (List Nat)}
    (s : List Nat) {a p : Nat} {et : list_ele_t} (w : WF h q (l ++ [t]) L)
    (ha : h.ele a = none) (hp : h.str p = none) (het : h.ele t = some et) :
    WF ((((h.setEle a (some ⟨0, none⟩)).setStr p (some s)).setEle a (some ⟨p, none⟩)).setEle t
        (some { et with next := some a }))
      ⟨q.head, some a, q.size + 1⟩ ((l ++ [t]) ++ [a]) (L ++ [s]) := by
  have hna : a ∉ l ++ [t] := w.not_mem_of_fresh ha
  have hta : t ≠ a := fun hta => hna (by simp [hta])
  have hnd : (l ++ [t]).Nodup := Lseg_nodup w.chain
  have htl : t ∉ l := by
    intro hmem
    have := List.nodup_append.1 hnd
    exact this.2.2 hmem (List.mem_singleton_self t) 
  have hfr : ∀ x ∈ l,
      ((((h.setEle a (some ⟨0, none⟩)).setStr p (some s)).setEle a (some ⟨p, none⟩)).setEle t
        (some { et with next := some a })).ele x = h.ele x := by
    intro x hx
    have hxa : x ≠ a := fun hxa => hna (by simp [← hxa, hx])
    have hxt : x ≠ t := fun hxt => htl (hxt ▸ hx)
    simp [hxa, hxt]
  have hsr : ∀ x, h.str x ≠ none →
      ((((h.setEle a (some ⟨0, none⟩)).setStr p (some s)).setEle a (some ⟨p, none⟩)).setEle t
        (some { et with next := some a })).str x = h.str x := by
    intro x hx
    have hxp : x ≠ p := fun hxp => hx (hxp ▸ hp)
    simp [hxp]
  obtain ⟨hch, e0, he0, hnext⟩ := Lseg_snoc.1 w.chain
  rw [het] at he0
  cases he0
  have hvals := w.vals
  have hlen := w.length_eq
  obtain ⟨L0, v, rfl⟩ : ∃ L0 v, L = L0 ++ [v] := by
    rcases List.eq_nil_or_concat L with hnil | ⟨L0, v, hL⟩
    · subst hnil; simp at hlen
    · exact ⟨L0, v, by simpa using hL⟩
  simp only [List.map_append, List.map_cons, List.map_nil] at hvals
  have hlen0 : (l.map (strAt h)).length = (L0.map some).length := by
    simp at hlen; simpa using hlen
  obtain ⟨hv0, hv1⟩ := List.append_inj hvals hlen0
  simp only [List.cons.injEq, and_true] at hv1
  have hvt : h.str et.value = some v := by
    unfold strAt at hv1; rw [het] at hv1; exact hv1
  have hvp : et.value ≠ p := fun hx => by rw [hx, hp] at hvt; cases hvt
  refine ⟨?_, ?_, ?_, ?_, ?_⟩
  · refine Lseg_snoc.2 ⟨Lseg_snoc.2 ⟨Lseg_frame hfr hch, ⟨et.value, some a⟩, by simp, rfl⟩, ⟨p, none⟩, ?_, rfl⟩
    simp [hta.symm]
  · simp
  · simp only [List.length_append, List.length_singleton, w.size_len]; push_cast; rfl
  · simp only [List.map_append, List.map_cons, List.map_nil]
    rw [map_strAt_frame hfr hsr hv0]
    simp [strAt, hta.symm, hvp, hvt]
  · have hown := w.owned
    simp only [List.map_append, List.map_cons, List.map_nil] at hown ⊢
    rw [map_rdValue_frame hfr]
    have h1 : rdValue ((((h.setEle a (some ⟨0, none⟩)).setStr p (some s)).setEle a
        (some ⟨p, none⟩)).setEle t (some { et with next := some a })) t = rdValue h t := by
      simp [rdValue, het]
    have h2 : rdValue ((((h.setEle a (some ⟨0, none⟩)).setStr p (some s)).setEle a
        (some ⟨p, none⟩)).setEle t (some { et with next := some a })) a = p := by
      simp [rdValue, hta.symm]
    rw [h1, h2]
    have hpn := w.fresh_str_not_mem hp
    simp only [List.map_append, List.map_cons, List.map_nil] at hpn
    rw [List.nodup_append]
    refine ⟨hown, List.nodup_singleton _, ?_⟩
    intro x hx hx2
    rw [List.mem_singleton] at hx2
    exact hpn (hx2 ▸ hx)

/-! ## The buffer copy of `q_remove_head` -/

theorem cstr_append_zero : ∀ (A R : List Nat), (∀ b ∈ A, b ≠ 0) → cstr (A ++ 0 :: R) = A
  | [], R, _ => by simp [cstr]
  | a :: A, R, hA => by
    have ha : a ≠ 0 := hA a (List.mem_cons_self _ _)
    have ih := cstr_append_zero A R (fun b hb => hA b (List.mem_cons_of_mem _ hb))
    unfold cstr at ih ⊢
    simp only [List.cons_append, List.takeWhile_cons, bne_iff_ne, ne_eq, ha, not_false_eq_true,
      if_true, ih]

/-- What `strncpy` followed by `sp[bufsize - 1] = 0` leaves in a region of at least `c` bytes. -/
theorem copy_region (buf v : List Nat) (c : Nat) (hc : 1 < c) :
    (v.take c ++ List.replicate (c - v.length) 0 ++ buf.drop c).set (c - 1) 0
      = v.take (c - 1) ++ List.replicate (c - 1 - v.length) 0 ++ 0 :: buf.drop c := by
  have hX : (v.take c ++ List.replicate (c - v.length) 0).length = c := by
    simp only [List.length_append, List.length_take, List.length_replicate]
    omega
  rw [List.set_eq_take_append_cons_drop]
  have hlt : c - 1 < (v.take c ++ List.replicate (c - v.length) 0 ++ buf.drop c).length := by
    rw [List.length_append, hX]; omega
  rw [if_pos hlt]
  have h1 : (v.take c ++ List.replicate (c - v.length) 0 ++ buf.drop c).drop (c - 1 + 1)
      = buf.drop c := by
    have : c - 1 + 1 = c := by omega
    rw [this]
    exact List.drop_left' hX
  have h2 : (v.take c ++ List.replicate (c - v.length) 0 ++ buf.drop c).take (c - 1)
      = v.take (c - 1) ++ List.replicate (c - 1 - v.length) 0 := by
    rw [List.append_assoc, List.take_append_eq_append_take, List.take_take,
      List.take_append_eq_append_take, List.take_replicate]
    have e1 : min (c - 1) c = c - 1 := by omega
    have e2 : c - 1 - (v.take c).length - (List.replicate (c - v.length) 0).length = 0 := by
      simp only [List.length_take, List.length_replicate]; omega
    have e3 : min (c - 1 - (v.take c).length) (c - v.length) = c - 1 - v.length := by
      simp only [List.length_take]; omega
    rw [e1, e2, e3]
    simp
  rw [h1, h2]

/-- With a provided buffer of at least `c > 1` bytes the copy succeeds; the region then holds,
as a C string, the first `min (length v) (c - 1)` bytes of `v`, has a NUL at index `c - 1`, and
is unchanged from index `c` on. -/
theorem copyOut_spec (buf v : List Nat) (c : Nat) (hc : 1 < c) (hlen : c ≤ buf.length)
    (hv : ∀ b ∈ v, b ≠ 0) :
    ∃ buf1, copyOut (some buf) v c = Outcome.done (some buf1) ∧
      cstr buf1 = v.take (min v.length (c - 1)) ∧ buf1.length = buf.length ∧
      buf1.drop c = buf.drop c ∧ buf1[c - 1]? = some 0 := by
  refine ⟨(v.take c ++ List.replicate (c - v.length) 0 ++ buf.drop c).set (c - 1) 0, ?_, ?_, ?_,
    ?_, ?_⟩
  · simp [copyOut, strncpy, hc, hlen]
  · rw [copy_region buf v c hc]
    have hmin : v.take (min v.length (c - 1)) = v.take (c - 1) := by
      rcases Nat.le_total v.length (c - 1) with hle | hle
      · rw [Nat.min_eq_left hle, List.take_of_length_le hle, List.take_of_length_le (le_refl _)]
      · rw [Nat.min_eq_right hle]
    rw [hmin]
    have hnz : ∀ b ∈ v.take (c - 1), b ≠ 0 := fun b hb => hv b (List.mem_of_mem_take hb)
    cases hk : c - 1 - v.length with
    | zero => simpa using cstr_append_zero _ _ hnz
    | succ k =>
      rw [List.replicate_succ, List.append_assoc, List.cons_append]
      exact cstr_append_zero _ _ hnz
  · simp only [List.length_set, List.length_append, List.length_take, List.length_replicate,
      List.length_drop]
    omega
  · rw [copy_region buf v c hc]
    have hl : (v.take (c - 1) ++ List.replicate (c - 1 - v.length) 0 ++ [0]).length = c := by
      simp only [List.length_append, List.length_take, List.length_replicate,
        List.length_singleton]
      omega
    have : v.take (c - 1) ++ List.replicate (c - 1 - v.length) 0 ++ 0 :: buf.drop c
        = (v.take (c - 1) ++ List.replicate (c - 1 - v.length) 0 ++ [0]) ++ buf.drop c := by
      simp
    rw [this]
    exact List.drop_left' hl
  · rw [copy_region buf v c hc]
    have hl : (v.take (c - 1) ++ List.replicate (c - 1 - v.length) 0).length = c - 1 := by
      simp only [List.length_append, List.length_take, List.length_replicate]
      omega
    rw [List.getElem?_append_right (by rw [hl]), hl]
    simp

/-- The copy succeeds whenever the buffer, if provided, has at least `bufsize` bytes. -/
theorem copyOut_done (sp : Option (List Nat)) (v : List Nat) (c : Nat)
    (hsp : ∀ buf, sp = some buf → c ≤ buf.length) :
    ∃ sp1, copyOut sp v c = Outcome.done sp1 := by
  cases sp with
  | none => exact ⟨none, rfl⟩
  | some buf =>
    have := hsp buf rfl
    by_cases hc : 1 < c
    · exact ⟨some ((v.take c ++ List.replicate (c - v.length) 0 ++ buf.drop c).set (c - 1) 0),
        by simp [copyOut, strncpy, hc, this]⟩
    · exact ⟨some buf, by simp [copyOut, hc]⟩

/-! ## Removal -/

theorem strAt_congr_ptr {h h1 : Heap} {x : Nat} (he : h1.ele x = h.ele x)
    (hs : h1.str (rdValue h x) = h.str (rdValue h x)) : strAt h1 x = strAt h x := by
  unfold strAt rdValue at *
  rw [he]
  cases hx : h.ele x with
  | none => rfl
  | some e => rw [hx] at hs; exact hs

/-- After freeing the head element `x` and its string, the rest of a well-formed queue is still
linked, still holds its strings, and still owns them. -/
theorem remove_head_rest {h : Heap} {q : queue_t} {x : Nat} {ns : List Nat} {v : List Nat}
    {L : List (List Nat)} {e : list_ele_t} (w : WF h q (x :: ns) (v :: L))
    (he : h.ele x = some e) :
    Lseg ((h.setStr e.value none).setEle x none) e.next ns none ∧
      ns.map (strAt ((h.setStr e.value none).setEle x none)) = L.map some ∧
      (ns.map (rdValue ((h.setStr e.value none).setEle x none))).Nodup := by
  have hnd : (x :: ns).Nodup := Lseg_nodup w.chain
  have hxn : x ∉ ns := (List.nodup_cons.1 hnd).1
  have hfr : ∀ y ∈ ns, ((h.setStr e.value none).setEle x none).ele y = h.ele y := by
    intro y hy
    have : y ≠ x := fun hyx => hxn (hyx ▸ hy)
    simp [this]
  obtain ⟨-, e0, he0, hrest⟩ := w.chain
  rw [he] at he0
  cases he0
  have hown := w.owned
  simp only [List.map_cons] at hown
  have hxv : rdValue h x = e.value := by simp [rdValue, he]
  rw [hxv] at hown
  have hvals := w.vals
  simp only [List.map_cons, List.cons.injEq] at hvals
  refine ⟨Lseg_frame hfr hrest, ?_, ?_⟩
  · rw [← hvals.2]
    apply List.map_congr_left
    intro y hy
    apply strAt_congr_ptr (hfr y hy)
    have hne : rdValue h y ≠ e.value := by
      intro heq
      exact (List.nodup_cons.1 hown).1 (heq ▸ List.mem_map_of_mem _ hy)
    simp [hne]
  · rw [map_rdValue_frame hfr]
    exact (List.nodup_cons.1 hown).2

/-! ## Reversal -/

theorem SameValues.same_refl (h : Heap) : SameValues h h := ⟨rfl, fun _ => rfl⟩

theorem SameValues.same_trans {h h1 h2 : Heap} (a : SameValues h h1) (b : SameValues h1 h2) :
    SameValues h h2 :=
  ⟨b.1.trans a.1, fun x => (b.2 x).trans (a.2 x)⟩

theorem SameValues.strAt {h h1 : Heap} (sv : SameValues h h1) (a : Nat) :
    strAt h1 a = strAt h a := by
  have h2 := sv.2 a
  unfold Queue.strAt
  rw [sv.1]
  cases hx : h.ele a with
  | none =>
    rw [hx] at h2
    cases hy : h1.ele a with
    | none => rfl
    | some e1 => rw [hy] at h2; simp at h2
  | some e =>
    rw [hx] at h2
    cases hy : h1.ele a with
    | none => rw [hy] at h2; simp at h2
    | some e1 =>
      rw [hy] at h2
      simp only [Option.map_some', Option.some.injEq] at h2
      simp only [h2]

theorem SameValues.rdValue {h h1 : Heap} (sv : SameValues h h1) (a : Nat) :
    rdValue h1 a = rdValue h a := by
  have h2 := sv.2 a
  unfold Queue.rdValue
  cases hx : h.ele a with
  | none =>
    rw [hx] at h2
    cases hy : h1.ele a with
    | none => rfl
    | some e1 => rw [hy] at h2; simp at h2
  | some e =>
    rw [hx] at h2
    cases hy : h1.ele a with
    | none => rw [hy] at h2; simp at h2
    | some e1 =>
      rw [hy] at h2
      simp only [Option.map_some', Option.some.injEq] at h2
      simp only [h2]

/-- Changing only the link of a live element keeps all values. -/
theorem SameValues.setNext (h : Heap) {a : Nat} {e : list_ele_t} (he : h.ele a = some e)
    (n : Option Nat) : SameValues h (h.setEle a (some { e with next := n })) := by
  refine ⟨rfl, fun x => ?_⟩
  by_cases hx : x = a
  · subst hx; simp [he]
  · simp [hx]

/-- The loop of `q_reverse`, started with the elements `D` already moved in front of the old
head `x` and the elements `rem` still behind it, ends with all of `rem` moved to the front in
reverse order. -/
theorem reverseLoop_spec : ∀ (rem D : List Nat) (h : Heap) (head : Option Nat) (x : Nat)
    (fuel : Nat), Lseg h head (D ++ x :: rem) none → rem.length < fuel →
    ∃ h1 head1, reverseLoop fuel h head (some x) = Outcome.done (h1, head1) ∧
      Lseg h1 head1 (rem.reverse ++ D ++ [x]) none ∧ SameValues h h1 ∧
      (∀ a, a ∉ D ++ x :: rem → h1.ele a = h.ele a)
  | [], D, h, head, x, fuel, hl, hf => by
    obtain ⟨k, rfl⟩ : ∃ k, fuel = k + 1 := ⟨fuel - 1, by omega⟩
    obtain ⟨m, hD, hm, ex, hex, hnext⟩ := Lseg_append.1 hl
    have hn : ex.next = none := hnext
    refine ⟨h, head, ?_, ?_, SameValues.same_refl h, fun _ _ => rfl⟩
    · simp only [reverseLoop, hex, hn]
    · simpa using hl
  | t :: rem, D, h, head, x, fuel, hl, hf => by
    obtain ⟨k, rfl⟩ : ∃ k, fuel = k + 1 := ⟨fuel - 1, by omega⟩
    have hnd : (D ++ x :: t :: rem).Nodup := Lseg_nodup hl
    obtain ⟨m, hD, hm, ex, hex, ht, et, het, hrem⟩ := Lseg_append.1 hl
    subst hm
    have hndD := List.nodup_append.1 hnd
    have hnd2 := List.nodup_cons.1 hndD.2.1
    have hnd3 := List.nodup_cons.1 hnd2.2
    have htx : t ≠ x := fun e => hnd2.1 (e ▸ List.mem_cons_self _ _)
    have hxD : x ∉ D := fun hx => hndD.2.2 hx (List.mem_cons_self _ _)
    have htD : t ∉ D := fun hx => hndD.2.2 hx (List.mem_cons_of_mem _ (List.mem_cons_self _ _))
    have hxrem : x ∉ rem := fun hx => hnd2.1 (List.mem_cons_of_mem _ hx)
    have htrem : t ∉ rem := hnd3.1
    -- the heap after one pass through the body
    have hfrD : ∀ a ∈ D, ((h.setEle x (some { ex with next := et.next })).setEle t
        (some { et with next := head })).ele a = h.ele a := by
      intro a ha
      have h1 : a ≠ x := fun e => hxD (e ▸ ha)
      have h2 : a ≠ t := fun e => htD (e ▸ ha)
      simp [h1, h2]
    have hfrR : ∀ a ∈ rem, ((h.setEle x (some { ex with next := et.next })).setEle t
        (some { et with next := head })).ele a = h.ele a := by
      intro a ha
      have h1 : a ≠ x := fun e => hxrem (e ▸ ha)
      have h2 : a ≠ t := fun e => htrem (e ▸ ha)
      simp [h1, h2]
    have hl2 : Lseg ((h.setEle x (some { ex with next := et.next })).setEle t
        (some { et with next := head })) (some t) ((t :: D) ++ x :: rem) none := by
      refine ⟨rfl, ⟨et.value, head⟩, by simp, ?_⟩
      refine Lseg_append.2 ⟨some x, Lseg_frame hfrD hD, rfl, ⟨ex.value, et.next⟩, ?_,
        Lseg_frame hfrR hrem⟩
      simp [htx.symm]
    obtain ⟨h1, head1, hrun, hch, hsv, hfr⟩ :=
      reverseLoop_spec rem (t :: D) _ (some t) x k hl2 (by simpa using hf)
    refine ⟨h1, head1, ?_, ?_, ?_, ?_⟩
    · simp only [reverseLoop, hex, ht, het, setEle_ele, if_neg htx]
      exact hrun
    · simpa using hch
    · have s1 : SameValues h (h.setEle x (some { ex with next := et.next })) :=
        SameValues.setNext h hex _
      have het1 : (h.setEle x (some { ex with next := et.next })).ele t = some et := by
        simp [htx, het]
      exact (s1.same_trans (SameValues.setNext _ het1 head)).same_trans hsv
    · intro a ha
      have ha2 : a ∉ (t :: D) ++ x :: rem := by
        simp only [List.mem_append, List.mem_cons, not_or] at ha ⊢
        tauto
      rw [hfr a ha2]
      have h1 : a ≠ x := by
        intro e; apply ha; simp [e]
      have h2 : a ≠ t := by
        intro e; apply ha; simp [e]
      simp [h1, h2]

/-- Effect of `q_reverse` on a well-formed queue: with enough fuel it returns, and the queue
it leaves is well formed with the elements, and so the strings, in reverse order. -/
theorem reverse_wf {h : Heap} {q : queue_t} {ns : List Nat} {L : List (List Nat)}
    (w : WF h q ns L) (fuel : Nat) (hf : ns.length ≤ fuel) :
    ∃ q1 h1, q_reverse fuel h (some q) = Outcome.done (some q1, h1) ∧
      WF h1 q1 ns.reverse L.reverse ∧ q1.head = q.tail ∧ q1.tail = q.head ∧
      q1.size = q.size ∧ SameValues h h1 ∧ (∀ a, a ∉ ns → h1.ele a = h.ele a) := by
  cases ns with
  | nil =>
    have hh : q.head = none := w.chain
    have hL : L = [] := by
      have := w.length_eq
      cases L with
      | nil => rfl
      | cons v L => simp at this
    subst hL
    refine ⟨q, h, ?_, w, ?_, ?_, rfl, SameValues.same_refl h, fun _ _ => rfl⟩
    · simp only [q_reverse, hh]
    · rw [hh, w.tail_last]; rfl
    · rw [hh, w.tail_last]; rfl
  | cons x rest =>
    have hh : q.head = some x := w.chain.1
    have hl : Lseg h q.head ([] ++ x :: rest) none := w.chain
    obtain ⟨h1, head1, hrun, hch, hsv, hfr⟩ :=
      reverseLoop_spec rest [] h q.head x fuel hl (by simpa using hf)
    have hch1 : Lseg h1 head1 (x :: rest).reverse none := by simpa using hch
    refine ⟨⟨head1, q.head, q.size⟩, h1, ?_, ⟨hch1, ?_, ?_, ?_, ?_⟩, ?_, rfl, rfl, hsv, ?_⟩
    · simp only [q_reverse, hh]
      rw [hh] at hrun
      rw [hrun]
    · simp [hh]
    · simp only [List.length_reverse]; exact w.size_len
    · rw [List.map_reverse, List.map_reverse, ← w.vals]
      congr 1
      exact List.map_congr_left (fun a _ => hsv.strAt a)
    · rw [List.map_reverse, List.nodup_reverse]
      have : (x :: rest).map (rdValue h1) = (x :: rest).map (rdValue h) :=
        List.map_congr_left (fun a _ => hsv.rdValue a)
      rw [this]; exact w.owned
    · show head1 = q.tail
      rw [w.tail_last]
      have h1' := hch1
      cases hr : (x :: rest).reverse with
      | nil => simp at hr
      | cons y ys =>
        rw [hr] at h1'
        rw [h1'.1, ← List.head?_reverse, hr]
        rfl
    · intro a ha
      exact hfr a (by simpa using ha)

/-! ## Sorting: `strcmp` is a total preorder -/

theorem strcmp_self : ∀ a : List Nat, strcmp a a = 0
  | [] => rfl
  | x :: a => by simp [strcmp, strcmp_self a]

theorem strcmp_flip : ∀ a b : List Nat, strcmp b a = - strcmp a b
  | [], [] => rfl
  | [], _ :: _ => rfl
  | _ :: _, [] => rfl
  | x :: a, y :: b => by
    have ih := strcmp_flip a b
    simp only [strcmp]
    rcases Nat.lt_trichotomy x y with hxy | hxy | hxy
    · have h1 : ¬ y < x := by omega
      simp [hxy, h1]
    · subst hxy; simp [ih]
    · have h1 : ¬ x < y := by omega
      simp [hxy, h1]

theorem strcmp_le_trans : ∀ a b c : List Nat, strcmp a b ≤ 0 → strcmp b c ≤ 0 → strcmp a c ≤ 0
  | [], _, [], _, _ => by simp [strcmp]
  | [], _, _ :: _, _, _ => by simp [strcmp]
  | _ :: _, [], _, h1, _ => by simp [strcmp] at h1
  | _ :: _, _ :: _, [], _, h2 => by simp [strcmp] at h2
  | x :: a, y :: b, z :: c, h1, h2 => by
    have ih := strcmp_le_trans a b c
    simp only [strcmp] at h1 h2 ⊢
    rcases Nat.lt_trichotomy x y with hxy | hxy | hxy
    · rcases Nat.lt_trichotomy y z with hyz | hyz | hyz
      · have : x < z := by omega
        simp [this]
      · subst hyz; simp [hxy]
      · have h3 : ¬ y < z := by omega
        simp [hyz, h3] at h2
    · subst hxy
      rcases Nat.lt_trichotomy x z with hyz | hyz | hyz
      · simp [hyz]
      · subst hyz
        simp only [lt_self_iff_false, if_false] at h1 h2 ⊢
        exact ih h1 h2
      · have h3 : ¬ x < z := by omega
        simp [hyz, h3] at h2
    · have h3 : ¬ x < y := by omega
      simp [hxy, h3] at h1

theorem strcmp_lt_of_gt {a b : List Nat} (h : strcmp a b > 0) : strcmp b a < 0 := by
  rw [strcmp_flip a b]; omega

theorem strcmp_le_of_lt_le {a b c : List Nat} (h1 : strcmp a b < 0) (h2 : strcmp b c ≤ 0) :
    strcmp a c ≤ 0 :=
  strcmp_le_trans a b c (by omega) h2

/-! ## Sorting: `swapValue` exchanges two `int`s -/

theorem wrValue_ele {h : Heap} {a : Nat} {e : list_ele_t} (he : h.ele a = some e) (v x : Nat) :
    (wrValue h a v).ele x = if x = a then some { e with value := v } else h.ele x := by
  unfold wrValue; rw [he]; rfl

theorem wrValue_str (h : Heap) (a v : Nat) : (wrValue h a v).str = h.str := by
  unfold wrValue
  cases h.ele a <;> rfl

theorem rdValue_of_ele {h : Heap} {a : Nat} {e : list_ele_t} (he : h.ele a = some e) :
    rdValue h a = e.value := by
  simp [rdValue, he]

theorem wrInt_ele {h : Heap} {a : Nat} {e : list_ele_t} (he : h.ele a = some e) (i x : Nat) :
    (wrInt h a i).ele x = if x = a then
        some { e with value := e.value / 4294967296 * 4294967296 + i % 4294967296 }
      else h.ele x := by
  unfold wrInt; rw [wrValue_ele he, rdValue_of_ele he]

theorem wrInt_str (h : Heap) (a i : Nat) : (wrInt h a i).str = h.str :=
  wrValue_str _ _ _

theorem rdInt_of_ele {h : Heap} {a : Nat} {e : list_ele_t} (he : h.ele a = some e) :
    rdInt h a = e.value % 4294967296 := by
  unfold rdInt; rw [rdValue_of_ele he]

theorem xor_int_lt (a b : Nat) : (a % 4294967296) ^^^ (b % 4294967296) < 4294967296 := by
  have e : (4294967296 : Nat) = 2 ^ 32 := by norm_num
  have ha : a % 4294967296 < 2 ^ 32 := by rw [← e]; exact Nat.mod_lt _ (by norm_num)
  have hb : b % 4294967296 < 2 ^ 32 := by rw [← e]; exact Nat.mod_lt _ (by norm_num)
  have := Nat.xor_lt_two_pow ha hb
  rw [e]; exact this

/-- On two distinct live elements `swapValue` returns, and the heap it leaves differs only in
that the low 32 bits of the two `value` words are exchanged: the bits above them stay where
they were. -/
theorem swapValue_int {h : Heap} {x y : Nat} {ex ey : list_ele_t} (hx : h.ele x = some ex)
    (hy : h.ele y = some ey) (hxy : x ≠ y) :
    ∃ h1, swapValue h (some x) (some y) = Outcome.done h1 ∧ h1.str = h.str ∧
      h1.ele x = some { ex with
        value := ex.value / 4294967296 * 4294967296 + ey.value % 4294967296 } ∧
      h1.ele y = some { ey with
        value := ey.value / 4294967296 * 4294967296 + ex.value % 4294967296 } ∧
      (∀ a, a ≠ x → a ≠ y → h1.ele a = h.ele a) := by
  have ix : rdInt h x = ex.value % 4294967296 := rdInt_of_ele hx
  have iy : rdInt h y = ey.value % 4294967296 := rdInt_of_ele hy
  by_cases hv : ex.value % 4294967296 = ey.value % 4294967296
  · refine ⟨h, ?_, rfl, ?_, ?_, fun _ _ _ => rfl⟩
    · simp [swapValue, hx, hy, ix, iy, hv]
    · rw [hx]
      have : ex.value / 4294967296 * 4294967296 + ey.value % 4294967296 = ex.value := by omega
      rw [this]
    · rw [hy]
      have : ey.value / 4294967296 * 4294967296 + ex.value % 4294967296 = ey.value := by omega
      rw [this]
  · obtain ⟨vx, nx⟩ := ex
    obtain ⟨vy, ny⟩ := ey
    simp only at hv ix iy ⊢
    have lt1 := xor_int_lt vx vy
    -- after the first assignment
    have e1x := wrInt_ele hx (vx % 4294967296 ^^^ vy % 4294967296) x
    rw [if_pos rfl] at e1x
    have e1y := wrInt_ele hx (vx % 4294967296 ^^^ vy % 4294967296) y
    rw [if_neg hxy.symm, hy] at e1y
    have i1x := rdInt_of_ele e1x
    have i1y := rdInt_of_ele e1y
    simp only at i1x i1y
    have m1 : (vx / 4294967296 * 4294967296
        + (vx % 4294967296 ^^^ vy % 4294967296) % 4294967296) % 4294967296
        = vx % 4294967296 ^^^ vy % 4294967296 := by omega
    rw [m1] at i1x
    have v2 : vy % 4294967296 ^^^ (vx % 4294967296 ^^^ vy % 4294967296) = vx % 4294967296 := by
      rw [Nat.xor_comm (vx % 4294967296) (vy % 4294967296), Nat.xor_cancel_left]
    -- after the second assignment
    have e2y := wrInt_ele e1y (vx % 4294967296) y
    rw [if_pos rfl] at e2y
    have e2x := wrInt_ele e1y (vx % 4294967296) x
    rw [if_neg hxy, e1x] at e2x
    have i2x := rdInt_of_ele e2x
    have i2y := rdInt_of_ele e2y
    simp only at i2x i2y e2y
    rw [m1] at i2x
    have m2 : (vy / 4294967296 * 4294967296 + vx % 4294967296 % 4294967296) % 4294967296
        = vx % 4294967296 := by omega
    rw [m2] at i2y
    have v3 : vx % 4294967296 ^^^ vy % 4294967296 ^^^ vx % 4294967296 = vy % 4294967296 := by
      rw [Nat.xor_comm (vx % 4294967296) (vy % 4294967296), Nat.xor_cancel_right]
    -- after the third assignment
    have e3x := wrInt_ele e2x (vy % 4294967296) x
    rw [if_pos rfl] at e3x
    have e3y := wrInt_ele e2x (vy % 4294967296) y
    rw [if_neg hxy.symm, e2y] at e3y
    simp only at e3x e3y
    have d3 : (vx / 4294967296 * 4294967296
        + (vx % 4294967296 ^^^ vy % 4294967296) % 4294967296) / 4294967296 * 4294967296
        + vy % 4294967296 % 4294967296 = vx / 4294967296 * 4294967296 + vy % 4294967296 := by
      omega
    have d2 : vy / 4294967296 * 4294967296 + vx % 4294967296 % 4294967296
        = vy / 4294967296 * 4294967296 + vx % 4294967296 := by omega
    rw [d3] at e3x
    rw [d2] at e3y
    refine ⟨_, ?_, ?_, e3x, e3y, ?_⟩
    · simp only [swapValue, hx, hy, ix, iy, ne_eq, hv, not_false_eq_true, if_true, i1x, i1y,
        v2, i2x, i2y, v3]
    · simp only [wrInt_str]
    · intro a hax hay
      rw [wrInt_ele e2x, if_neg hax, wrInt_ele e1y, if_neg hay, wrInt_ele hx, if_neg hax]

/-- On one and the same live element `swapValue` returns the heap as it is: the guard
`*a != *b` is false, so the `int` is not XORed with itself to zero. -/
theorem swapValue_self {h : Heap} {x : Nat} {ex : list_ele_t} (hx : h.ele x = some ex) :
    swapValue h (some x) (some x) = Outcome.done h := by
  simp [swapValue, hx]

/-- On two live elements whose `value` words agree above the low 32 bits, `swapValue` returns,
and the heap it leaves differs only in that the two `value` words are exchanged (nothing changes
when both are the same element). -/
theorem swapValue_spec {h : Heap} {x y : Nat} {ex ey : list_ele_t} (hx : h.ele x = some ex)
    (hy : h.ele y = some ey) (hw : ex.value / 4294967296 = ey.value / 4294967296) :
    ∃ h1, swapValue h (some x) (some y) = Outcome.done h1 ∧ h1.str = h.str ∧
      h1.ele x = some { ex with value := ey.value } ∧
      h1.ele y = some { ey with value := ex.value } ∧
      (∀ a, a ≠ x → a ≠ y → h1.ele a = h.ele a) := by
  by_cases hxy : x = y
  · subst hxy
    rw [hx] at hy; cases hy
    exact ⟨h, swapValue_self hx, rfl, hx, hx, fun _ _ _ => rfl⟩
  · obtain ⟨h1, hrun, hstr, h1x, h1y, hfr⟩ := swapValue_int hx hy hxy
    have ax : ex.value / 4294967296 * 4294967296 + ey.value % 4294967296 = ey.value := by omega
    have ay : ey.value / 4294967296 * 4294967296 + ex.value % 4294967296 = ex.value := by omega
    rw [ax] at h1x
    rw [ay] at h1y
    exact ⟨h1, hrun, hstr, h1x, h1y, hfr⟩

theorem SameLinks.links_refl (h : Heap) (seg : List Nat) : SameLinks h h seg :=
  ⟨rfl, fun _ => rfl, fun _ _ => rfl⟩

theorem SameLinks.links_trans {h h1 h2 : Heap} {seg : List Nat} (a : SameLinks h h1 seg)
    (b : SameLinks h1 h2 seg) : SameLinks h h2 seg :=
  ⟨b.str_eq.trans a.str_eq, fun x => (b.next_eq x).trans (a.next_eq x),
    fun x hx => (b.frame x hx).trans (a.frame x hx)⟩

theorem SameLinks.mono {h h1 : Heap} {seg seg1 : List Nat} (a : SameLinks h h1 seg)
    (hsub : ∀ x ∈ seg, x ∈ seg1) : SameLinks h h1 seg1 :=
  ⟨a.str_eq, a.next_eq, fun x hx => a.frame x (fun hm => hx (hsub x hm))⟩

theorem SameLinks.ele_some {h h1 : Heap} {seg : List Nat} (sl : SameLinks h h1 seg) {a : Nat}
    {e : list_ele_t} (he : h.ele a = some e) : ∃ e1, h1.ele a = some e1 ∧ e1.next = e.next := by
  have := sl.next_eq a
  rw [he] at this
  cases h1a : h1.ele a with
  | none => rw [h1a] at this; simp at this
  | some e1 =>
    rw [h1a] at this
    simp only [Option.map_some', Option.some.injEq] at this
    exact ⟨e1, rfl, this⟩

theorem SameLinks.Lseg {h h1 : Heap} {seg : List Nat} (sl : SameLinks h h1 seg) :
    ∀ {l : List Nat} {p r : Option Nat}, Lseg h p l r → Lseg h1 p l r
  | [], _, _, hl => hl
  | a :: l, p, r, hl => by
    obtain ⟨hp, e, he, hrest⟩ := hl
    obtain ⟨e1, he1, hn⟩ := sl.ele_some he
    exact ⟨hp, e1, he1, by rw [hn]; exact sl.Lseg hrest⟩

theorem SameLinks.key {h h1 : Heap} {seg : List Nat} (sl : SameLinks h h1 seg) (p : Nat) :
    key h1 p = key h p := by
  unfold Queue.key; rw [sl.str_eq]

/-- Exchanging the values of two elements of a duplicate-free list permutes the list of
values. -/
theorem perm_of_exchange {seg : List Nat} (hnd : seg.Nodup) {x y : Nat} (hx : x ∈ seg)
    (hy : y ∈ seg) (f g : Nat → Nat) (hfg : ∀ a, g a = f (Equiv.swap x y a)) :
    (seg.map g).Perm (seg.map f) := by
  have h1 : seg.map g = (seg.map (Equiv.swap x y)).map f := by
    rw [List.map_map]
    exact List.map_congr_left (fun a _ => hfg a)
  rw [h1]
  apply List.Perm.map
  rw [List.perm_ext_iff_of_nodup (hnd.map (Equiv.swap x y).injective) hnd]
  intro a
  rw [List.mem_map]
  constructor
  · rintro ⟨b, hb, rfl⟩
    by_cases hbx : b = x
    · subst hbx; rw [Equiv.swap_apply_left]; exact hy
    · by_cases hby : b = y
      · subst hby; rw [Equiv.swap_apply_right]; exact hx
      · rw [Equiv.swap_apply_of_ne_of_ne hbx hby]; exact hb
  · intro ha
    refine ⟨Equiv.swap x y a, ?_, Equiv.swap_apply_self x y a⟩
    by_cases hbx : a = x
    · subst hbx; rw [Equiv.swap_apply_left]; exact hy
    · by_cases hby : a = y
      · subst hby; rw [Equiv.swap_apply_right]; exact hx
      · rw [Equiv.swap_apply_of_ne_of_ne hbx hby]; exact ha

/-- `swapValue` on two live elements whose `value` words agree above the low 32 bits, as an
exchange: links and strings stay, and each element then holds the value the exchanged element
held. -/
theorem swapValue_exch {h : Heap} {x y : Nat} {ex ey : list_ele_t} (hx : h.ele x = some ex)
    (hy : h.ele y = some ey) (hw : rdValue h x / 4294967296 = rdValue h y / 4294967296) :
    ∃ h1, swapValue h (some x) (some y) = Outcome.done h1 ∧ SameLinks h h1 [x, y] ∧
      ∀ a, rdValue h1 a = rdValue h (Equiv.swap x y a) := by
  rw [rdValue_of_ele hx, rdValue_of_ele hy] at hw
  obtain ⟨h1, hrun, hstr, h1x, h1y, hfr⟩ := swapValue_spec hx hy hw
  refine ⟨h1, hrun, ⟨hstr, ?_, ?_⟩, ?_⟩
  · intro a
    by_cases hax : a = x
    · subst hax; rw [h1x, hx]; rfl
    · by_cases hay : a = y
      · subst hay; rw [h1y, hy]; rfl
      · rw [hfr a hax hay]
  · intro a ha
    simp only [List.mem_cons, List.mem_singleton, not_or, List.not_mem_nil, or_false] at ha
    exact hfr a ha.1 ha.2
  · intro a
    by_cases hax : a = x
    · subst hax
      rw [Equiv.swap_apply_left]
      simp [rdValue, h1x, hy]
    · by_cases hay : a = y
      · subst hay
        rw [Equiv.swap_apply_right]
        simp [rdValue, h1y, hx]
      · rw [Equiv.swap_apply_of_ne_of_ne hax hay]
        exact rdValue_congr (hfr a hax hay)

/-- A range stays in one window when its values are permuted. -/
theorem OneWindow.of_perm {h h1 : Heap} {seg : List Nat} (hw : OneWindow h seg)
    (hperm : (seg.map (rdValue h1)).Perm (seg.map (rdValue h))) : OneWindow h1 seg := by
  intro a ha b hb
  obtain ⟨a1, ha1, hae⟩ := List.mem_map.1 ((hperm.mem_iff).1 (List.mem_map_of_mem _ ha))
  obtain ⟨b1, hb1, hbe⟩ := List.mem_map.1 ((hperm.mem_iff).1 (List.mem_map_of_mem _ hb))
  rw [← hae, ← hbe]
  exact hw a1 ha1 b1 hb1

theorem OneWindow.window_mono {h : Heap} {seg seg1 : List Nat} (hw : OneWindow h seg)
    (hsub : ∀ x ∈ seg1, x ∈ seg) : OneWindow h seg1 :=
  fun a ha b hb => hw a (hsub a ha) b (hsub b hb)

theorem OneWindow.window_congr {h h1 : Heap} {seg : List Nat} (hw : OneWindow h seg)
    (he : ∀ a ∈ seg, rdValue h1 a = rdValue h a) : OneWindow h1 seg := by
  intro a ha b hb
  rw [he a ha, he b hb]
  exact hw a ha b hb

theorem swap_mem {seg : List Nat} {x y a : Nat} (hx : x ∈ seg) (hy : y ∈ seg) (ha : a ∈ seg) :
    Equiv.swap x y a ∈ seg := by
  by_cases hax : a = x
  · subst hax; rw [Equiv.swap_apply_left]; exact hy
  · by_cases hay : a = y
    · subst hay; rw [Equiv.swap_apply_right]; exact hx
    · rw [Equiv.swap_apply_of_ne_of_ne hax hay]; exact ha

/-- Under the loop invariant every element of the range holds a live string. -/
theorem PInv.strings_live {h0 h : Heap} {seg : List Nat} {P : Nat} {A : List Nat} {pv : Nat}
    {B C : List Nat} (inv : PInv h0 h seg P A pv B C)
    (hlive : ∀ a ∈ seg, h0.str (rdValue h0 a) ≠ none) :
    ∀ a ∈ seg, h.str (rdValue h a) = some (key h0 (rdValue h a)) := by
  intro a ha
  have hm : rdValue h a ∈ seg.map (rdValue h0) :=
    (inv.perm.mem_iff).1 (List.mem_map_of_mem _ ha)
  obtain ⟨b, hb, hbe⟩ := List.mem_map.1 hm
  have := hlive b hb
  rw [hbe] at this
  rw [inv.links.str_eq]
  unfold key
  cases hs : h0.str (rdValue h a) with
  | none => exact absurd hs this
  | some v => rfl

/-! ## Sorting: the partition loop -/

theorem partitionBody_keep {h : Heap} {pv pt c : Nat} {ept epv ec : list_ele_t}
    {sP sc : List Nat} (hpt : h.ele pt = some ept) (hn : ept.next = some c)
    (hpv : h.ele pv = some epv) (hc : h.ele c = some ec) (hsP : h.str epv.value = some sP)
    (hsc : h.str ec.value = some sc) (hcmp : ¬ strcmp sP sc > 0) :
    partitionBody h (some pv) (some pt) = Outcome.done (h, some pv, some c) := by
  simp only [partitionBody, deref, hpt, hn, hpv, hc, hsP, hsc, if_neg hcmp]

theorem partitionBody_swap {h h1 h2 : Heap} {pv pt c : Nat} {ept epv ec e1 : list_ele_t}
    {sP sc : List Nat} (hpt : h.ele pt = some ept) (hn : ept.next = some c)
    (hpv : h.ele pv = some epv) (hc : h.ele c = some ec) (hsP : h.str epv.value = some sP)
    (hsc : h.str ec.value = some sc) (hcmp : strcmp sP sc > 0)
    (hs1 : swapValue h (some pv) (some c) = Outcome.done h1) (he1 : h1.ele pv = some e1)
    (hs2 : swapValue h1 e1.next (some c) = Outcome.done h2) :
    partitionBody h (some pv) (some pt) = Outcome.done (h2, e1.next, some c) := by
  simp only [partitionBody, deref, hpt, hn, hpv, hc, hsP, hsc, if_pos hcmp, hs1, he1, hs2]

/-- One pass through the loop body keeps the invariant and scans one more element. -/
theorem partitionBody_spec {h0 h : Heap} {seg : List Nat} {P : Nat} {A : List Nat} {pv : Nat}
    {B : List Nat} {c : Nat} {C : List Nat} {pt : Nat} {s r : Option Nat}
    (hnd : seg.Nodup) (hl0 : Lseg h0 s seg r)
    (hlive : ∀ a ∈ seg, h0.str (rdValue h0 a) ≠ none) (hwin : OneWindow h0 seg)
    (hpt : (pv :: B).getLast? = some pt) (inv : PInv h0 h seg P A pv B (c :: C)) :
    ∃ h1 A1 pv1 B1, partitionBody h (some pv) (some pt) = Outcome.done (h1, some pv1, some c) ∧
      PInv h0 h1 seg P A1 pv1 B1 C ∧ (pv1 :: B1).getLast? = some c ∧
      (strcmp (key h0 P) (key h0 (rdValue h0 c)) ≤ 0 → h1 = h) := by
  have hwinh : OneWindow h seg := hwin.of_perm inv.perm
  have hl : Lseg h s seg r := inv.links.Lseg hl0
  have hstr := inv.strings_live hlive
  have hsplit := inv.split
  -- the element after the pivot element
  obtain ⟨n0, N, hN⟩ : ∃ n0 N, B ++ [c] = n0 :: N := by
    cases B with
    | nil => exact ⟨c, [], rfl⟩
    | cons b B1 => exact ⟨b, B1 ++ [c], rfl⟩
  have hmemN : ∀ b, b ∈ n0 :: N ↔ b ∈ B ∨ b = c := by
    intro b; rw [← hN]; simp
  have hseg1 : seg = A ++ pv :: (n0 :: N ++ C) := by
    rw [hsplit, ← hN]; simp
  -- the scanning pointer and the element after it
  obtain ⟨X, hX⟩ := List.getLast?_eq_some_iff.1 hpt
  have hseg2 : seg = (A ++ X) ++ pt :: c :: C := by
    rw [hsplit]
    have : pv :: (B ++ c :: C) = (pv :: B) ++ c :: C := by simp
    rw [this, hX]; simp
  obtain ⟨ept, hept, hnpt, ec, hec⟩ :
      ∃ ept, h.ele pt = some ept ∧ ept.next = some c ∧ ∃ ec, h.ele c = some ec := by
    rw [hseg2] at hl
    obtain ⟨m, -, -, ept, hept, hrest⟩ := Lseg_append.1 hl
    obtain ⟨hn, ec, hec, -⟩ := hrest
    exact ⟨ept, hept, hn, ec, hec⟩
  obtain ⟨epv, hepv, hnpv, en0, hen0⟩ :
      ∃ epv, h.ele pv = some epv ∧ epv.next = some n0 ∧ ∃ en0, h.ele n0 = some en0 := by
    rw [hseg1] at hl
    obtain ⟨m, -, -, epv, hepv, hrest⟩ := Lseg_append.1 hl
    obtain ⟨hn, en0, hen0, -⟩ := hrest
    exact ⟨epv, hepv, hn, en0, hen0⟩
  have hpvseg : pv ∈ seg := by rw [hsplit]; simp
  have hcseg : c ∈ seg := by rw [hsplit]; simp
  have hn0seg : n0 ∈ seg := by rw [hseg1]; simp
  have hvpv : epv.value = P := by rw [← rdValue_of_ele hepv, inv.piv]
  have hsP : h.str epv.value = some (key h0 P) := by
    have := hstr pv hpvseg
    rw [rdValue_of_ele hepv, hvpv] at this
    rw [hvpv]; exact this
  have hsc : h.str ec.value = some (key h0 (rdValue h c)) := by
    have := hstr c hcseg
    rw [rdValue_of_ele hec] at this
    rw [rdValue_of_ele hec]; exact this
  have hcrest : rdValue h c = rdValue h0 c := inv.rest c (List.mem_cons_self _ _)
  -- distinctness
  have hnd1 := hnd
  rw [hseg1] at hnd1
  have hndA := List.nodup_append.1 hnd1
  have hndpv := List.nodup_cons.1 hndA.2.1
  have hndN := List.nodup_append.1 hndpv.2
  have hcN : c ∈ n0 :: N := (hmemN c).2 (Or.inr rfl)
  have hpv_A : pv ∉ A := fun hx => hndA.2.2 hx (List.mem_cons_self _ _)
  have hN_A : ∀ b ∈ n0 :: N, b ∉ A := fun b hb hx =>
    hndA.2.2 hx (List.mem_cons_of_mem _ (List.mem_append_left _ hb))
  have hC_A : ∀ b ∈ C, b ∉ A := fun b hb hx =>
    hndA.2.2 hx (List.mem_cons_of_mem _ (List.mem_append_right _ hb))
  have hN_pv : ∀ b ∈ n0 :: N, b ≠ pv := fun b hb e =>
    hndpv.1 (e ▸ List.mem_append_left _ hb)
  have hC_pv : ∀ b ∈ C, b ≠ pv := fun b hb e =>
    hndpv.1 (e ▸ List.mem_append_right _ hb)
  have hC_N : ∀ b ∈ C, b ∉ n0 :: N := fun b hb hx => hndN.2.2 hx hb
  have hn0_N : n0 ∉ N := (List.nodup_cons.1 hndN.1).1
  by_cases hcmp : strcmp (key h0 P) (key h0 (rdValue h c)) > 0
  · -- the scanned value is smaller than the pivot value: two exchanges
    obtain ⟨h1, hs1, sl1, rv1⟩ := swapValue_exch hepv hec (hwinh pv hpvseg c hcseg)
    obtain ⟨e1, he1, hn1⟩ := sl1.ele_some hepv
    obtain ⟨en1, hen1, -⟩ := sl1.ele_some hen0
    obtain ⟨ec1, hec1, -⟩ := sl1.ele_some hec
    have hw1 : rdValue h1 n0 / 4294967296 = rdValue h1 c / 4294967296 := by
      rw [rv1, rv1]
      exact hwinh _ (swap_mem hpvseg hcseg hn0seg) _ (swap_mem hpvseg hcseg hcseg)
    obtain ⟨h2, hs2, sl2, rv2⟩ := swapValue_exch hen1 hec1 hw1
    have hrun := partitionBody_swap hept hnpt hepv hec hsP hsc hcmp hs1 he1
      (by rw [hn1, hnpv]; exact hs2)
    rw [hn1, hnpv] at hrun
    have hrv : ∀ a, rdValue h2 a = rdValue h (Equiv.swap pv c (Equiv.swap n0 c a)) := by
      intro a; rw [rv2, rv1]
    have hfix : ∀ a, a ≠ pv → a ≠ c → a ≠ n0 → rdValue h2 a = rdValue h a := by
      intro a h1 h2 h3
      rw [hrv, Equiv.swap_apply_of_ne_of_ne h3 h2, Equiv.swap_apply_of_ne_of_ne h1 h2]
    have hcpv : c ≠ pv := hN_pv c hcN
    have hn0pv : n0 ≠ pv := hN_pv n0 (List.mem_cons_self _ _)
    refine ⟨h2, A ++ [pv], n0, N, hrun, ⟨?_, ?_, ?_, ?_, ?_, ?_, ?_⟩, ?_, ?_⟩
    · rw [hseg1]; simp
    · refine inv.links.links_trans ((sl1.mono ?_).links_trans (sl2.mono ?_))
      · intro x hx
        simp only [List.mem_cons, List.mem_singleton, List.not_mem_nil, or_false] at hx
        rcases hx with rfl | rfl
        · exact hpvseg
        · exact hcseg
      · intro x hx
        simp only [List.mem_cons, List.mem_singleton, List.not_mem_nil, or_false] at hx
        rcases hx with rfl | rfl
        · exact hn0seg
        · exact hcseg
    · exact ((perm_of_exchange hnd hn0seg hcseg _ _ rv2).trans
        (perm_of_exchange hnd hpvseg hcseg _ _ rv1)).trans inv.perm
    · intro a ha
      rcases List.mem_append.1 ha with ha | ha
      · have h1 : a ≠ pv := fun e => hpv_A (e ▸ ha)
        have h2 : a ≠ c := fun e => hN_A c hcN (e ▸ ha)
        have h3 : a ≠ n0 := fun e => hN_A n0 (List.mem_cons_self _ _) (e ▸ ha)
        rw [hfix a h1 h2 h3]; exact inv.lt a ha
      · rw [List.mem_singleton] at ha
        subst ha
        rw [hrv, Equiv.swap_apply_of_ne_of_ne hn0pv.symm hcpv.symm, Equiv.swap_apply_left]
        exact hcmp
    · rw [hrv, Equiv.swap_apply_left, Equiv.swap_apply_right]; exact inv.piv
    · intro b hb
      have hbN : b ∈ n0 :: N := List.mem_cons_of_mem _ hb
      have hbn0 : b ≠ n0 := fun e => hn0_N (e ▸ hb)
      have hbpv : b ≠ pv := hN_pv b hbN
      by_cases hbc : b = c
      · subst hbc
        have hn0B : n0 ∈ B := by
          rcases (hmemN n0).1 (List.mem_cons_self _ _) with h1 | h1
          · exact h1
          · exact absurd h1.symm hbn0
        rw [hrv, Equiv.swap_apply_right, Equiv.swap_apply_of_ne_of_ne hn0pv (Ne.symm hbn0)]
        exact inv.ge n0 hn0B
      · have hbB : b ∈ B := by
          rcases (hmemN b).1 hbN with h1 | h1
          · exact h1
          · exact absurd h1 hbc
        rw [hfix b hbpv hbc hbn0]; exact inv.ge b hbB
    · intro x hx
      have h1 : x ≠ pv := hC_pv x hx
      have h2 : x ≠ c := fun e => hC_N x hx (e ▸ hcN)
      have h3 : x ≠ n0 := fun e => hC_N x hx (e ▸ List.mem_cons_self _ _)
      rw [hfix x h1 h2 h3]; exact inv.rest x (List.mem_cons_of_mem _ hx)
    · rw [← hN]; exact List.getLast?_concat B
    · intro hle
      rw [← hcrest] at hle
      omega
  · -- otherwise nothing is written
    have hrun := partitionBody_keep hept hnpt hepv hec hsP hsc hcmp
    refine ⟨h, A, pv, B ++ [c], hrun, ⟨?_, inv.links, inv.perm, inv.lt, inv.piv, ?_, ?_⟩, ?_,
      fun _ => rfl⟩
    · rw [hsplit]; simp
    · intro b hb
      rcases List.mem_append.1 hb with hb | hb
      · exact inv.ge b hb
      · rw [List.mem_singleton] at hb
        subst hb; omega
    · intro x hx
      exact inv.rest x (List.mem_cons_of_mem _ hx)
    · have : pv :: (B ++ [c]) = (pv :: B) ++ [c] := rfl
      rw [this]; exact List.getLast?_concat _

theorem last_mem_suffix {X Y : List Nat} {en : Nat} (hY : Y ≠ [])
    (h : (X ++ Y).getLast? = some en) : Y.getLast? = some en ∧ en ∈ Y := by
  have h1 : Y.getLast? = some en := by
    rw [List.getLast?_append] at h
    cases hy : Y.getLast? with
    | none => exact absurd (List.getLast?_eq_none_iff.1 hy) hY
    | some z => rw [hy] at h; simpa using h
  obtain ⟨ys, hys⟩ := List.getLast?_eq_some_iff.1 h1
  exact ⟨h1, by rw [hys]; simp⟩

/-- The partition loop, entered under the invariant with at least one element still to scan,
returns (given fuel for each element left) with every element scanned. -/
theorem partitionLoop_inv {h0 : Heap} {seg : List Nat} {P : Nat} {s r : Option Nat} {en : Nat}
    (hnd : seg.Nodup) (hl0 : Lseg h0 s seg r)
    (hlive : ∀ a ∈ seg, h0.str (rdValue h0 a) ≠ none) (hwin : OneWindow h0 seg)
    (hen : seg.getLast? = some en) :
    ∀ (C A : List Nat) (pv : Nat) (B : List Nat) (c pt : Nat) (h : Heap),
      (pv :: B).getLast? = some pt → PInv h0 h seg P A pv B (c :: C) →
      ∃ h1 A1 pv1 B1, (∀ fuel, C.length < fuel →
          partitionLoop fuel h (some pv) (some pt) (some en) = Outcome.done (h1, some pv1)) ∧
        PInv h0 h1 seg P A1 pv1 B1 [] ∧
        (strcmp (key h0 P) (key h0 (rdValue h0 en)) ≤ 0 → rdValue h1 en = rdValue h0 en)
  | [], A, pv, B, c, pt, h, hpt, inv => by
    obtain ⟨h1, A1, pv1, B1, hrun, inv1, -, hkeep⟩ := partitionBody_spec hnd hl0 hlive hwin hpt inv
    have hce : c = en := by
      have h2 := hen
      rw [inv.split] at h2
      have : A ++ pv :: (B ++ [c]) = (A ++ pv :: B) ++ [c] := by simp
      rw [this, List.getLast?_concat] at h2
      exact Option.some.inj h2
    subst hce
    refine ⟨h1, A1, pv1, B1, ?_, inv1, ?_⟩
    · intro fuel hf
      obtain ⟨k, rfl⟩ : ∃ k, fuel = k + 1 := ⟨fuel - 1, by omega⟩
      simp only [partitionLoop, hrun]
      simp
    · intro hle
      rw [hkeep hle]
      exact inv.rest c (List.mem_cons_self _ _)
  | c2 :: C, A, pv, B, c, pt, h, hpt, inv => by
    obtain ⟨h1, A1, pv1, B1, hrun, inv1, hlast1, -⟩ :=
      partitionBody_spec hnd hl0 hlive hwin hpt inv
    have hnd1 := hnd
    rw [inv1.split] at hnd1
    have hen1 := hen
    rw [inv1.split] at hen1
    have hsp : A1 ++ pv1 :: (B1 ++ c2 :: C) = (A1 ++ pv1 :: B1) ++ c2 :: C := by simp
    rw [hsp] at hnd1 hen1
    obtain ⟨-, henC⟩ := last_mem_suffix (by simp) hen1
    have hdisj := (List.nodup_append.1 hnd1).2.2
    have hpv1 : pv1 ≠ en := fun e => hdisj (by simp) (e ▸ henC)
    have hc : c ≠ en := by
      intro e
      obtain ⟨ys, hys⟩ := List.getLast?_eq_some_iff.1 hlast1
      have hcm : c ∈ A1 ++ pv1 :: B1 := by
        have : c ∈ pv1 :: B1 := by rw [hys]; simp
        exact List.mem_append_right _ this
      exact hdisj hcm (e ▸ henC)
    obtain ⟨h2, A2, pv2, B2, hrun2, inv2, hkeep2⟩ :=
      partitionLoop_inv hnd hl0 hlive hwin hen C A1 pv1 B1 c2 c h1 hlast1 inv1
    refine ⟨h2, A2, pv2, B2, ?_, inv2, hkeep2⟩
    intro fuel hf
    obtain ⟨k, rfl⟩ : ∃ k, fuel = k + 1 := ⟨fuel - 1, by simp at hf; omega⟩
    simp only [partitionLoop, hrun]
    rw [if_pos]
    · exact hrun2 k (by simp at hf; omega)
    · refine ⟨by simp, ?_, by simp, ?_⟩
      · intro e; exact hc (Option.some.inj e)
      · intro e; exact hpv1 (Option.some.inj e)

/-- What the partition loop of `qsortImplement` establishes on a range `s0 :: c :: C` of
distinct linked elements with live strings in one window: the loop returns; the range splits as
`A ++ pv :: B` around the returned pivot element `pv`, which holds the value `s0` held on entry;
strings before it are smaller, strings after it are not smaller; the values are permuted within
the range; and the last element keeps its value when that is not smaller than the pivot's. -/
theorem partitionLoop_spec {h0 : Heap} {s0 c : Nat} {C : List Nat} {r : Option Nat} {en : Nat}
    (hnd : (s0 :: c :: C).Nodup) (hl0 : Lseg h0 (some s0) (s0 :: c :: C) r)
    (hlive : ∀ a ∈ s0 :: c :: C, h0.str (rdValue h0 a) ≠ none)
    (hwin : OneWindow h0 (s0 :: c :: C))
    (hen : (s0 :: c :: C).getLast? = some en) :
    ∃ h1 A pv B, (∀ fuel, C.length < fuel →
        partitionLoop fuel h0 (some s0) (some s0) (some en) = Outcome.done (h1, some pv)) ∧
      s0 :: c :: C = A ++ pv :: B ∧
      SameLinks h0 h1 (s0 :: c :: C) ∧
      ((s0 :: c :: C).map (rdValue h1)).Perm ((s0 :: c :: C).map (rdValue h0)) ∧
      rdValue h1 pv = rdValue h0 s0 ∧
      (∀ a ∈ A, strcmp (key h0 (rdValue h0 s0)) (key h0 (rdValue h1 a)) > 0) ∧
      (∀ b ∈ B, strcmp (key h0 (rdValue h0 s0)) (key h0 (rdValue h1 b)) ≤ 0) ∧
      (strcmp (key h0 (rdValue h0 s0)) (key h0 (rdValue h0 en)) ≤ 0 →
        rdValue h1 en = rdValue h0 en) := by
  have inv0 : PInv h0 h0 (s0 :: c :: C) (rdValue h0 s0) [] s0 [] (c :: C) :=
    ⟨rfl, SameLinks.links_refl _ _, List.Perm.refl _, fun _ ha => by simp at ha, rfl,
      fun _ hb => by simp at hb, fun _ _ => rfl⟩
  obtain ⟨h1, A, pv, B, hrun, inv, hkeep⟩ :=
    partitionLoop_inv hnd hl0 hlive hwin hen C [] s0 [] c s0 h0 rfl inv0
  refine ⟨h1, A, pv, B, hrun, ?_, inv.links, inv.perm, inv.piv, inv.lt, inv.ge, hkeep⟩
  simpa using inv.split

/-! ## Sorting: the recursion -/

/-- Live strings stay live when the values of a range are permuted. -/
theorem live_of_perm {h h1 : Heap} {seg : List Nat} (hstr : h1.str = h.str)
    (hperm : (seg.map (rdValue h1)).Perm (seg.map (rdValue h)))
    (hlive : ∀ a ∈ seg, h.str (rdValue h a) ≠ none) :
    ∀ a ∈ seg, h1.str (rdValue h1 a) ≠ none := by
  intro a ha
  have hm : rdValue h1 a ∈ seg.map (rdValue h) := hperm.mem_iff.1 (List.mem_map_of_mem _ ha)
  obtain ⟨b, hb, hbe⟩ := List.mem_map.1 hm
  rw [hstr, ← hbe]
  exact hlive b hb

theorem key_congr {h h1 : Heap} (hstr : h1.str = h.str) (p : Nat) : key h1 p = key h p := by
  unfold key; rw [hstr]

theorem SortedRange.nil (h : Heap) : SortedRange h h [] :=
  ⟨SameLinks.links_refl _ _, List.Perm.refl _, List.Pairwise.nil⟩

theorem SortedRange.single (h : Heap) (a : Nat) : SortedRange h h [a] :=
  ⟨SameLinks.links_refl _ _, List.Perm.refl _, List.pairwise_singleton _ _⟩

/-- A range partitioned around `pv` whose two sides `A ++ [pv]` and `B` are then sorted one after
the other is sorted. -/
theorem sorted_combine {h h1 h2 h3 : Heap} {A B : List Nat} {pv P : Nat}
    (hnd : (A ++ pv :: B).Nodup) (sl : SameLinks h h1 (A ++ pv :: B))
    (hperm : ((A ++ pv :: B).map (rdValue h1)).Perm ((A ++ pv :: B).map (rdValue h)))
    (hlt : ∀ a ∈ A, strcmp (key h P) (key h (rdValue h1 a)) > 0) (hpiv : rdValue h1 pv = P)
    (hge : ∀ b ∈ B, strcmp (key h P) (key h (rdValue h1 b)) ≤ 0)
    (s1 : SortedRange h1 h2 (A ++ [pv])) (s2 : SortedRange h2 h3 B) :
    SortedRange h h3 (A ++ pv :: B) := by
  have hsp : A ++ pv :: B = (A ++ [pv]) ++ B := by simp
  rw [hsp] at hnd hperm sl ⊢
  have hdisj := (List.nodup_append.1 hnd).2.2
  have hfr1 : ∀ b ∈ B, rdValue h2 b = rdValue h1 b := fun b hb =>
    rdValue_congr (s1.links.frame b (fun hx => hdisj hx hb))
  have hfr2 : ∀ a ∈ A ++ [pv], rdValue h3 a = rdValue h2 a := fun a ha =>
    rdValue_congr (s2.links.frame a (fun hx => hdisj ha hx))
  have hk1 : ∀ p, key h1 p = key h p := key_congr sl.str_eq
  have hk2 : ∀ p, key h2 p = key h p := fun p =>
    (key_congr s1.links.str_eq p).trans (hk1 p)
  have hpA : ((A ++ [pv]).map (rdValue h3)).Perm ((A ++ [pv]).map (rdValue h1)) := by
    rw [List.map_congr_left hfr2]; exact s1.perm
  have hpB : (B.map (rdValue h3)).Perm (B.map (rdValue h1)) := by
    rw [← List.map_congr_left hfr1]; exact s2.perm
  refine ⟨?_, ?_, ?_⟩
  · exact sl.links_trans ((s1.links.mono (fun x hx => List.mem_append_left _ hx)).links_trans
      (s2.links.mono (fun x hx => List.mem_append_right _ hx)))
  · have e1 : ∀ f : Nat → Nat, ((A ++ [pv]) ++ B).map f = (A ++ [pv]).map f ++ B.map f :=
      fun f => List.map_append f _ _
    rw [e1, e1] at hperm
    rw [e1, e1]
    exact (hpA.append hpB).trans hperm
  · rw [List.map_append, List.pairwise_append]
    refine ⟨?_, ?_, ?_⟩
    · have := s1.sorted
      rw [List.map_congr_left (fun a ha => by rw [hfr2 a ha, ← hk1])]
      exact this
    · have := s2.sorted
      rw [List.map_congr_left (fun a _ => by rw [← hk2])]
      exact this
    · intro x hx y hy
      obtain ⟨a, ha, rfl⟩ := List.mem_map.1 hx
      obtain ⟨b, hb, rfl⟩ := List.mem_map.1 hy
      -- the value at `a` was on the left after partitioning, the value at `b` on the right
      have hma : rdValue h3 a ∈ (A ++ [pv]).map (rdValue h1) :=
        hpA.mem_iff.1 (List.mem_map_of_mem _ ha)
      have hmb : rdValue h3 b ∈ B.map (rdValue h1) :=
        hpB.mem_iff.1 (List.mem_map_of_mem _ hb)
      obtain ⟨a1, ha1, hea⟩ := List.mem_map.1 hma
      obtain ⟨b1, hb1, heb⟩ := List.mem_map.1 hmb
      rw [← hea, ← heb]
      have hleft : strcmp (key h (rdValue h1 a1)) (key h P) ≤ 0 := by
        rcases List.mem_append.1 ha1 with ha1 | ha1
        · have := strcmp_lt_of_gt (hlt a1 ha1); omega
        · rw [List.mem_singleton] at ha1
          rw [ha1, hpiv, strcmp_self]
      exact strcmp_le_trans _ _ _ hleft (hge b1 hb1)

/-- When the last element of a range holds the strict maximum, it still does after the
partition loop, and so does the last element of the right-hand side. -/
theorem smax_after_partition {h h1 : Heap} {seg A B : List Nat} {s0 pv en : Nat}
    (hsplit : seg = A ++ pv :: B) (hen : seg.getLast? = some en) (hs0 : s0 ∈ seg.dropLast)
    (hstr : h1.str = h.str)
    (hperm : (seg.map (rdValue h1)).Perm (seg.map (rdValue h)))
    (hpiv : rdValue h1 pv = rdValue h s0)
    (hkeep : strcmp (key h (rdValue h s0)) (key h (rdValue h en)) ≤ 0 →
      rdValue h1 en = rdValue h en)
    (hmax : SMax h seg en) : B ≠ [] ∧ SMax h1 seg en := by
  have hlt := hmax s0 hs0
  have hk := hkeep (by omega)
  have hD : seg.dropLast ++ [en] = seg := List.dropLast_append_getLast? en hen
  have hmax1 : SMax h1 seg en := by
    have hp := hperm
    rw [← hD, List.map_append, List.map_append, List.map_singleton, List.map_singleton, hk,
      List.perm_append_right_iff] at hp
    intro a ha
    have hm : rdValue h1 a ∈ seg.dropLast.map (rdValue h) :=
      hp.mem_iff.1 (List.mem_map_of_mem _ ha)
    obtain ⟨b, hb, hbe⟩ := List.mem_map.1 hm
    rw [key_congr hstr, key_congr hstr, hk, ← hbe]
    exact hmax b hb
  refine ⟨?_, hmax1⟩
  intro hB
  subst hB
  have hpe : pv = en := by
    rw [hsplit] at hen
    have : A ++ [pv] = A ++ [pv] := rfl
    rw [List.getLast?_concat] at hen
    exact Option.some.inj hen
  rw [hpe, hk] at hpiv
  rw [hpiv, strcmp_self] at hlt
  omega

theorem qsortImplement_run {k : Nat} {h h1 h2 h3 : Heap} {s0 en pv : Nat} {e2 : list_ele_t}
    (hne : s0 ≠ en)
    (hp : partitionLoop k h (some s0) (some s0) (some en) = Outcome.done (h1, some pv))
    (hq1 : qsortImplement k h1 (some s0) (some pv) = Outcome.done h2)
    (he2 : h2.ele pv = some e2)
    (hq2 : qsortImplement k h2 e2.next (some en) = Outcome.done h3) :
    qsortImplement (k + 1) h (some s0) (some en) = Outcome.done h3 := by
  have hc : ¬ (some s0 = none ∨ some en = none ∨ some s0 = some en) := by simp [hne]
  simp only [qsortImplement, if_neg hc, hp, hq1, deref, he2, hq2]

/-- `qsortImplement` on a range of distinct linked elements with live strings in one window,
where either the chain ends with the range or the last element of the range holds its strict
maximum: with
enough fuel the call returns, and it leaves the range sorted. The bound `m` is the measure of
the recursion: twice the length of the range, plus one when the last element is not known to
hold the strict maximum. -/
theorem qsortImplement_sorts : ∀ (m : Nat) (seg : List Nat) (h : Heap) (s0 en : Nat)
    (r : Option Nat), seg.Nodup → Lseg h (some s0) seg r →
    (∀ a ∈ seg, h.str (rdValue h a) ≠ none) → OneWindow h seg → seg.getLast? = some en →
    (r = none ∨ SMax h seg en) →
    (2 * seg.length + 1 ≤ m ∨ (SMax h seg en ∧ 2 * seg.length ≤ m)) →
    ∃ h1, SortedRange h h1 seg ∧
      ∃ fuel0, ∀ fuel, fuel0 ≤ fuel →
        qsortImplement fuel h (some s0) (some en) = Outcome.done h1
  | _, [], _, _, _, _, _, _, _, _, hen, _, _ => by simp at hen
  | _, [a], h, s0, en, _, _, hl, _, _, hen, _, _ => by
    have h1 : s0 = a := Option.some.inj hl.1
    have h2 : en = a := by simpa using hen.symm
    subst h1 h2
    refine ⟨h, SortedRange.single h _, 1, ?_⟩
    intro fuel hf
    obtain ⟨k, rfl⟩ : ∃ k, fuel = k + 1 := ⟨fuel - 1, by omega⟩
    simp [qsortImplement]
  | 0, _ :: _ :: _, _, _, _, _, _, _, _, _, _, _, hmeas => by
    simp only [List.length_cons] at hmeas
    omega
  | m + 1, a :: c :: C, h, s0, en, r, hnd, hl, hlive, hwin, hen, hpre, hmeas => by
    have hs0 : s0 = a := Option.some.inj hl.1
    subst hs0
    obtain ⟨h1, A, pv, B, hrunP, hsplit, sl, hperm, hpiv, hlt, hge, hkeep⟩ :=
      partitionLoop_spec hnd hl hlive hwin hen
    have hwin1 : OneWindow h1 (s0 :: c :: C) := hwin.of_perm hperm
    have hs0D : s0 ∈ (s0 :: c :: C).dropLast := by simp [List.dropLast]
    have hs0en : s0 ≠ en := by
      have h1 : ([s0] ++ c :: C).getLast? = some en := hen
      have h2 := (last_mem_suffix (by simp) h1).2
      intro e
      exact (List.nodup_cons.1 hnd).1 (e ▸ h2)
    have hlen : (s0 :: c :: C).length = C.length + 2 := rfl
    have hl1 := sl.Lseg hl
    have hlive1 := live_of_perm sl.str_eq hperm hlive
    have hBne := fun hmx => (smax_after_partition hsplit hen hs0D sl.str_eq hperm hpiv hkeep hmx)
    generalize s0 :: c :: C = seg at *
    subst hsplit
    have hA : A ++ pv :: B = (A ++ [pv]) ++ B := by simp
    have hnd' := hnd
    rw [hA] at hnd' hl1 hen hwin1
    have hdisj := (List.nodup_append.1 hnd').2.2
    obtain ⟨m', hlA, hlB⟩ := Lseg_append.1 hl1
    have hlenAB : (A ++ pv :: B).length = A.length + 1 + B.length := by
      simp only [List.length_append, List.length_cons]; omega
    -- the first recursive call, on the range up to the pivot element
    have smaxA : SMax h1 (A ++ [pv]) pv := by
      intro x hx
      rw [List.dropLast_concat] at hx
      rw [key_congr sl.str_eq, key_congr sl.str_eq, hpiv]
      exact strcmp_lt_of_gt (hlt x hx)
    have boundA : 2 * (A ++ [pv]).length ≤ m := by
      simp only [List.length_append, List.length_singleton]
      rcases hmeas with hm | ⟨hmx, hm⟩
      · omega
      · have := (hBne hmx).1
        have : 0 < B.length := List.length_pos.2 this
        omega
    obtain ⟨h2, s1, f1, hrun1⟩ := qsortImplement_sorts m (A ++ [pv]) h1 s0 pv m'
      (List.nodup_append.1 hnd').1 hlA
      (fun x hx => hlive1 x (by rw [hA]; exact List.mem_append_left _ hx))
      (hwin1.window_mono (fun x hx => List.mem_append_left _ hx))
      (List.getLast?_concat A) (Or.inr smaxA) (Or.inr ⟨smaxA, boundA⟩)
    obtain ⟨-, e1, he1, hn1⟩ := Lseg_snoc.1 hlA
    obtain ⟨e2, he2, hn2⟩ := s1.links.ele_some he1
    have hfr1 : ∀ b ∈ B, rdValue h2 b = rdValue h1 b := fun b hb =>
      rdValue_congr (s1.links.frame b (fun hx => hdisj hx hb))
    -- the second recursive call, on the range after the pivot element
    obtain ⟨h3, s2, f2, hrun2⟩ : ∃ h3, SortedRange h2 h3 B ∧ ∃ f2, ∀ fuel, f2 ≤ fuel →
        qsortImplement fuel h2 e2.next (some en) = Outcome.done h3 := by
      cases B with
      | nil =>
        have hr : r = none := by
          rcases hpre with hr | hmx
          · exact hr
          · exact absurd rfl (hBne hmx).1
        have hm' : m' = r := hlB
        refine ⟨h2, SortedRange.nil h2, 1, ?_⟩
        intro fuel hf
        obtain ⟨k, rfl⟩ : ∃ k, fuel = k + 1 := ⟨fuel - 1, by omega⟩
        rw [hn2, hn1, hm', hr]
        simp [qsortImplement]
      | cons b0 B1 =>
        have hm' : m' = some b0 := hlB.1
        obtain ⟨hlastB, henB⟩ := last_mem_suffix (by simp) hen
        have pre2 : r = none ∨ SMax h2 (b0 :: B1) en := by
          rcases hpre with hr | hmx
          · exact Or.inl hr
          · right
            have hmx1 := (hBne hmx).2
            intro x hx
            have hxB : x ∈ b0 :: B1 := List.mem_of_mem_dropLast hx
            have hxD : x ∈ (A ++ pv :: (b0 :: B1)).dropLast := by
              rw [List.dropLast_append_cons, List.dropLast_cons_of_ne_nil (by simp)]
              exact List.mem_append_right _ (List.mem_cons_of_mem _ hx)
            rw [key_congr s1.links.str_eq, key_congr s1.links.str_eq, hfr1 x hxB,
              hfr1 en henB]
            exact hmx1 x hxD
        have bound2 : 2 * (b0 :: B1).length + 1 ≤ m ∨
            (SMax h2 (b0 :: B1) en ∧ 2 * (b0 :: B1).length ≤ m) := by
          left
          rcases hmeas with hm | ⟨-, hm⟩ <;> omega
        have hlB2 : Lseg h2 (some b0) (b0 :: B1) r := by
          rw [hm'] at hlB; exact s1.links.Lseg hlB
        have hliveB : ∀ x ∈ b0 :: B1, h2.str (rdValue h2 x) ≠ none := by
          intro x hx
          rw [s1.links.str_eq, hfr1 x hx]
          exact hlive1 x (List.mem_append_right _ (List.mem_cons_of_mem _ hx))
        have hwinB : OneWindow h2 (b0 :: B1) :=
          (hwin1.window_mono (fun x hx => List.mem_append_right _ hx)).window_congr hfr1
        obtain ⟨h3, s2, f2, hrun2⟩ := qsortImplement_sorts m (b0 :: B1) h2 b0 en r
          (List.nodup_append.1 hnd').2.1 hlB2 hliveB hwinB hlastB pre2 bound2
        refine ⟨h3, s2, f2, ?_⟩
        rw [hn2, hn1, hm']
        exact hrun2
    refine ⟨h3, sorted_combine hnd sl hperm hlt hpiv hge s1 s2,
      max (C.length + 1) (max f1 f2) + 1, ?_⟩
    intro fuel hf
    obtain ⟨k, rfl⟩ : ∃ k, fuel = k + 1 := ⟨fuel - 1, by omega⟩
    have hk1 : C.length < k := by
      have := le_max_left (C.length + 1) (max f1 f2); omega
    have hk2 : f1 ≤ k := by
      have := le_max_right (C.length + 1) (max f1 f2)
      have := le_max_left f1 f2; omega
    have hk3 : f2 ≤ k := by
      have := le_max_right (C.length + 1) (max f1 f2)
      have := le_max_right f1 f2; omega
    exact qsortImplement_run hs0en (hrunP k hk1) (hrun1 k hk2) he2 (hrun2 k hk3)

/-! ## Sorting: `q_sort` on a well-formed queue -/

theorem WF.str_live {h : Heap} {q : queue_t} {ns : List Nat} {L : List (List Nat)}
    (w : WF h q ns L) : ∀ a ∈ ns, h.str (rdValue h a) ≠ none := by
  intro a ha
  obtain ⟨v, -, hv⟩ := w.strAt_some a ha
  rw [strAt_some_str hv]; simp

/-- The strings of live elements with live strings, through `key`. -/
theorem vals_eq_keys {h : Heap} {ns : List Nat} (hl : ∀ a ∈ ns, ∃ e, h.ele a = some e)
    (hlive : ∀ a ∈ ns, h.str (rdValue h a) ≠ none) :
    ns.map (strAt h) = (ns.map (fun a => key h (rdValue h a))).map some := by
  rw [List.map_map]
  apply List.map_congr_left
  intro a ha
  obtain ⟨e, he⟩ := hl a ha
  have h1 := hlive a ha
  simp only [Function.comp, strAt, key, rdValue, he] at h1 ⊢
  cases hs : h.str e.value with
  | none => exact absurd hs h1
  | some v => rfl

theorem WF.vals_keys {h : Heap} {q : queue_t} {ns : List Nat} {L : List (List Nat)}
    (w : WF h q ns L) : L = ns.map (fun a => key h (rdValue h a)) := by
  have h1 := vals_eq_keys (Lseg_live w.chain) w.str_live
  rw [w.vals] at h1
  exact List.map_injective_iff.2 (Option.some_injective _) h1

/-- Sorting a range that is the whole chain of a well-formed queue leaves a well-formed queue
whose strings are the old ones in non-decreasing order. -/
theorem wf_of_sortedRange {h h1 : Heap} {q : queue_t} {ns : List Nat} {L : List (List Nat)}
    (w : WF h q ns L) (sr : SortedRange h h1 ns) :
    ∃ L1, WF h1 q ns L1 ∧ L1.Perm L ∧ L1.Pairwise (fun a b => strcmp a b ≤ 0) := by
  have hlive1 := live_of_perm sr.links.str_eq sr.perm w.str_live
  have hch1 : Lseg h1 q.head ns none := sr.links.Lseg w.chain
  have hk : ∀ a, key h1 (rdValue h1 a) = key h (rdValue h1 a) := fun a =>
    key_congr sr.links.str_eq _
  refine ⟨ns.map (fun a => key h (rdValue h1 a)), ⟨hch1, w.tail_last, w.size_len, ?_, ?_⟩, ?_,
    sr.sorted⟩
  · rw [vals_eq_keys (Lseg_live hch1) hlive1]
    congr 1
    exact List.map_congr_left (fun a _ => hk a)
  · exact (sr.perm.nodup_iff).2 w.owned
  · rw [w.vals_keys]
    have := sr.perm.map (key h)
    rw [List.map_map, List.map_map] at this
    exact this

/-- `q_sort` on a well-formed queue whose strings lie in one window: with enough fuel it
returns, and it leaves the same elements, linked as before, holding the old strings in
non-decreasing order. -/
theorem q_sort_wf {h : Heap} {q : queue_t} {ns : List Nat} {L : List (List Nat)}
    (w : WF h q ns L) (hwin : OneWindow h ns) :
    ∃ h1 L1, (∃ fuel0, ∀ fuel, fuel0 ≤ fuel → q_sort fuel h (some q) = Outcome.done h1) ∧
      WF h1 q ns L1 ∧ L1.Perm L ∧ L1.Pairwise (fun a b => strcmp a b ≤ 0) ∧
      SameLinks h h1 ns := by
  by_cases hsz : q.size ≤ 1
  · have hlen : L.length ≤ 1 := by
      have h1 := w.size_len
      have h2 := w.length_eq
      rw [h1] at hsz
      have : ns.length ≤ 1 := by exact_mod_cast hsz
      omega
    refine ⟨h, L, ⟨0, fun fuel _ => by simp [q_sort, hsz]⟩, w, List.Perm.refl _, ?_,
      SameLinks.links_refl _ _⟩
    match L, hlen with
    | [], _ => exact List.Pairwise.nil
    | [a], _ => exact List.pairwise_singleton _ _
  · obtain ⟨s0, rest, rfl⟩ : ∃ s0 rest, ns = s0 :: rest := by
      cases ns with
      | nil =>
        have := w.size_len
        simp at this
        omega
      | cons s0 rest => exact ⟨s0, rest, rfl⟩
    have hhead : q.head = some s0 := w.chain.1
    obtain ⟨en, hen⟩ : ∃ en, (s0 :: rest).getLast? = some en :=
      ⟨(s0 :: rest).getLast (by simp), List.getLast?_eq_getLast _ _⟩
    have hch := w.chain
    rw [hhead] at hch
    obtain ⟨h1, sr, fuel0, hrun⟩ := qsortImplement_sorts (2 * (s0 :: rest).length + 1)
      (s0 :: rest) h s0 en none (Lseg_nodup w.chain) hch w.str_live hwin hen (Or.inl rfl)
      (Or.inl (le_refl _))
    obtain ⟨L1, w1, hperm, hsorted⟩ := wf_of_sortedRange w sr
    refine ⟨h1, L1, ⟨fuel0, fun fuel hf => ?_⟩, w1, hperm, hsorted, sr.links⟩
    simp only [q_sort, if_neg hsz, hhead, w.tail_last, hen]
    exact hrun fuel hf

/-! ## Further facts used by the main results -/

/-- Elements that were adjacent in a chain are adjacent the other way round in the reversed
chain. -/
theorem adjacent_reversed {h h1 : Heap} {ns : List Nat} {p p1 : Option Nat}
    (hl : Lseg h p ns none) (hl1 : Lseg h1 p1 ns.reverse none) {a b : Nat} {e : list_ele_t}
    (ha : a ∈ ns) (he : h.ele a = some e) (hn : e.next = some b) :
    ∃ e1, h1.ele b = some e1 ∧ e1.next = some a := by
  obtain ⟨l1, l2, rfl⟩ := List.append_of_mem ha
  obtain ⟨m, -, -, e0, he0, hrest⟩ := Lseg_append.1 hl
  rw [he] at he0
  cases he0
  rw [hn] at hrest
  cases l2 with
  | nil => cases hrest
  | cons b0 l3 =>
    have hb : b = b0 := Option.some.inj hrest.1
    subst hb
    have hrev : (l1 ++ a :: b :: l3).reverse = l3.reverse ++ b :: a :: l1.reverse := by simp
    rw [hrev] at hl1
    obtain ⟨m1, -, -, e1, he1, hrest1⟩ := Lseg_append.1 hl1
    exact ⟨e1, he1, hrest1.1⟩

/-- Effect of a successful `q_insert_tail` on a well-formed queue. -/
theorem insert_tail_done {h : Heap} {q : queue_t} {ns : List Nat} {L : List (List Nat)}
    (s : List Nat) {a p : Nat} (w : WF h q ns L) (ha : h.ele a = none) (hp : h.str p = none) :
    ∃ q1 h1, q_insert_tail h (some q) (some s) (some a) (some p)
        = Outcome.done (true, some q1, h1) ∧
      WF h1 q1 (ns ++ [a]) (L ++ [s]) ∧ h1.ele a = some ⟨p, none⟩ ∧ q1.tail = some a ∧
      (L = [] → q1.head = some a) ∧
      (L ≠ [] → q1.head = q.head ∧
        ∃ t et, q.tail = some t ∧ h1.ele t = some et ∧ et.next = some a) ∧
      q1.size = q.size + 1 := by
  rcases List.eq_nil_or_concat ns with hnil | ⟨l, t, hns⟩
  · subst hnil
    have hL : L = [] := by
      have := w.length_eq
      cases L with
      | nil => rfl
      | cons v L => simp at this
    subst hL
    have hh : q.head = none := w.chain
    have ht : q.tail = none := w.tail_last
    have w1 := insert_head_wf s w ha hp
    rw [hh, ht] at w1
    refine ⟨⟨some a, some a, q.size + 1⟩,
      ((h.setEle a (some ⟨0, none⟩)).setStr p (some s)).setEle a (some ⟨p, none⟩),
      ?_, ?_, ?_, rfl, fun _ => rfl, fun hne => absurd rfl hne, rfl⟩
    · simp only [q_insert_tail, hh, ht, if_true]
    · simpa using w1
    · simp
  · have hns' : ns = l ++ [t] := by simpa using hns
    subst hns'
    obtain ⟨-, et, het, -⟩ := Lseg_snoc.1 w.chain
    have hna : a ∉ l ++ [t] := w.not_mem_of_fresh ha
    have hta : t ≠ a := fun e => hna (by simp [e])
    have hLne : L ≠ [] := by
      intro hL
      have := w.length_eq
      rw [hL] at this
      simp at this
    have hhead : q.head ≠ none := by
      rw [w.head_eq]
      cases l <;> simp
    have htail : q.tail = some t := by rw [w.tail_last]; simp
    have w1 := insert_tail_wf s w ha hp het
    refine ⟨⟨q.head, some a, q.size + 1⟩,
      (((h.setEle a (some ⟨0, none⟩)).setStr p (some s)).setEle a (some ⟨p, none⟩)).setEle t
        (some { et with next := some a }),
      ?_, w1, ?_, rfl, fun hL => absurd hL hLne,
      fun _ => ⟨rfl, t, ⟨et.value, some a⟩, htail, ?_, rfl⟩, rfl⟩
    · simp only [q_insert_tail, htail, if_neg hhead, setEle_ele, setStr_ele, if_neg hta, het,
        if_true]
    · simp [hta.symm]
    · simp

/-- Effect of a successful `q_remove_head` on a well-formed non-empty queue. -/
theorem remove_head_done {h : Heap} {q : queue_t} {x : Nat} {ns : List Nat} {v : List Nat}
    {L : List (List Nat)} (w : WF h q (x :: ns) (v :: L)) (sp : Option (List Nat))
    (bufsize : Nat) (hsp : ∀ buf, sp = some buf → bufsize ≤ buf.length) :
    ∃ e sp1, h.ele x = some e ∧ copyOut sp v bufsize = Outcome.done sp1 ∧
      q_remove_head h (some q) sp bufsize = Outcome.done (true,
        some ⟨e.next, q.tail, q.size - 1⟩, (h.setStr e.value none).setEle x none, sp1) ∧
      Lseg ((h.setStr e.value none).setEle x none) e.next ns none ∧
      ns.map (strAt ((h.setStr e.value none).setEle x none)) = L.map some ∧
      (ns.map (rdValue ((h.setStr e.value none).setEle x none))).Nodup := by
  obtain ⟨hh, e, he, -⟩ := w.chain
  obtain ⟨sp1, hcopy⟩ := copyOut_done sp v bufsize hsp
  have hv : h.str e.value = some v := by
    have := w.vals
    simp only [List.map_cons, List.cons.injEq] at this
    have h1 := this.1
    unfold strAt at h1
    rw [he] at h1
    exact h1
  obtain ⟨r1, r2, r3⟩ := remove_head_rest w he
  refine ⟨e, sp1, he, hcopy, ?_, r1, r2, r3⟩
  simp only [q_remove_head, hh, he, hv, hcopy]

/-! ## Main results -/

/-- On every well-formed queue whose strings lie in one window (as they all do when a pointer
fits an `int`) `q_sort` returns once it is given enough fuel; afterwards the queue is the same
chain of elements with the same head, tail and size, the strings read from head to the end are
non-decreasing under `strcmp`, and they are a permutation of the strings before the call. -/
theorem q_sort_sorted_of_window (h : Heap) (q : queue_t) (ns : List Nat)
    (L : List (List Nat)) (w : WF h q ns L) (hwin : OneWindow h ns) :
    ∃ h1 L1, (∃ fuel0, ∀ fuel, fuel0 ≤ fuel → q_sort fuel h (some q) = Outcome.done h1) ∧
      WF h1 q ns L1 ∧ readFrom h1 ns.length q.head = some L1 ∧
      L1.Pairwise (fun a b => strcmp a b ≤ 0) ∧ L1.Perm L := by
  obtain ⟨h1, L1, hrun, w1, hperm, hsorted, -⟩ := q_sort_wf w hwin
  exact ⟨h1, L1, hrun, w1, w1.readFrom _ (by rw [w1.length_eq]), hsorted, hperm⟩

/-- The queue after `insert_tail` of "banana", "apple", "cherry", with the strings at the
addresses 0, 1 and 2, is well formed and lies in one window, so sorting it returns a sorted
permutation; and with fuel 4 the sorted queue reads "apple", "banana", "cherry" and still has
size 3. -/
theorem q_sort_fruit :
    WF fruitState.heap ⟨some 0, some 2, 3⟩ [0, 1, 2] fruit ∧
    OneWindow fruitState.heap [0, 1, 2] ∧
    (∃ h1 L1, (∃ fuel0, ∀ fuel, fuel0 ≤ fuel →
        q_sort fuel fruitState.heap (some ⟨some 0, some 2, 3⟩) = Outcome.done h1) ∧
      WF h1 ⟨some 0, some 2, 3⟩ [0, 1, 2] L1 ∧
      readFrom h1 [0, 1, 2].length (some 0) = some L1 ∧
      L1.Pairwise (fun a b => strcmp a b ≤ 0) ∧ L1.Perm fruit) ∧
    fruitState.queue = some ⟨some 0, some 2, 3⟩ ∧
    (match q_sort 4 fruitState.heap fruitState.queue with
      | Outcome.done h1 => readFrom h1 3 (some 0)
      | Outcome.fault => none
      | Outcome.timeout => none)
      = some [[97, 112, 112, 108, 101], [98, 97, 110, 97, 110, 97],
          [99, 104, 101, 114, 114, 121]] :=
  ⟨⟨⟨rfl, _, rfl, rfl, _, rfl, rfl, _, rfl, rfl⟩, rfl, rfl, rfl, by decide⟩,
    by unfold OneWindow; decide,
    q_sort_sorted_of_window fruitState.heap ⟨some 0, some 2, 3⟩ [0, 1, 2] fruit
      ⟨⟨rfl, _, rfl, rfl, _, rfl, rfl, _, rfl, rfl⟩, rfl, rfl, rfl, by decide⟩
      (by unfold OneWindow; decide),
    rfl, by decide⟩

/-- C1: `q_sort` does not sort every well-formed queue. The queue "b", "a" of `farState`, whose
two strings lie at addresses that differ above their low 32 bits, is well formed, yet `q_sort`
on it never returns: with fuel 3 or more it faults, because the first pass exchanges only the
low 32 bits of the two `value` words and the next `strcmp` reads through a word that is the
address of no string. In `mixState`, where the caller has strings "x" and "y" at the two
addresses so made, `q_sort` returns, and the queue then reads "x", "y", which is not a
permutation of "b", "a". -/
theorem q_sort_loses_strings :
    WF farState.heap ⟨some 0, some 1, 2⟩ [0, 1] [[98], [97]] ∧
    farState.queue = some ⟨some 0, some 1, 2⟩ ∧
    (∀ k, q_sort (k + 3) farState.heap farState.queue = Outcome.fault) ∧
    (∀ fuel, (q_sort fuel farState.heap farState.queue).get? = none) ∧
    WF mixState.heap ⟨some 0, some 1, 2⟩ [0, 1] [[98], [97]] ∧
    mixState.queue = some ⟨some 0, some 1, 2⟩ ∧
    (∃ h1, (∀ k, q_sort (k + 3) mixState.heap mixState.queue = Outcome.done h1) ∧
      readFrom h1 2 (some 0) = some [[120], [121]]) ∧
    ¬ List.Perm [[120], [121]] [[98], [97]] :=
  ⟨⟨⟨rfl, _, rfl, rfl, _, rfl, rfl⟩, rfl, rfl, rfl, by decide⟩, rfl, fun _ => rfl,
    fun fuel =>
      match fuel with
      | 0 => rfl
      | 1 => rfl
      | 2 => rfl
      | _ + 3 => rfl,
    ⟨⟨rfl, _, rfl, rfl, _, rfl, rfl⟩, rfl, rfl, rfl, by decide⟩, rfl,
    ⟨((q_sort 3 mixState.heap mixState.queue).get?).getD emptyHeap, fun _ => rfl, by decide⟩,
    by decide⟩

/-- C2: on every well-formed queue with elements `ns` and strings `L`, `q_reverse` returns
(given fuel for each element) and leaves a well-formed queue whose elements are `ns` reversed
and whose strings are `L` reversed: the new head is the old tail, the new tail the old head,
the size is unchanged, elements that were adjacent are adjacent the other way round, and no
element or string is allocated, freed or changed in value. -/
theorem q_reverse_reverses (h : Heap) (q : queue_t) (ns : List Nat) (L : List (List Nat))
    (fuel : Nat) (w : WF h q ns L) (hf : ns.length ≤ fuel) :
    ∃ q1 h1, q_reverse fuel h (some q) = Outcome.done (some q1, h1) ∧
      WF h1 q1 ns.reverse L.reverse ∧ readFrom h1 ns.length q1.head = some L.reverse ∧
      q1.head = q.tail ∧ q1.tail = q.head ∧ q1.size = q.size ∧
      (∀ a b e, a ∈ ns → h.ele a = some e → e.next = some b →
        ∃ e1, h1.ele b = some e1 ∧ e1.next = some a) ∧
      SameValues h h1 := by
  obtain ⟨q1, h1, hrun, w1, hhd, htl, hsz, hsv, -⟩ := reverse_wf w fuel hf
  refine ⟨q1, h1, hrun, w1, w1.readFrom _ (by simp [w.length_eq]), hhd, htl, hsz, ?_, hsv⟩
  intro a b e ha he hn
  exact adjacent_reversed w.chain w1.chain ha he hn

/-- The queue after `insert_head` of "a", "b", "c" reads "c", "b", "a"; it is well formed, so
reversing it with fuel 3 gives the reversed well-formed queue; and that queue reads "a", "b",
"c". -/
theorem q_reverse_reverses_witness :
    WF abcState.heap ⟨some 2, some 0, 3⟩ [2, 1, 0] [[99], [98], [97]] ∧ [2, 1, 0].length ≤ 3 ∧
    (∃ q1 h1, q_reverse 3 abcState.heap (some ⟨some 2, some 0, 3⟩) = Outcome.done (some q1, h1) ∧
      WF h1 q1 [2, 1, 0].reverse [[99], [98], [97]].reverse ∧
      readFrom h1 [2, 1, 0].length q1.head = some [[99], [98], [97]].reverse ∧
      q1.head = some 0 ∧ q1.tail = some 2 ∧ q1.size = 3 ∧
      (∀ a b e, a ∈ [2, 1, 0] → abcState.heap.ele a = some e → e.next = some b →
        ∃ e1, h1.ele b = some e1 ∧ e1.next = some a) ∧
      SameValues abcState.heap h1) ∧
    abcState.queue = some ⟨some 2, some 0, 3⟩ ∧
    readFrom abcState.heap 3 (some 2) = some [[99], [98], [97]] ∧
    readFrom (run [Call.reverse 3] (abcState.queue, abcState.heap)).heap 3
      ((run [Call.reverse 3] (abcState.queue, abcState.heap)).queue.bind (fun q => q.head))
      = some [[97], [98], [99]] :=
  ⟨⟨⟨rfl, _, rfl, rfl, _, rfl, rfl, _, rfl, rfl⟩, rfl, rfl, rfl, by decide⟩, by decide,
    q_reverse_reverses abcState.heap ⟨some 2, some 0, 3⟩ [2, 1, 0] [[99], [98], [97]] 3
      ⟨⟨rfl, _, rfl, rfl, _, rfl, rfl, _, rfl, rfl⟩, rfl, rfl, rfl, by decide⟩ (by decide),
    rfl, by decide, by decide⟩

/-- C3: the queue reached from `q_new` by `q_insert_head` of "a" and then `q_remove_head` has
`head = NULL` and `size = 0`, yet its `tail` still holds the address of the freed element:
`q_remove_head` does not reset `tail` when it removes the only element. -/
theorem remove_only_element_stale_tail :
    oneState.queue = some ⟨some 0, some 0, 1⟩ ∧
    emptiedState.queue = some ⟨none, some 0, 0⟩ ∧
    emptiedState.heap.ele 0 = none ∧
    ¬ (∀ q, emptiedState.queue = some q → (q.head = none ↔ q.tail = none)) := by
  refine ⟨rfl, rfl, rfl, ?_⟩
  intro hall
  have h1 := hall ⟨none, some 0, 0⟩ rfl
  simp at h1

/-- C4: `q_insert_head` of "hi" into the empty queue followed by `q_remove_head` into a buffer
of capacity 3 succeeds, leaves "hi" in the buffer, and leaves `head = NULL` and `size = 0`, but
`tail` still holds the address of the freed element instead of `NULL`. -/
theorem insert_remove_leaves_tail :
    (q_insert_head emptyHeap (some ⟨none, none, 0⟩) (some [104, 105]) (some 0) (some 0)).1 = true ∧
    ∃ h1, q_remove_head
        (q_insert_head emptyHeap (some ⟨none, none, 0⟩) (some [104, 105]) (some 0) (some 0)).2.2
        (q_insert_head emptyHeap (some ⟨none, none, 0⟩) (some [104, 105]) (some 0) (some 0)).2.1
        (some [1, 1, 1]) 3
      = Outcome.done (true, some ⟨none, some 0, 0⟩, h1, some [104, 105, 0]) ∧
      cstr [104, 105, 0] = [104, 105] ∧ h1.ele 0 = none :=
  ⟨rfl, _, rfl, by decide, rfl⟩

/-- C5: two queues reachable from `q_new` in which following `next` from `head` does not end
at `tail`. After `q_insert_head` "a", `q_remove_head`, `q_insert_head` "b" with a new address,
`tail` is the address of the freed element and is not the only element of the chain. After
`q_insert_head` "a", `q_remove_head`, `q_insert_tail` "b" with the freed address handed out
again, the only element is linked to itself, so the chain from `head` never ends. -/
theorem stale_tail_breaks_chain :
    (run [Call.insert_head (some [98]) (some 1) (some 1)]
        (emptiedState.queue, emptiedState.heap)).queue = some ⟨some 1, some 0, 1⟩ ∧
    (run [Call.insert_head (some [98]) (some 1) (some 1)]
        (emptiedState.queue, emptiedState.heap)).heap.ele 1 = some ⟨1, none⟩ ∧
    (run [Call.insert_head (some [98]) (some 1) (some 1)]
        (emptiedState.queue, emptiedState.heap)).heap.ele 0 = none ∧
    (run [Call.insert_tail (some [98]) (some 0) (some 0)]
        (emptiedState.queue, emptiedState.heap)).queue = some ⟨some 0, some 0, 1⟩ ∧
    (run [Call.insert_tail (some [98]) (some 0) (some 0)]
        (emptiedState.queue, emptiedState.heap)).heap.ele 0 = some ⟨0, some 0⟩ ∧
    readFrom (run [Call.insert_tail (some [98]) (some 0) (some 0)]
        (emptiedState.queue, emptiedState.heap)).heap 1 (some 0) = none :=
  ⟨rfl, rfl, rfl, rfl, rfl, rfl⟩

/-- C6: on every well-formed queue with strings `L`, `q_insert_tail` of a present string `s`
with both allocations succeeding (at addresses that are not live) returns true and leaves a
well-formed queue with strings `L ++ [s]`: the new element has `next = NULL` and is the new
tail; it is also the head if `L` was empty, otherwise the head is unchanged and the old tail
element is linked to the new element; the size grows by exactly 1. -/
theorem q_insert_tail_appends (h : Heap) (q : queue_t) (ns : List Nat) (L : List (List Nat))
    (s : List Nat) (a p : Nat) (w : WF h q ns L) (ha : h.ele a = none) (hp : h.str p = none) :
    ∃ q1 h1, q_insert_tail h (some q) (some s) (some a) (some p)
        = Outcome.done (true, some q1, h1) ∧
      WF h1 q1 (ns ++ [a]) (L ++ [s]) ∧ readFrom h1 (L.length + 1) q1.head = some (L ++ [s]) ∧
      h1.ele a = some ⟨p, none⟩ ∧ q1.tail = some a ∧
      (L = [] → q1.head = some a) ∧
      (L ≠ [] → q1.head = q.head ∧
        ∃ t et, q.tail = some t ∧ h1.ele t = some et ∧ et.next = some a) ∧
      q1.size = q.size + 1 := by
  obtain ⟨q1, h1, hrun, w1, r1, r2, r3, r4, r5⟩ := insert_tail_done s w ha hp
  exact ⟨q1, h1, hrun, w1, w1.readFrom _ (by simp), r1, r2, r3, r4, r5⟩

/-- Insertion at the tail of the queue "c", "b", "a" (elements 2, 1, 0): the string "d"
becomes the element 3, the old tail element 0 is linked to it, the head stays, and the queue
reads "c", "b", "a", "d" with size 4. And insertion at the tail of the empty queue: the string
"a" becomes the only element, which is both head and tail. -/
theorem q_insert_tail_appends_witness :
    WF abcState.heap ⟨some 2, some 0, 3⟩ [2, 1, 0] [[99], [98], [97]] ∧
    abcState.heap.ele 3 = none ∧ abcState.heap.str 3 = none ∧
    (∃ q1 h1, q_insert_tail abcState.heap (some ⟨some 2, some 0, 3⟩) (some [100]) (some 3)
          (some 3)
        = Outcome.done (true, some q1, h1) ∧
      WF h1 q1 ([2, 1, 0] ++ [3]) ([[99], [98], [97]] ++ [[100]]) ∧
      readFrom h1 ([[99], [98], [97]].length + 1) q1.head
        = some ([[99], [98], [97]] ++ [[100]]) ∧
      h1.ele 3 = some ⟨3, none⟩ ∧ q1.tail = some 3 ∧
      ([[99], [98], [97]] = [] → q1.head = some 3) ∧
      ([[99], [98], [97]] ≠ [] → q1.head = some 2 ∧
        ∃ t et, some 0 = some t ∧ h1.ele t = some et ∧ et.next = some 3) ∧
      q1.size = 3 + 1) ∧
    abcState.queue = some ⟨some 2, some 0, 3⟩ ∧
    (q_insert_tail abcState.heap abcState.queue (some [100]) (some 3) (some 3)).get?.map
        (fun r => (r.1, r.2.1, readFrom r.2.2 4 (some 2), (r.2.2.ele 0).map (fun e => e.next)))
      = some (true, some ⟨some 2, some 3, 4⟩, some [[99], [98], [97], [100]],
          some (some 3)) ∧
    WF emptyHeap ⟨none, none, 0⟩ [] [] ∧ emptyHeap.ele 0 = none ∧ emptyHeap.str 0 = none ∧
    ∃ q1 h1, q_insert_tail emptyHeap (some ⟨none, none, 0⟩) (some [97]) (some 0) (some 0)
        = Outcome.done (true, some q1, h1) ∧
      WF h1 q1 ([] ++ [0]) ([] ++ [[97]]) ∧
      readFrom h1 (([] : List (List Nat)).length + 1) q1.head = some ([] ++ [[97]]) ∧
      h1.ele 0 = some ⟨0, none⟩ ∧ q1.tail = some 0 ∧
      (([] : List (List Nat)) = [] → q1.head = some 0) ∧
      (([] : List (List Nat)) ≠ [] → q1.head = none ∧
        ∃ t et, (none : Option Nat) = some t ∧ h1.ele t = some et ∧ et.next = some 0) ∧
      q1.size = 0 + 1 :=
  ⟨⟨⟨rfl, _, rfl, rfl, _, rfl, rfl, _, rfl, rfl⟩, rfl, rfl, rfl, by decide⟩, rfl, rfl,
    q_insert_tail_appends abcState.heap ⟨some 2, some 0, 3⟩ [2, 1, 0] [[99], [98], [97]] [100]
      3 3 ⟨⟨rfl, _, rfl, rfl, _, rfl, rfl, _, rfl, rfl⟩, rfl, rfl, rfl, by decide⟩ rfl rfl,
    rfl, rfl, WF_empty _, rfl, rfl,
    q_insert_tail_appends emptyHeap ⟨none, none, 0⟩ [] [] [97] 0 0 (WF_empty _) rfl rfl⟩

/-- C7: on every well-formed queue with strings `L`, `q_insert_head` of a present string `s`
with both allocations succeeding (at addresses that are not live) returns true and leaves a
well-formed queue with strings `s :: L`: the new element is the head and its `next` is the old
head; the tail is the new element if `L` was empty and is unchanged otherwise; the size grows
by exactly 1. -/
theorem q_insert_head_prepends (h : Heap) (q : queue_t) (ns : List Nat) (L : List (List Nat))
    (s : List Nat) (a p : Nat) (w : WF h q ns L) (ha : h.ele a = none) (hp : h.str p = none) :
    ∃ q1 h1, q_insert_head h (some q) (some s) (some a) (some p) = (true, some q1, h1) ∧
      WF h1 q1 (a :: ns) (s :: L) ∧ readFrom h1 (L.length + 1) q1.head = some (s :: L) ∧
      q1.head = some a ∧ h1.ele a = some ⟨p, q.head⟩ ∧
      (L = [] → q1.tail = some a) ∧ (L ≠ [] → q1.tail = q.tail) ∧
      q1.size = q.size + 1 := by
  have w1 := insert_head_wf s w ha hp
  refine ⟨_, _, rfl, w1, w1.readFrom _ (by simp), rfl, by simp, ?_, ?_, rfl⟩
  · intro hL
    subst hL
    have hns : ns = [] := by
      have := w.length_eq
      cases ns with
      | nil => rfl
      | cons x xs => simp at this
    subst hns
    have ht : q.tail = none := w.tail_last
    simp [ht]
  · intro hL
    have hns : ns ≠ [] := by
      intro hns
      subst hns
      have := w.length_eq
      cases L with
      | nil => exact hL rfl
      | cons x xs => simp at this
    have ht : q.tail ≠ none := by
      rw [w.tail_last]
      intro hn
      exact hns (List.getLast?_eq_none_iff.1 hn)
    simp [ht]

/-- Insertion at the head of the empty queue: the string "a" becomes the only element; and
`insert_head` of "a", "b", "c" on the empty queue reads "c", "b", "a". -/
theorem q_insert_head_prepends_witness :
    WF emptyHeap ⟨none, none, 0⟩ [] [] ∧ emptyHeap.ele 0 = none ∧ emptyHeap.str 0 = none ∧
    (∃ q1 h1, q_insert_head emptyHeap (some ⟨none, none, 0⟩) (some [97]) (some 0) (some 0)
        = (true, some q1, h1) ∧
      WF h1 q1 (0 :: []) ([97] :: []) ∧
      readFrom h1 (([] : List (List Nat)).length + 1) q1.head = some ([97] :: []) ∧
      q1.head = some 0 ∧ h1.ele 0 = some ⟨0, none⟩ ∧
      (([] : List (List Nat)) = [] → q1.tail = some 0) ∧
      (([] : List (List Nat)) ≠ [] → q1.tail = none) ∧
      q1.size = 0 + 1) ∧
    readFrom abcState.heap 3 (abcState.queue.bind (fun q => q.head))
      = some [[99], [98], [97]] :=
  ⟨WF_empty _, rfl, rfl,
    q_insert_head_prepends emptyHeap ⟨none, none, 0⟩ [] [] [97] 0 0 (WF_empty _) rfl rfl,
    by decide⟩

/-- C8: on every well-formed non-empty queue with elements `x :: ns` and strings `v :: L`,
`q_remove_head` (with no buffer, or one of at least `bufsize` bytes) returns true; afterwards
the new head is the old head element's `next`, the chain from it is `ns` and reads exactly `L`,
the size is smaller by exactly 1, and the old head element is freed. -/
theorem q_remove_head_pops (h : Heap) (q : queue_t) (x : Nat) (ns : List Nat) (v : List Nat)
    (L : List (List Nat)) (sp : Option (List Nat)) (bufsize : Nat)
    (w : WF h q (x :: ns) (v :: L)) (hsp : ∀ buf, sp = some buf → bufsize ≤ buf.length) :
    ∃ q1 h1 sp1 e, q_remove_head h (some q) sp bufsize = Outcome.done (true, some q1, h1, sp1) ∧
      h.ele x = some e ∧ q1.head = e.next ∧ Lseg h1 q1.head ns none ∧
      readFrom h1 L.length q1.head = some L ∧ q1.size = q.size - 1 ∧ h1.ele x = none := by
  obtain ⟨e, sp1, he, -, hrun, r1, r2, -⟩ := remove_head_done w sp bufsize hsp
  have hlen : ns.length ≤ L.length := by
    have := w.length_eq
    simp at this
    omega
  exact ⟨_, _, sp1, e, hrun, he, rfl, r1, readFrom_of_chain _ r1 r2 hlen, rfl, by simp⟩

/-- Removal from the queue "c", "b", "a" (elements 2, 1, 0) into a buffer of four bytes: the
call returns true, the new head is the element 1, the rest of the chain is 1, 0 and reads "b",
"a", the size is 2, the element 2 is freed and the buffer holds "c". -/
theorem q_remove_head_pops_witness :
    WF abcState.heap ⟨some 2, some 0, 3⟩ (2 :: [1, 0]) ([99] :: [[98], [97]]) ∧
    (∀ buf, some [0, 0, 0, 0] = some buf → 4 ≤ buf.length) ∧
    (∃ q1 h1 sp1 e, q_remove_head abcState.heap (some ⟨some 2, some 0, 3⟩) (some [0, 0, 0, 0]) 4
        = Outcome.done (true, some q1, h1, sp1) ∧
      abcState.heap.ele 2 = some e ∧ q1.head = e.next ∧ Lseg h1 q1.head [1, 0] none ∧
      readFrom h1 [[98], [97]].length q1.head = some [[98], [97]] ∧ q1.size = 3 - 1 ∧
      h1.ele 2 = none) ∧
    abcState.queue = some ⟨some 2, some 0, 3⟩ ∧
    (q_remove_head abcState.heap abcState.queue (some [0, 0, 0, 0]) 4).get?.map
        (fun r => (r.1, r.2.1, readFrom r.2.2.1 2 (some 1), r.2.2.2))
      = some (true, some ⟨some 1, some 0, 2⟩, some [[98], [97]], some [99, 0, 0, 0]) :=
  ⟨⟨⟨rfl, _, rfl, rfl, _, rfl, rfl, _, rfl, rfl⟩, rfl, rfl, rfl, by decide⟩,
    fun _ hb => by cases hb; decide,
    q_remove_head_pops abcState.heap ⟨some 2, some 0, 3⟩ 2 [1, 0] [99] [[98], [97]]
      (some [0, 0, 0, 0]) 4
      ⟨⟨rfl, _, rfl, rfl, _, rfl, rfl, _, rfl, rfl⟩, rfl, rfl, rfl, by decide⟩
      (fun _ hb => by cases hb; decide),
    rfl, rfl⟩

/-- C9: for every queue whose head element is live and holds the (NUL-free) string `v`, and
every provided buffer of at least `c > 1` bytes, `q_remove_head` with capacity `c` returns true
and leaves in the buffer the C string made of the first `min (length v) (c - 1)` bytes of `v`,
terminated by a NUL at an index below `c`; the buffer keeps its length and is unchanged from
index `c` on. -/
theorem q_remove_head_copies (h : Heap) (q : queue_t) (hd : Nat) (e : list_ele_t)
    (v buf : List Nat) (c : Nat) (hh : q.head = some hd) (he : h.ele hd = some e)
    (hv : h.str e.value = some v) (hnul : ∀ b ∈ v, b ≠ 0) (hc : 1 < c)
    (hlen : c ≤ buf.length) :
    ∃ q1 h1 buf1, q_remove_head h (some q) (some buf) c
        = Outcome.done (true, some q1, h1, some buf1) ∧
      cstr buf1 = v.take (min v.length (c - 1)) ∧ buf1[c - 1]? = some 0 ∧
      buf1.length = buf.length ∧ buf1.drop c = buf.drop c := by
  obtain ⟨buf1, hcopy, r1, r2, r3, r4⟩ := copyOut_spec buf v c hc hlen hnul
  refine ⟨⟨e.next, q.tail, q.size - 1⟩, (h.setStr e.value none).setEle hd none, buf1, ?_, r1,
    r4, r2, r3⟩
  simp only [q_remove_head, hh, he, hv, hcopy]

/-- Removal from the queue holding only "a" into a buffer of three bytes with capacity 2; and
the copy of "hello" with capacity 3 is cut to "he". -/
theorem q_remove_head_copies_witness :
    (∃ q1 h1 buf1, q_remove_head oneState.heap (some ⟨some 0, some 0, 1⟩) (some [7, 7, 7]) 2
        = Outcome.done (true, some q1, h1, some buf1) ∧
      cstr buf1 = [97].take (min [97].length (2 - 1)) ∧ buf1[2 - 1]? = some 0 ∧
      buf1.length = [7, 7, 7].length ∧ buf1.drop 2 = [7, 7, 7].drop 2) ∧
    copyOut (some [7, 7, 7, 7]) [104, 101, 108, 108, 111] 3
      = Outcome.done (some [104, 101, 0, 7]) :=
  ⟨q_remove_head_copies oneState.heap ⟨some 0, some 0, 1⟩ 0 ⟨0, none⟩ [97] [7, 7, 7] 2 rfl rfl
      rfl (by decide) (by decide) (by decide),
    rfl⟩

/-- C10: `q_insert_head` and `q_insert_tail` return false whenever the queue is absent, the
string is absent, the element allocation fails or the string copy fails, and the queue header
and the whole heap are then exactly as before the call (an element allocated before a failed
string copy is freed again). In every other case `q_insert_head` returns true, `q_insert_tail`
never returns false, and `q_insert_tail` returns true as soon as the queue's `tail`, through
which it writes, is `NULL` or a live element. The allocator is taken to hand out an address
that is not live. -/
theorem q_insert_failure_unchanged (h : Heap) (q : Option queue_t) (s : Option (List Nat))
    (newh dup : Option Nat) (hfresh : ∀ a, newh = some a → h.ele a = none) :
    ((q = none ∨ s = none ∨ newh = none ∨ dup = none) →
      q_insert_head h q s newh dup = (false, q, h) ∧
      q_insert_tail h q s newh dup = Outcome.done (false, q, h)) ∧
    (¬ (q = none ∨ s = none ∨ newh = none ∨ dup = none) →
      (q_insert_head h q s newh dup).1 = true ∧
      (∀ r, q_insert_tail h q s newh dup = Outcome.done r → r.1 = true) ∧
      ((∀ qv t, q = some qv → qv.tail = some t → h.ele t ≠ none) →
        ∃ q1 h1, q_insert_tail h q s newh dup = Outcome.done (true, q1, h1))) := by
  constructor
  · intro hfail
    cases q with
    | none => exact ⟨rfl, rfl⟩
    | some qv =>
      cases s with
      | none => exact ⟨rfl, rfl⟩
      | some sv =>
        cases newh with
        | none => exact ⟨rfl, rfl⟩
        | some a =>
          cases dup with
          | none =>
            have := alloc_free_ele h a ⟨0, none⟩ (hfresh a rfl)
            refine ⟨?_, ?_⟩
            · simp only [q_insert_head, this]
            · simp only [q_insert_tail, this]
          | some p => simp at hfail
  · intro hok
    cases q with
    | none => simp at hok
    | some qv =>
      cases s with
      | none => simp at hok
      | some sv =>
        cases newh with
        | none => simp at hok
        | some a =>
          cases dup with
          | none => simp at hok
          | some p =>
            refine ⟨rfl, ?_, ?_⟩
            · intro r hr
              cases ht : qv.tail with
              | none =>
                simp only [q_insert_tail, ht] at hr
                cases hr; rfl
              | some t =>
                simp only [q_insert_tail, ht, setEle_ele, setStr_ele, if_true] at hr
                split at hr
                · cases hr
                · cases hr; rfl
            · intro htail
              cases ht : qv.tail with
              | none =>
                simp only [q_insert_tail, ht]
                exact ⟨_, _, rfl⟩
              | some t =>
                have hlive := htail qv t rfl ht
                have hta : t ≠ a := by
                  intro e
                  rw [e] at hlive
                  exact hlive (hfresh a rfl)
                cases het : h.ele t with
                | none => exact absurd het hlive
                | some et =>
                  simp only [q_insert_tail, ht, setEle_ele, setStr_ele, if_neg hta, het,
                    if_true]
                  exact ⟨_, _, rfl⟩

/-- Insertion into the empty queue when the string copy fails, and insertion into an absent
queue: both functions return false and change nothing. -/
theorem q_insert_failure_unchanged_witness :
    (q_insert_head emptyHeap (some ⟨none, none, 0⟩) (some [97]) (some 0) none
        = (false, some ⟨none, none, 0⟩, emptyHeap) ∧
      q_insert_tail emptyHeap (some ⟨none, none, 0⟩) (some [97]) (some 0) none
        = Outcome.done (false, some ⟨none, none, 0⟩, emptyHeap)) ∧
    (q_insert_head emptyHeap none (some [97]) (some 0) (some 0) = (false, none, emptyHeap) ∧
      q_insert_tail emptyHeap none (some [97]) (some 0) (some 0)
        = Outcome.done (false, none, emptyHeap)) :=
  ⟨(q_insert_failure_unchanged emptyHeap (some ⟨none, none, 0⟩) (some [97]) (some 0) none
      (fun _ _ => rfl)).1 (Or.inr (Or.inr (Or.inr rfl))),
    (q_insert_failure_unchanged emptyHeap none (some [97]) (some 0) (some 0)
      (fun _ _ => rfl)).1 (Or.inl rfl)⟩

/-- C11: `q_remove_head` returns false exactly when the queue is absent or its head is `NULL`:
in those cases it returns false with the queue header (head, tail, size), the heap and the
caller's buffer exactly as before the call; and whenever a call returns false, the queue was
absent or its head was `NULL`. -/
theorem q_remove_head_false_iff (h : Heap) (q : Option queue_t) (sp : Option (List Nat))
    (bufsize : Nat) :
    ((q = none ∨ ∃ qv, q = some qv ∧ qv.head = none) →
      q_remove_head h q sp bufsize = Outcome.done (false, q, h, sp)) ∧
    (∀ r, q_remove_head h q sp bufsize = Outcome.done r → r.1 = false →
      (q = none ∨ ∃ qv, q = some qv ∧ qv.head = none)) := by
  constructor
  · rintro (hq | ⟨qv, hq, hh⟩)
    · subst hq; rfl
    · subst hq
      simp only [q_remove_head, hh]
  · intro r hr hfalse
    cases q with
    | none => exact Or.inl rfl
    | some qv =>
      right
      refine ⟨qv, rfl, ?_⟩
      cases hh : qv.head with
      | none => rfl
      | some hd =>
        exfalso
        simp only [q_remove_head, hh] at hr
        split at hr
        · cases hr
        · split at hr
          · cases hr
          · split at hr
            · cases hr
              simp at hfalse
            · cases hr
            · cases hr

/-- Removal from the empty queue, with a buffer holding "x", returns false and leaves the size
0 and the buffer as it was; removal from the queue holding only "a" does not return false. -/
theorem q_remove_head_false_iff_witness :
    q_remove_head emptyHeap (some ⟨none, none, 0⟩) (some [120, 0]) 2
      = Outcome.done (false, some ⟨none, none, 0⟩, emptyHeap, some [120, 0]) ∧
    (∀ r, q_remove_head oneState.heap (some ⟨some 0, some 0, 1⟩) none 0 = Outcome.done r →
      r.1 = false → ((some ⟨some 0, some 0, 1⟩ : Option queue_t) = none ∨
        ∃ qv, (some ⟨some 0, some 0, 1⟩ : Option queue_t) = some qv ∧ qv.head = none)) :=
  ⟨(q_remove_head_false_iff emptyHeap (some ⟨none, none, 0⟩) (some [120, 0]) 2).1
      (Or.inr ⟨⟨none, none, 0⟩, rfl, rfl⟩),
    (q_remove_head_false_iff oneState.heap (some ⟨some 0, some 0, 1⟩) none 0).2⟩

/-- Two heaps in which the same elements form a chain between the same end points give every
element of the chain the same link. -/
theorem Lseg_next_eq {h h1 : Heap} : ∀ {ns : List Nat} {p r : Option Nat}, Lseg h p ns r →
    Lseg h1 p ns r → ∀ a ∈ ns,
      (h1.ele a).map (fun e => e.next) = (h.ele a).map (fun e => e.next)
  | [], _, _, _, _, a, ha => by simp at ha
  | x :: xs, p, r, hl, hl1, a, ha => by
    obtain ⟨-, e, he, hrest⟩ := hl
    obtain ⟨-, e1, he1, hrest1⟩ := hl1
    have hn : e1.next = e.next := by
      cases xs with
      | nil =>
        have h1' : e.next = r := hrest
        have h2' : e1.next = r := hrest1
        rw [h1', h2']
      | cons y ys => rw [hrest.1, hrest1.1]
    rcases List.mem_cons.1 ha with rfl | ha1
    · rw [he, he1]; simp [hn]
    · rw [hn] at hrest1
      exact Lseg_next_eq hrest hrest1 a ha1

/-- Reversing a well-formed queue twice gives back the very same queue header and heap. -/
theorem reverse_twice {h : Heap} {q : queue_t} {ns : List Nat} {L : List (List Nat)}
    (w : WF h q ns L) (f1 f2 : Nat) (hf1 : ns.length ≤ f1) (hf2 : ns.length ≤ f2) :
    ∃ q1 h1, q_reverse f1 h (some q) = Outcome.done (some q1, h1) ∧
      WF h1 q1 ns.reverse L.reverse ∧
      q_reverse f2 h1 (some q1) = Outcome.done (some q, h) := by
  obtain ⟨q1, h1, hrun1, w1, hh1, ht1, hs1, sv1, fr1⟩ := reverse_wf w f1 hf1
  obtain ⟨q2, h2, hrun2, w2, hh2, ht2, hs2, sv2, fr2⟩ :=
    reverse_wf w1 f2 (by simpa using hf2)
  rw [List.reverse_reverse] at w2
  have hq : q2 = q := by
    cases q2; cases q
    simp only [queue_t.mk.injEq]
    simp only at hh2 ht2 hs2 hh1 ht1 hs1
    exact ⟨by rw [hh2, ht1], by rw [ht2, hh1], by rw [hs2, hs1]⟩
  subst hq
  have hheap : h2 = h := by
    apply heap_ext
    · intro a
      by_cases ha : a ∈ ns
      · have hv := (sv1.same_trans sv2).2 a
        have hn := Lseg_next_eq w.chain w2.chain a ha
        cases hx : h.ele a with
        | none =>
          rw [hx] at hv
          cases hy : h2.ele a with
          | none => rfl
          | some e2 => rw [hy] at hv; simp at hv
        | some e =>
          rw [hx] at hv hn
          cases hy : h2.ele a with
          | none => rw [hy] at hv; simp at hv
          | some e2 =>
            rw [hy] at hv hn
            simp only [Option.map_some', Option.some.injEq] at hv hn
            cases e; cases e2
            simp only at hv hn
            rw [hv, hn]
      · rw [fr2 a (by simpa using ha), fr1 a ha]
    · intro x
      rw [(sv1.same_trans sv2).1]
  rw [hheap] at hrun2
  exact ⟨q1, h1, hrun1, w1, hrun2⟩

/-- C12: on every well-formed queue (non-empty or not) with elements `ns` and strings `L`,
`q_reverse` applied twice, each time with fuel for every element, returns both times, and the
second call gives back exactly the queue header and heap from before the two calls: the same
head, tail and size, the same elements in the same order, holding the same strings. -/
theorem q_reverse_involution (h : Heap) (q : queue_t) (ns : List Nat) (L : List (List Nat))
    (f1 f2 : Nat) (w : WF h q ns L) (hf1 : ns.length ≤ f1) (hf2 : ns.length ≤ f2) :
    ∃ q1 h1, q_reverse f1 h (some q) = Outcome.done (some q1, h1) ∧
      ∃ q2 h2, q_reverse f2 h1 (some q1) = Outcome.done (some q2, h2) ∧
        q2.head = q.head ∧ q2.tail = q.tail ∧ q2.size = q.size ∧ h2 = h ∧
        Lseg h2 q2.head ns none ∧ readFrom h2 ns.length q2.head = some L := by
  obtain ⟨q1, h1, hrun1, -, hrun2⟩ := reverse_twice w f1 f2 hf1 hf2
  exact ⟨q1, h1, hrun1, q, h, hrun2, rfl, rfl, rfl, rfl, w.chain,
    w.readFrom _ (by rw [w.length_eq])⟩

/-- The queue reading "c", "b", "a" is well formed; reversed twice with fuel 3 it is the same
queue again and reads "c", "b", "a". -/
theorem q_reverse_involution_witness :
    WF abcState.heap ⟨some 2, some 0, 3⟩ [2, 1, 0] [[99], [98], [97]] ∧
    ∃ q1 h1, q_reverse 3 abcState.heap (some ⟨some 2, some 0, 3⟩)
        = Outcome.done (some q1, h1) ∧
      ∃ q2 h2, q_reverse 3 h1 (some q1) = Outcome.done (some q2, h2) ∧
        q2.head = some 2 ∧ q2.tail = some 0 ∧ q2.size = 3 ∧ h2 = abcState.heap ∧
        Lseg h2 q2.head [2, 1, 0] none ∧
        readFrom h2 [2, 1, 0].length q2.head = some [[99], [98], [97]] :=
  ⟨⟨⟨rfl, _, rfl, rfl, _, rfl, rfl, _, rfl, rfl⟩, rfl, rfl, rfl, by decide⟩,
    q_reverse_involution abcState.heap ⟨some 2, some 0, 3⟩ [2, 1, 0] [[99], [98], [97]] 3 3
      ⟨⟨rfl, _, rfl, rfl, _, rfl, rfl, _, rfl, rfl⟩, rfl, rfl, rfl, by decide⟩
      (by decide) (by decide)⟩

/-- `q_sort` on a well-formed queue whose strings lie in one window sorts the range made of all
its elements. -/
theorem q_sort_sortedRange {h : Heap} {q : queue_t} {ns : List Nat} {L : List (List Nat)}
    (w : WF h q ns L) (hwin : OneWindow h ns) :
    ∃ h1, (∃ fuel0, ∀ fuel, fuel0 ≤ fuel → q_sort fuel h (some q) = Outcome.done h1) ∧
      SortedRange h h1 ns := by
  by_cases hsz : q.size ≤ 1
  · have hlen : ns.length ≤ 1 := by
      have h1 := w.size_len
      rw [h1] at hsz
      exact_mod_cast hsz
    refine ⟨h, ⟨0, fun fuel _ => by simp [q_sort, hsz]⟩, ?_⟩
    match ns, hlen with
    | [], _ => exact SortedRange.nil h
    | [a], _ => exact SortedRange.single h a
  · obtain ⟨s0, rest, rfl⟩ : ∃ s0 rest, ns = s0 :: rest := by
      cases ns with
      | nil =>
        have := w.size_len
        simp at this
        omega
      | cons s0 rest => exact ⟨s0, rest, rfl⟩
    have hhead : q.head = some s0 := w.chain.1
    obtain ⟨en, hen⟩ : ∃ en, (s0 :: rest).getLast? = some en :=
      ⟨(s0 :: rest).getLast (by simp), List.getLast?_eq_getLast _ _⟩
    have hch := w.chain
    rw [hhead] at hch
    obtain ⟨h1, sr, fuel0, hrun⟩ := qsortImplement_sorts (2 * (s0 :: rest).length + 1)
      (s0 :: rest) h s0 en none (Lseg_nodup w.chain) hch w.str_live hwin hen (Or.inl rfl)
      (Or.inl (le_refl _))
    refine ⟨h1, ⟨fuel0, fun fuel hf => ?_⟩, sr⟩
    simp only [q_sort, if_neg hsz, hhead, w.tail_last, hen]
    exact hrun fuel hf

/-- On every well-formed queue whose strings lie in one window `q_sort` (which gets the queue
header only to read it) changes nothing but which string each element holds: every element
keeps its `next` link, the strings themselves and everything outside the queue are untouched,
the value words of the elements are permuted among them, and so `head` still is the first and
`tail` the last element of the same chain, of the same size. -/
theorem q_sort_structure_of_window (h : Heap) (q : queue_t) (ns : List Nat)
    (L : List (List Nat)) (w : WF h q ns L) (hwin : OneWindow h ns) :
    ∃ h1, (∃ fuel0, ∀ fuel, fuel0 ≤ fuel → q_sort fuel h (some q) = Outcome.done h1) ∧
      (∀ a, (h1.ele a).map (fun e => e.next) = (h.ele a).map (fun e => e.next)) ∧
      (∀ a, a ∉ ns → h1.ele a = h.ele a) ∧ h1.str = h.str ∧
      (ns.map (rdValue h1)).Perm (ns.map (rdValue h)) ∧
      Lseg h1 q.head ns none ∧ q.head = ns.head? ∧ q.tail = ns.getLast? ∧
      q.size = ns.length := by
  obtain ⟨h1, hrun, sr⟩ := q_sort_sortedRange w hwin
  exact ⟨h1, hrun, sr.links.next_eq, sr.links.frame, sr.links.str_eq, sr.perm,
    sr.links.Lseg w.chain, w.head_eq, w.tail_last, w.size_len⟩

/-- C14: `q_sort` does not leave every well-formed queue as the same chain with its strings
rearranged. On the well-formed queue "b", "a" of `farState` the first pass of the partition
loop returns with the chain linked as before and every string still live, but the two `value`
words it leaves, `2 ^ 32 + 9` and `2 ^ 33 + 5`, are not the two words the elements held,
`2 ^ 32 + 5` and `2 ^ 33 + 9`: neither is the address of a string, so no element holds a
string any more. The next pass faults in its `strcmp`, and `q_sort` returns for no amount of
fuel: there is no state after the call in which head, tail, size and links could be as
before. -/
theorem q_sort_strands_elements :
    WF farState.heap ⟨some 0, some 1, 2⟩ [0, 1] [[98], [97]] ∧
    farState.queue = some ⟨some 0, some 1, 2⟩ ∧
    [0, 1].map (rdValue farState.heap) = [4294967301, 8589934601] ∧
    (∃ h1, partitionLoop 1 farState.heap (some 0) (some 0) (some 1)
        = Outcome.done (h1, some 1) ∧
      Lseg h1 (some 0) [0, 1] none ∧ h1.str = farState.heap.str ∧
      [0, 1].map (rdValue h1) = [4294967305, 8589934597] ∧
      h1.str 4294967305 = none ∧ h1.str 8589934597 = none ∧
      [0, 1].map (strAt h1) = [none, none] ∧
      partitionBody h1 (some 0) (some 0) = Outcome.fault) ∧
    ∀ fuel h1, q_sort fuel farState.heap farState.queue ≠ Outcome.done h1 := by
  refine ⟨⟨⟨rfl, _, rfl, rfl, _, rfl, rfl⟩, rfl, rfl, rfl, by decide⟩, rfl, by decide,
    ⟨((partitionLoop 1 farState.heap (some 0) (some 0) (some 1)).get?.map Prod.fst).getD
        emptyHeap,
      rfl, ⟨rfl, _, rfl, rfl, _, rfl, rfl⟩, rfl, by decide, rfl, rfl, by decide, rfl⟩, ?_⟩
  intro fuel h1 hq
  have hn : (q_sort fuel farState.heap farState.queue).get? = none :=
    match fuel with
    | 0 => rfl
    | 1 => rfl
    | 2 => rfl
    | _ + 3 => rfl
  rw [hq] at hn
  cases hn

/-- C15: with a provided buffer and `bufsize = 1` the guard `bufsize > 1` of `q_remove_head`
skips the copy and the terminator alike, so the buffer is left exactly as it was: removing "a"
into a one-byte buffer holding the byte 120 returns true and the buffer still holds 120, not
the empty string. -/
theorem remove_head_bufsize_one_unwritten :
    (∀ buf v, copyOut (some buf) v 1 = Outcome.done (some buf)) ∧
    (∃ h1, q_remove_head oneState.heap (some ⟨some 0, some 0, 1⟩) (some [120]) 1
      = Outcome.done (true, some ⟨none, some 0, 0⟩, h1, some [120])) ∧
    cstr [120] ≠ [] :=
  ⟨fun _ _ => rfl, ⟨_, rfl⟩, by decide⟩

/-- On every well-formed queue whose strings lie in one window, of any size and with any
strings, `q_sort` terminates: there is an amount of fuel from which on the call returns, always
with the same heap; it neither runs out of fuel nor faults. -/
theorem q_sort_terminates_of_window (h : Heap) (q : queue_t) (ns : List Nat)
    (L : List (List Nat)) (w : WF h q ns L) (hwin : OneWindow h ns) :
    ∃ fuel0 h1, ∀ fuel, fuel0 ≤ fuel → q_sort fuel h (some q) = Outcome.done h1 := by
  obtain ⟨h1, ⟨fuel0, hrun⟩, -⟩ := q_sort_sortedRange w hwin
  exact ⟨fuel0, h1, hrun⟩

/-- Sorting terminates on the reverse-sorted queue "c", "b", "a" with strings at the addresses
2, 1, 0, whose first partition loop ends with the pivot on the last element, so that the first
recursive call is on the whole range again; with fuel 5 the call returns and the queue reads
"a", "b", "c". With fuel 5 it also returns on the queue "a", "a", "a". -/
theorem q_sort_abc_terminates :
    WF abcState.heap ⟨some 2, some 0, 3⟩ [2, 1, 0] [[99], [98], [97]] ∧
    OneWindow abcState.heap [2, 1, 0] ∧
    (∃ fuel0 h1, ∀ fuel, fuel0 ≤ fuel →
      q_sort fuel abcState.heap (some ⟨some 2, some 0, 3⟩) = Outcome.done h1) ∧
    (match partitionLoop 2 abcState.heap (some 2) (some 2) (some 0) with
      | Outcome.done (_, pivot) => pivot
      | Outcome.fault => none
      | Outcome.timeout => none) = some 0 ∧
    (match q_sort 5 abcState.heap abcState.queue with
      | Outcome.done h1 => readFrom h1 3 (some 2)
      | Outcome.fault => none
      | Outcome.timeout => none) = some [[97], [98], [99]] ∧
    (match q_sort 5 aaaState.heap aaaState.queue with
      | Outcome.done h1 => readFrom h1 3 (some 2)
      | Outcome.fault => none
      | Outcome.timeout => none) = some [[97], [97], [97]] :=
  ⟨⟨⟨rfl, _, rfl, rfl, _, rfl, rfl, _, rfl, rfl⟩, rfl, rfl, rfl, by decide⟩,
    by unfold OneWindow; decide,
    q_sort_terminates_of_window abcState.heap ⟨some 2, some 0, 3⟩ [2, 1, 0] [[99], [98], [97]]
      ⟨⟨rfl, _, rfl, rfl, _, rfl, rfl, _, rfl, rfl⟩, rfl, rfl, rfl, by decide⟩
      (by unfold OneWindow; decide),
    by decide, by decide, by decide⟩

/-- One pass of the partition loop over a chain of the two elements 0 and 1 whose strings are
in descending order: the low 32 bits of the two `value` words are exchanged, the bits above
them stay, and the loop ends with the pivot on the element 1, which is `end`. -/
theorem half_exchange_pass {h : Heap} {u0 u1 : Nat} (s0 s1 : List Nat)
    (h0 : h.ele 0 = some ⟨u0, some 1⟩) (h1 : h.ele 1 = some ⟨u1, none⟩)
    (hs0 : h.str u0 = some s0) (hs1 : h.str u1 = some s1) (hcmp : strcmp s0 s1 > 0) (k : Nat) :
    ∃ hh, partitionLoop (k + 1) h (some 0) (some 0) (some 1) = Outcome.done (hh, some 1) ∧
      hh.str = h.str ∧
      hh.ele 0 = some ⟨u0 / 4294967296 * 4294967296 + u1 % 4294967296, some 1⟩ ∧
      hh.ele 1 = some ⟨u1 / 4294967296 * 4294967296 + u0 % 4294967296, none⟩ := by
  obtain ⟨hh, hrun, hstr, e0, e1, -⟩ := swapValue_int h0 h1 (by decide)
  have hself := swapValue_self e1
  have hbody := partitionBody_swap h0 rfl h0 h1 hs0 hs1 hcmp hrun e0 hself
  refine ⟨hh, ?_, hstr, e0, e1⟩
  simp only [partitionLoop, hbody]
  simp

/-- In a heap with the strings of `loopState`, and with the two elements holding either the
words `2 ^ 33 + 9` and `2 ^ 32 + 5` ("d" and "a") or the words `2 ^ 33 + 5` and `2 ^ 32 + 9`
("y" and "x"), the call of `qsortImplement` on the two elements returns for no amount of fuel:
its partition loop ends with the pivot on `end` and leaves the other of the two states, on
which the first recursive call is made with the same `start` and `end`. -/
theorem loop_forever : ∀ (fuel : Nat) (h : Heap), h.str = loopState.heap.str →
    ((h.ele 0 = some ⟨8589934601, some 1⟩ ∧ h.ele 1 = some ⟨4294967301, none⟩) ∨
      (h.ele 0 = some ⟨8589934597, some 1⟩ ∧ h.ele 1 = some ⟨4294967305, none⟩)) →
    qsortImplement fuel h (some 0) (some 1) = Outcome.timeout
  | 0, _, _, _ => rfl
  | 1, _, _, _ => rfl
  | k + 2, h, hstr, hst => by
    have hc : ¬ ((some 0 : Option Nat) = none ∨ (some 1 : Option Nat) = none
        ∨ (some 0 : Option Nat) = some 1) := by simp
    rcases hst with ⟨h0, h1⟩ | ⟨h0, h1⟩
    · obtain ⟨hh, hrun, hs, e0, e1⟩ := half_exchange_pass [100] [97] h0 h1
        (by rw [hstr]; rfl) (by rw [hstr]; rfl) (by decide) k
      have ih := loop_forever (k + 1) hh (hs.trans hstr) (Or.inr ⟨e0, e1⟩)
      rw [qsortImplement, if_neg hc, hrun]
      simp only [ih]
    · obtain ⟨hh, hrun, hs, e0, e1⟩ := half_exchange_pass [121] [120] h0 h1
        (by rw [hstr]; rfl) (by rw [hstr]; rfl) (by decide) k
      have ih := loop_forever (k + 1) hh (hs.trans hstr) (Or.inl ⟨e0, e1⟩)
      rw [qsortImplement, if_neg hc, hrun]
      simp only [ih]

/-- C16: `q_sort` does not terminate on every well-formed queue. The queue "d", "a" of
`loopState` is well formed; its strings lie at `2 ^ 33 + 9` and `2 ^ 32 + 5`, and the caller
has the strings "y" and "x" at `2 ^ 33 + 5` and `2 ^ 32 + 9`. The partition loop exchanges only
the low 32 bits of the two `value` words, so the elements then hold "y" and "x", and it ends
with the pivot on `end`; the first recursive call is therefore on the same range, where the
elements are again in descending order, and its partition loop exchanges the low 32 bits back,
restoring the first state, again with the pivot on `end`. The recursion never ends: `q_sort`
runs out of fuel for every amount of fuel. -/
theorem q_sort_recurses_forever :
    WF loopState.heap ⟨some 0, some 1, 2⟩ [0, 1] [[100], [97]] ∧
    loopState.queue = some ⟨some 0, some 1, 2⟩ ∧
    (∃ h1 h2, partitionLoop 1 loopState.heap (some 0) (some 0) (some 1)
        = Outcome.done (h1, some 1) ∧
      [0, 1].map (strAt h1) = [some [121], some [120]] ∧
      partitionLoop 1 h1 (some 0) (some 0) (some 1) = Outcome.done (h2, some 1) ∧
      h2.ele 0 = loopState.heap.ele 0 ∧ h2.ele 1 = loopState.heap.ele 1 ∧
      h2.str = loopState.heap.str) ∧
    ∀ fuel, q_sort fuel loopState.heap loopState.queue = Outcome.timeout :=
  ⟨⟨⟨rfl, _, rfl, rfl, _, rfl, rfl⟩, rfl, rfl, rfl, by decide⟩, rfl,
    ⟨((partitionLoop 1 loopState.heap (some 0) (some 0) (some 1)).get?.map Prod.fst).getD
        emptyHeap,
      ((partitionLoop 1 (((partitionLoop 1 loopState.heap (some 0) (some 0)
        (some 1)).get?.map Prod.fst).getD emptyHeap) (some 0) (some 0)
        (some 1)).get?.map Prod.fst).getD emptyHeap,
      rfl, by decide, rfl, rfl, rfl, rfl⟩,
    fun fuel => loop_forever fuel loopState.heap rfl (Or.inl ⟨rfl, rfl⟩)⟩

/-- For every range `s0 :: c :: C` of distinct elements holding live strings in one window,
linked in this order (so the start differs from the end `en`, and `en` is reached from the
start), the partition loop of `qsortImplement` returns, given fuel for every element after the
first, and on exit the range splits as `A ++ pv :: B` around the pivot element `pv`: `pv` holds
the value the start held on entry, every element before it holds a strictly smaller string,
every element after it (up to and including `en`) a string that is greater or equal, and the
strings held in the range are a permutation of those on entry; links, and elements outside the
range, are untouched. -/
theorem partition_post_of_window (h : Heap) (s0 c : Nat) (C : List Nat) (r : Option Nat)
    (en : Nat) (hnd : (s0 :: c :: C).Nodup) (hl : Lseg h (some s0) (s0 :: c :: C) r)
    (hlive : ∀ a ∈ s0 :: c :: C, h.str (rdValue h a) ≠ none)
    (hwin : OneWindow h (s0 :: c :: C))
    (hen : (s0 :: c :: C).getLast? = some en) :
    ∃ h1 A pv B, (∀ fuel, C.length < fuel →
        partitionLoop fuel h (some s0) (some s0) (some en) = Outcome.done (h1, some pv)) ∧
      s0 :: c :: C = A ++ pv :: B ∧
      rdValue h1 pv = rdValue h s0 ∧ strAt h1 pv = strAt h s0 ∧
      (∀ a ∈ A, strcmp (key h1 (rdValue h1 a)) (key h1 (rdValue h1 pv)) < 0) ∧
      (∀ b ∈ B, 0 ≤ strcmp (key h1 (rdValue h1 b)) (key h1 (rdValue h1 pv))) ∧
      ((s0 :: c :: C).map (strAt h1)).Perm ((s0 :: c :: C).map (strAt h)) ∧
      SameLinks h h1 (s0 :: c :: C) := by
  obtain ⟨h1, A, pv, B, hrun, hsplit, sl, hperm, hpiv, hlt, hge, -⟩ :=
    partitionLoop_spec hnd hl hlive hwin hen
  have hk : ∀ p, key h1 p = key h p := key_congr sl.str_eq
  have hlive1 := live_of_perm sl.str_eq hperm hlive
  have hv : (s0 :: c :: C).map (strAt h)
      = ((s0 :: c :: C).map (fun a => key h (rdValue h a))).map some :=
    vals_eq_keys (Lseg_live hl) hlive
  have hv1 : (s0 :: c :: C).map (strAt h1)
      = ((s0 :: c :: C).map (fun a => key h (rdValue h1 a))).map some := by
    rw [vals_eq_keys (Lseg_live (sl.Lseg hl)) hlive1]
    congr 1
    exact List.map_congr_left (fun a _ => hk _)
  have hpvseg : pv ∈ s0 :: c :: C := by rw [hsplit]; simp
  have hstr : ∀ a ∈ s0 :: c :: C, ∀ h' : Heap, (∃ e, h'.ele a = some e) →
      strAt h' a = h'.str (rdValue h' a) := by
    intro a _ h' ⟨e, he⟩
    simp [strAt, rdValue, he]
  refine ⟨h1, A, pv, B, hrun, hsplit, hpiv, ?_, ?_, ?_, ?_, sl⟩
  · rw [hstr pv hpvseg h1 (Lseg_live (sl.Lseg hl) pv hpvseg),
      hstr s0 (by simp) h (Lseg_live hl s0 (by simp)), hpiv, sl.str_eq]
  · intro a ha
    rw [hk, hk, hpiv]
    exact strcmp_lt_of_gt (hlt a ha)
  · intro b hb
    rw [hk, hk, hpiv, strcmp_flip]
    have := hge b hb
    omega
  · rw [hv, hv1]
    have := (hperm.map (key h)).map some
    simp only [List.map_map] at this ⊢
    exact this

/-- The partition loop on the whole queue "banana", "apple", "cherry" with strings at the
addresses 0, 1, 2: the range is 0, 1, 2 and the loop moves "banana" to the pivot element. -/
theorem partition_fruit :
    ([0, 1, 2] : List Nat).Nodup ∧ Lseg fruitState.heap (some 0) [0, 1, 2] none ∧
    (∃ h1 A pv B, (∀ fuel, [2].length < fuel →
        partitionLoop fuel fruitState.heap (some 0) (some 0) (some 2)
          = Outcome.done (h1, some pv)) ∧
      [0, 1, 2] = A ++ pv :: B ∧
      rdValue h1 pv = rdValue fruitState.heap 0 ∧ strAt h1 pv = strAt fruitState.heap 0 ∧
      (∀ a ∈ A, strcmp (key h1 (rdValue h1 a)) (key h1 (rdValue h1 pv)) < 0) ∧
      (∀ b ∈ B, 0 ≤ strcmp (key h1 (rdValue h1 b)) (key h1 (rdValue h1 pv))) ∧
      ([0, 1, 2].map (strAt h1)).Perm ([0, 1, 2].map (strAt fruitState.heap)) ∧
      SameLinks fruitState.heap h1 [0, 1, 2]) ∧
    (match partitionLoop 2 fruitState.heap (some 0) (some 0) (some 2) with
      | Outcome.done (h1, pivot) => (pivot, [0, 1, 2].map (strAt h1))
      | Outcome.fault => (none, [])
      | Outcome.timeout => (none, []))
      = (some 1, [some [97, 112, 112, 108, 101], some [98, 97, 110, 97, 110, 97],
          some [99, 104, 101, 114, 114, 121]]) :=
  ⟨by decide, ⟨rfl, _, rfl, rfl, _, rfl, rfl, _, rfl, rfl⟩,
    partition_post_of_window fruitState.heap 0 1 [2] none 2 (by decide)
      ⟨rfl, _, rfl, rfl, _, rfl, rfl, _, rfl, rfl⟩
      (by
        intro a ha
        simp only [List.mem_cons, List.mem_singleton, List.not_mem_nil, or_false] at ha
        rcases ha with rfl | rfl | rfl <;> decide)
      (by unfold OneWindow; decide)
      rfl,
    by decide⟩

/-- C18: the partition loop of `qsortImplement` does not establish its postcondition on every
range. The range of the elements 0 and 1 of `farState` has distinct, linked elements with live
strings, the start differs from the end, and the end is reached from the start. The loop
exits, with the pivot on the element 1; but the pivot holds the word `2 ^ 33 + 5`, not the word
`2 ^ 32 + 5` the start held on entry, and no string at all where the start held "b"; and
neither the words nor the strings held in the range are a permutation of those on entry. -/
theorem partition_half_exchanges :
    ([0, 1] : List Nat).Nodup ∧ Lseg farState.heap (some 0) [0, 1] none ∧
    (∀ a ∈ [0, 1], farState.heap.str (rdValue farState.heap a) ≠ none) ∧
    [0, 1].getLast? = some 1 ∧
    ∃ h1, (∀ k, partitionLoop (k + 1) farState.heap (some 0) (some 0) (some 1)
        = Outcome.done (h1, some 1)) ∧
      rdValue farState.heap 0 = 4294967301 ∧ rdValue h1 1 = 8589934597 ∧
      strAt farState.heap 0 = some [98] ∧ strAt h1 1 = none ∧
      [0, 1].map (strAt farState.heap) = [some [98], some [97]] ∧
      [0, 1].map (strAt h1) = [none, none] ∧
      ¬ ([0, 1].map (rdValue h1)).Perm ([0, 1].map (rdValue farState.heap)) ∧
      ¬ ([0, 1].map (strAt h1)).Perm ([0, 1].map (strAt farState.heap)) :=
  ⟨by decide, ⟨rfl, _, rfl, rfl, _, rfl, rfl⟩, by decide, rfl,
    ((partitionLoop 1 farState.heap (some 0) (some 0) (some 1)).get?.map Prod.fst).getD
      emptyHeap,
    fun _ => rfl, rfl, rfl, rfl, rfl, by decide, by decide, by decide, by decide⟩

/-- C20: `swapValue` on the `int`s in the `value` fields of two live elements `x` and `y`
returns. When `x` and `y` are distinct locations, the first then holds the `int` the second
held and the second the `int` the first held (also when the two `int`s are equal). When both
arguments are the same location the heap is left as it is, where the first XOR assignment alone
would store the `int` XORed with itself, which is 0. Nothing but the two `int`s changes: the
bits of the two `value` words above the low 32 stay where they are, so the whole words are
exchanged exactly when those bits agree (as they do for words below `2 ^ 32`); no other
element, no link and no string changes. -/
theorem swapValue_swaps (h : Heap) (x y : Nat) (ex ey : list_ele_t) (hx : h.ele x = some ex)
    (hy : h.ele y = some ey) :
    ∃ h1, swapValue h (some x) (some y) = Outcome.done h1 ∧
      (x ≠ y → rdInt h1 x = rdInt h y ∧ rdInt h1 y = rdInt h x) ∧
      (x = y → h1 = h ∧ rdInt h x ^^^ rdInt h x = 0) ∧
      rdValue h1 x / 4294967296 = rdValue h x / 4294967296 ∧
      rdValue h1 y / 4294967296 = rdValue h y / 4294967296 ∧
      (rdValue h x / 4294967296 = rdValue h y / 4294967296 →
        rdValue h1 x = rdValue h y ∧ rdValue h1 y = rdValue h x) ∧
      (∀ a, a ≠ x → a ≠ y → h1.ele a = h.ele a) ∧
      (∀ a, (h1.ele a).map (fun e => e.next) = (h.ele a).map (fun e => e.next)) ∧
      h1.str = h.str := by
  by_cases hxy : x = y
  · subst hxy
    rw [hx] at hy
    cases hy
    exact ⟨h, swapValue_self hx, fun hne => absurd rfl hne, fun _ => ⟨rfl, Nat.xor_self _⟩,
      rfl, rfl, fun _ => ⟨rfl, rfl⟩, fun _ _ _ => rfl, fun _ => rfl, rfl⟩
  · obtain ⟨h1, hrun, hstr, h1x, h1y, hfr⟩ := swapValue_int hx hy hxy
    have vx : rdValue h x = ex.value := rdValue_of_ele hx
    have vy : rdValue h y = ey.value := rdValue_of_ele hy
    have v1x := rdValue_of_ele h1x
    have v1y := rdValue_of_ele h1y
    simp only at v1x v1y
    refine ⟨h1, hrun, fun _ => ⟨?_, ?_⟩, fun e => absurd e hxy, ?_, ?_, ?_, hfr, ?_, hstr⟩
    · unfold rdInt; rw [v1x, vy]; omega
    · unfold rdInt; rw [v1y, vx]; omega
    · rw [v1x, vx]; omega
    · rw [v1y, vy]; omega
    · intro hw
      rw [v1x, v1y, vx, vy] at *
      constructor <;> omega
    · intro a
      by_cases hax : a = x
      · subst hax; rw [h1x, hx]; rfl
      · by_cases hay : a = y
        · subst hay; rw [h1y, hy]; rfl
        · rw [hfr a hax hay]

/-- In `farState` the elements 0 and 1 hold the words `2 ^ 32 + 5` and `2 ^ 33 + 9`, so the
`int`s 5 and 9 under the bits 1 and 2. `swapValue` on the two elements exchanges the `int`s and
leaves the words `2 ^ 32 + 9` and `2 ^ 33 + 5`; on the element 0 and itself it leaves the word
`2 ^ 32 + 5`, whose `int` is 5 and not 0. In the queue "banana", "apple", "cherry", with
words 0 and 1 below `2 ^ 32`, it exchanges the whole words. -/
theorem swapValue_swaps_witness :
    farState.heap.ele 0 = some ⟨4294967301, some 1⟩ ∧
    farState.heap.ele 1 = some ⟨8589934601, none⟩ ∧
    (∃ h1, swapValue farState.heap (some 0) (some 1) = Outcome.done h1 ∧
      ((0 : Nat) ≠ 1 → rdInt h1 0 = rdInt farState.heap 1 ∧ rdInt h1 1 = rdInt farState.heap 0) ∧
      ((0 : Nat) = 1 → h1 = farState.heap ∧ rdInt farState.heap 0 ^^^ rdInt farState.heap 0 = 0) ∧
      rdValue h1 0 / 4294967296 = rdValue farState.heap 0 / 4294967296 ∧
      rdValue h1 1 / 4294967296 = rdValue farState.heap 1 / 4294967296 ∧
      (rdValue farState.heap 0 / 4294967296 = rdValue farState.heap 1 / 4294967296 →
        rdValue h1 0 = rdValue farState.heap 1 ∧ rdValue h1 1 = rdValue farState.heap 0) ∧
      (∀ a, a ≠ 0 → a ≠ 1 → h1.ele a = farState.heap.ele a) ∧
      (∀ a, (h1.ele a).map (fun e => e.next)
        = (farState.heap.ele a).map (fun e => e.next)) ∧
      h1.str = farState.heap.str) ∧
    (rdInt farState.heap 0, rdInt farState.heap 1) = (5, 9) ∧
    (swapValue farState.heap (some 0) (some 1)).get?.map
        (fun h1 => (rdInt h1 0, rdInt h1 1, rdValue h1 0, rdValue h1 1))
      = some (9, 5, 4294967305, 8589934597) ∧
    (swapValue farState.heap (some 0) (some 0)).get?.map
        (fun h1 => (rdInt h1 0, rdValue h1 0)) = some (5, 4294967301) ∧
    (swapValue fruitState.heap (some 0) (some 1)).get?.map
        (fun h1 => (rdValue fruitState.heap 0, rdValue fruitState.heap 1, rdValue h1 0,
          rdValue h1 1)) = some (0, 1, 1, 0) :=
  ⟨rfl, rfl, swapValue_swaps farState.heap 0 1 ⟨4294967301, some 1⟩ ⟨8589934601, none⟩ rfl rfl,
    by decide, by decide, by decide, by decide⟩

/-! ## Runs of calls: the size count -/

theorem insert_head_size (h : Heap) (q : Option queue_t) (s : Option (List Nat))
    (newh dup : Option Nat) :
    q_size (q_insert_head h q s newh dup).2.1
      = q_size q + (if (q_insert_head h q s newh dup).1 = true then 1 else 0) := by
  cases q with
  | none => simp [q_insert_head, q_size]
  | some qv =>
    cases s with
    | none => simp [q_insert_head, q_size]
    | some sv =>
      cases newh with
      | none => simp [q_insert_head, q_size]
      | some a =>
        cases dup with
        | none => simp [q_insert_head, q_size]
        | some p => simp [q_insert_head, q_size]

theorem insert_tail_size {h : Heap} {q : Option queue_t} {s : Option (List Nat)}
    {newh dup : Option Nat} {ok : Bool} {q1 : Option queue_t} {h1 : Heap}
    (hr : q_insert_tail h q s newh dup = Outcome.done (ok, q1, h1)) :
    q_size q1 = q_size q + (if ok = true then 1 else 0) := by
  cases q with
  | none =>
    simp only [q_insert_tail, Outcome.done.injEq, Prod.mk.injEq] at hr
    obtain ⟨rfl, rfl, -⟩ := hr
    simp [q_size]
  | some qv =>
    cases s with
    | none =>
      simp only [q_insert_tail, Outcome.done.injEq, Prod.mk.injEq] at hr
      obtain ⟨rfl, rfl, -⟩ := hr
      simp [q_size]
    | some sv =>
      cases newh with
      | none =>
        simp only [q_insert_tail, Outcome.done.injEq, Prod.mk.injEq] at hr
        obtain ⟨rfl, rfl, -⟩ := hr
        simp [q_size]
      | some a =>
        cases dup with
        | none =>
          simp only [q_insert_tail, Outcome.done.injEq, Prod.mk.injEq] at hr
          obtain ⟨rfl, rfl, -⟩ := hr
          simp [q_size]
        | some p =>
          simp only [q_insert_tail] at hr
          split at hr
          · simp only [Outcome.done.injEq, Prod.mk.injEq] at hr
            obtain ⟨rfl, rfl, -⟩ := hr
            simp [q_size]
          · split at hr
            · cases hr
            · split at hr
              · cases hr
              · simp only [Outcome.done.injEq, Prod.mk.injEq] at hr
                obtain ⟨rfl, rfl, -⟩ := hr
                simp [q_size]

theorem remove_head_size {h : Heap} {q : Option queue_t} {sp : Option (List Nat)}
    {bufsize : Nat} {ok : Bool} {q1 : Option queue_t} {h1 : Heap} {sp1 : Option (List Nat)}
    (hr : q_remove_head h q sp bufsize = Outcome.done (ok, q1, h1, sp1)) :
    q_size q1 = q_size q - (if ok = true then 1 else 0) := by
  cases q with
  | none =>
    simp only [q_remove_head, Outcome.done.injEq, Prod.mk.injEq] at hr
    obtain ⟨rfl, rfl, -⟩ := hr
    simp [q_size]
  | some qv =>
    simp only [q_remove_head] at hr
    split at hr
    · simp only [Outcome.done.injEq, Prod.mk.injEq] at hr
      obtain ⟨rfl, rfl, -⟩ := hr
      simp [q_size]
    · split at hr
      · cases hr
      · split at hr
        · cases hr
        · split at hr
          · simp only [Outcome.done.injEq, Prod.mk.injEq] at hr
            obtain ⟨rfl, rfl, -⟩ := hr
            simp [q_size]
          · cases hr
          · cases hr

theorem reverse_size {fuel : Nat} {h : Heap} {q : Option queue_t} {q1 : Option queue_t}
    {h1 : Heap} (hr : q_reverse fuel h q = Outcome.done (q1, h1)) : q_size q1 = q_size q := by
  cases q with
  | none =>
    simp only [q_reverse, Outcome.done.injEq, Prod.mk.injEq] at hr
    rw [← hr.1]
  | some qv =>
    simp only [q_reverse] at hr
    split at hr
    · simp only [Outcome.done.injEq, Prod.mk.injEq] at hr
      rw [← hr.1]
    · split at hr
      · simp only [Outcome.done.injEq, Prod.mk.injEq] at hr
        rw [← hr.1]
        rfl
      · cases hr
      · cases hr

/-- One call changes `q_size` by what its return value says. -/
theorem stepObs_size {st st1 : Option queue_t × Heap} {c : Call} {o : Obs}
    (hr : stepObs st c = Outcome.done (st1, o)) :
    q_size st1.1 = q_size st.1 + inserted [o] - removed [o] := by
  cases c with
  | insert_head s newh dup =>
    simp only [stepObs] at hr
    cases hr
    show q_size (q_insert_head st.2 st.1 s newh dup).2.1 = _
    rw [insert_head_size]
    cases (q_insert_head st.2 st.1 s newh dup).1 <;> simp [inserted, removed]
  | insert_tail s newh dup =>
    simp only [stepObs] at hr
    split at hr
    · rename_i ok q1 h1 heq
      simp only [Outcome.done.injEq, Prod.mk.injEq] at hr
      obtain ⟨hst, ho⟩ := hr
      rw [← hst, ← ho]
      rw [insert_tail_size heq]
      cases ok <;> simp [inserted, removed]
    · cases hr
    · cases hr
  | remove_head sp bufsize =>
    simp only [stepObs] at hr
    split at hr
    · rename_i ok q1 h1 sp1 heq
      simp only [Outcome.done.injEq, Prod.mk.injEq] at hr
      obtain ⟨hst, ho⟩ := hr
      rw [← hst, ← ho]
      rw [remove_head_size heq]
      cases ok <;> simp [inserted, removed]
    · cases hr
    · cases hr
  | reverse fuel =>
    simp only [stepObs] at hr
    split at hr
    · rename_i st2 heq
      simp only [Outcome.done.injEq, Prod.mk.injEq] at hr
      obtain ⟨hst, ho⟩ := hr
      rw [← hst, ← ho]
      obtain ⟨q2, h2⟩ := st2
      rw [reverse_size heq]
      simp [inserted, removed]
    · cases hr
    · cases hr
  | sort fuel =>
    simp only [stepObs] at hr
    split at hr
    · simp only [Outcome.done.injEq, Prod.mk.injEq] at hr
      obtain ⟨hst, ho⟩ := hr
      rw [← hst, ← ho]
      simp [inserted, removed]
    · cases hr
    · cases hr

theorem inserted_cons (o : Obs) (os : List Obs) :
    inserted (o :: os) = inserted [o] + inserted os := by
  cases o with
  | ins ok =>
    cases ok
    · simp [inserted]
    · simp only [inserted]; omega
  | rem ok buf => simp [inserted]
  | unit => simp [inserted]

theorem removed_cons (o : Obs) (os : List Obs) :
    removed (o :: os) = removed [o] + removed os := by
  cases o with
  | ins ok => simp [removed]
  | rem ok buf =>
    cases ok
    · simp [removed]
    · simp only [removed]; omega
  | unit => simp [removed]

/-- After any finished run `q_size` is the size before it, plus the number of insertions that
returned true, minus the number of removals that returned true. -/
theorem runObs_size : ∀ (cs : List Call) (st st1 : Option queue_t × Heap) (os : List Obs),
    runObs cs st = Outcome.done (st1, os) →
    q_size st1.1 = q_size st.1 + inserted os - removed os
  | [], st, st1, os, hr => by
    simp only [runObs, Outcome.done.injEq, Prod.mk.injEq] at hr
    obtain ⟨rfl, rfl⟩ := hr
    simp [inserted, removed]
  | c :: cs, st, st1, os, hr => by
    simp only [runObs] at hr
    split at hr
    · rename_i st2 o hstep
      split at hr
      · rename_i st3 os1 hrest
        simp only [Outcome.done.injEq, Prod.mk.injEq] at hr
        obtain ⟨rfl, rfl⟩ := hr
        rw [runObs_size cs st2 st3 os1 hrest, stepObs_size hstep, inserted_cons o os1,
          removed_cons o os1]
        ring
      · cases hr
      · cases hr
    · cases hr
    · cases hr

/-! ## Runs of calls: no fault while the queue stays well formed -/

/-- After `q_remove_head` on a well-formed queue with at least two elements the rest is a
well-formed queue. -/
theorem remove_head_wf {h : Heap} {q : queue_t} {x y : Nat} {ns : List Nat} {v : List Nat}
    {L : List (List Nat)} (w : WF h q (x :: y :: ns) (v :: L)) (sp : Option (List Nat))
    (bufsize : Nat) (hsp : ∀ buf, sp = some buf → bufsize ≤ buf.length) :
    ∃ q1 h1 sp1, q_remove_head h (some q) sp bufsize = Outcome.done (true, some q1, h1, sp1) ∧
      WF h1 q1 (y :: ns) L := by
  obtain ⟨e, sp1, he, -, hrun, r1, r2, r3⟩ := remove_head_done w sp bufsize hsp
  refine ⟨_, _, sp1, hrun, ⟨r1, ?_, ?_, r2, r3⟩⟩
  · show q.tail = (y :: ns).getLast?
    rw [w.tail_last, List.getLast?_cons_cons]
  · show q.size - 1 = ((y :: ns).length : Int)
    rw [w.size_len]
    simp

/-- A call made under `CallOK` on a well-formed queue returns and leaves a well-formed
queue. -/
theorem stepObs_safe {st : Option queue_t × Heap} {q : queue_t} {ns : List Nat}
    {L : List (List Nat)} (hq : st.1 = some q) (w : WF st.2 q ns L) (c : Call)
    (hok : CallOK st c) :
    ∃ st1 o q1 ns1 L1, stepObs st c = Outcome.done (st1, o) ∧ st1.1 = some q1 ∧
      WF st1.2 q1 ns1 L1 := by
  obtain ⟨sq, h⟩ := st
  simp only at hq w
  subst hq
  cases c with
  | insert_head s newh dup =>
    obtain ⟨hfa, hfp⟩ := hok
    simp only at hfa hfp
    cases s with
    | none => exact ⟨(some q, h), Obs.ins false, q, ns, L, rfl, rfl, w⟩
    | some sv =>
      cases newh with
      | none => exact ⟨(some q, h), Obs.ins false, q, ns, L, rfl, rfl, w⟩
      | some a =>
        cases dup with
        | none =>
          have := alloc_free_ele h a ⟨0, none⟩ (hfa a rfl)
          refine ⟨(some q, h), Obs.ins false, q, ns, L, ?_, rfl, w⟩
          simp only [stepObs, q_insert_head, this]
        | some p =>
          exact ⟨_, _, _, _, _, rfl, rfl, insert_head_wf sv w (hfa a rfl) (hfp p rfl)⟩
  | insert_tail s newh dup =>
    obtain ⟨hfa, hfp⟩ := hok
    simp only at hfa hfp
    cases s with
    | none => exact ⟨(some q, h), Obs.ins false, q, ns, L, rfl, rfl, w⟩
    | some sv =>
      cases newh with
      | none => exact ⟨(some q, h), Obs.ins false, q, ns, L, rfl, rfl, w⟩
      | some a =>
        cases dup with
        | none =>
          have := alloc_free_ele h a ⟨0, none⟩ (hfa a rfl)
          refine ⟨(some q, h), Obs.ins false, q, ns, L, ?_, rfl, w⟩
          simp only [stepObs, q_insert_tail, this]
        | some p =>
          obtain ⟨q1, h1, hrun, w1, -⟩ := insert_tail_done sv w (hfa a rfl) (hfp p rfl)
          refine ⟨(some q1, h1), Obs.ins true, q1, _, _, ?_, rfl, w1⟩
          simp only [stepObs, hrun]
  | remove_head sp bufsize =>
    obtain ⟨hsp, hsz⟩ := hok
    simp only at hsp hsz
    have hlen := w.length_eq
    match ns, L, w, hlen with
    | [], _, w, _ =>
      have hh : q.head = none := w.chain
      refine ⟨(some q, h), Obs.rem false sp, q, [], _, ?_, rfl, w⟩
      simp only [stepObs, q_remove_head, hh]
    | [x], _, w, _ =>
      exfalso
      apply hsz q rfl
      rw [w.size_len]
      rfl
    | x :: y :: rest, [], _, hlen => simp at hlen
    | x :: y :: rest, v :: L1, w, _ =>
      obtain ⟨q1, h1, sp1, hrun, w1⟩ := remove_head_wf w sp bufsize hsp
      refine ⟨(some q1, h1), Obs.rem true sp1, q1, _, _, ?_, rfl, w1⟩
      simp only [stepObs, hrun]
  | reverse fuel => exact absurd hok (by simp [CallOK])
  | sort fuel => exact absurd hok (by simp [CallOK])

/-- A sequence of calls each made under `CallOK`, started on a well-formed queue, runs to the
end without a fault. -/
theorem safeRun_total : ∀ (cs : List Call) (st : Option queue_t × Heap) (q : queue_t)
    (ns : List Nat) (L : List (List Nat)), st.1 = some q → WF st.2 q ns L → SafeRun cs st →
    ∃ st1 os, runObs cs st = Outcome.done (st1, os)
  | [], st, _, _, _, _, _, _ => ⟨st, [], rfl⟩
  | c :: cs, st, q, ns, L, hq, w, hs => by
    obtain ⟨hok, hrest⟩ := hs
    obtain ⟨st1, o, q1, ns1, L1, hstep, hq1, w1⟩ := stepObs_safe hq w c hok
    obtain ⟨st2, os, hrun⟩ := safeRun_total cs st1 q1 ns1 L1 hq1 w1 (hrest st1 o hstep)
    exact ⟨st2, o :: os, by simp only [runObs, hstep, hrun]⟩

/-- For every sequence of calls applied to the queue `q_new` returns (present or absent),
whenever the sequence runs to its end, `q_size` afterwards is the number of insertions that
returned true minus the number of removals that returned true; the sequence does run to its end
when every call is made under `CallOK` (fresh allocator addresses, large enough buffers, no
removal of the last element, whose stale `tail` a later call could write through); and
`q_size` of an absent queue is 0. -/
theorem size_counts_of_finished (cs : List Call) (alloc : Bool) (h : Heap) :
    (∀ st1 os, runObs cs (q_new alloc, h) = Outcome.done (st1, os) →
      q_size st1.1 = inserted os - removed os) ∧
    (SafeRun cs (q_new true, h) → ∃ st1 os, runObs cs (q_new true, h) = Outcome.done (st1, os)) ∧
    q_size none = 0 := by
  refine ⟨?_, ?_, rfl⟩
  · intro st1 os hr
    have := runObs_size cs _ st1 os hr
    rw [this]
    cases alloc <;> simp [q_new, q_size]
  · intro hs
    exact safeRun_total cs (q_new true, h) ⟨none, none, 0⟩ [] [] rfl (WF_empty h) hs

/-- Every call of `countTrace` is made under `CallOK`. -/
theorem countTrace_safe : SafeRun countTrace (q_new true, emptyHeap) := by
  refine ⟨⟨fun _ _ => rfl, fun _ _ => rfl⟩, ?_⟩
  intro st1 o hstep
  cases hstep
  refine ⟨⟨?_, ?_⟩, ?_⟩
  · intro a ha; cases ha; rfl
  · intro a ha; cases ha; rfl
  intro st1 o hstep
  cases hstep
  refine ⟨⟨?_, ?_⟩, ?_⟩
  · intro a ha; cases ha
  · intro q hq; cases hq; decide
  intro st1 o hstep
  cases hstep
  refine ⟨⟨?_, ?_⟩, ?_⟩
  · intro a ha; cases ha; rfl
  · intro a ha; cases ha; rfl
  intro st1 o hstep
  cases hstep
  refine ⟨⟨?_, ?_⟩, ?_⟩
  · intro a ha; cases ha; rfl
  · intro a ha; cases ha; rfl
  intro st1 o _
  trivial

/-- The run `insert_head` "a", `insert_tail` "b", `remove_head`, `insert_head` "c",
`insert_head` of an absent string is made under `CallOK`, so it runs to its end; it ends with
size 2, after three insertions and one removal that returned true. -/
theorem countTrace_counts :
    SafeRun countTrace (q_new true, emptyHeap) ∧
    (∃ st1 os, runObs countTrace (q_new true, emptyHeap) = Outcome.done (st1, os)) ∧
    (runObs countTrace (q_new true, emptyHeap)).get?.map
      (fun r => (q_size r.1.1, inserted r.2, removed r.2)) = some (2, 3, 1) :=
  ⟨countTrace_safe, (size_counts_of_finished countTrace true emptyHeap).2.1 countTrace_safe,
    by decide⟩

/-- C13: not every sequence of `q_insert_head`, `q_insert_tail` and `q_remove_head` calls on
the queue `q_new` returns runs to its end, so that `q_size` could be compared with the count.
After `q_insert_head` "a" and `q_remove_head` the queue has `head = NULL` and size 0, one
insertion and one removal having returned true, but `tail` still holds the address of the freed
element. `q_insert_tail` "b" then writes the new element's address through that `tail`: with
new addresses from the allocator (`staleTrace`) the write goes to the freed element and the run
faults. When the allocator hands the freed addresses out again (`reuseTrace`), the call links
the new element to itself; the next `q_remove_head` returns true and leaves size 0, equal to
the count, but `head` then holds the address of the freed element, and one more
`q_remove_head`, on this queue of size 0, reads the freed element and the run faults, where a
removal from an empty queue returns false. (`q_size` of an absent queue is 0.) -/
theorem size_count_run_faults :
    (runObs (staleTrace.take 2) initial).get?.map (fun r => (r.1.1, r.2))
      = some (some ⟨none, some 0, 0⟩, [Obs.ins true, Obs.rem true none]) ∧
    ((runObs (staleTrace.take 2) initial).get?.bind (fun r => r.1.2.ele 0)) = none ∧
    runObs staleTrace initial = Outcome.fault ∧
    (runObs (reuseTrace.take 3) initial).get?.map (fun r => (r.1.1, r.1.2.ele 0, r.2))
      = some (some ⟨some 0, some 0, 1⟩, some ⟨0, some 0⟩,
          [Obs.ins true, Obs.rem true none, Obs.ins true]) ∧
    (runObs (reuseTrace.take 4) initial).get?.map
        (fun r => (r.1.1, r.1.2.ele 0, q_size r.1.1, inserted r.2 - removed r.2))
      = some (some ⟨some 0, some 0, 0⟩, none, 0, 0) ∧
    runObs reuseTrace initial = Outcome.fault ∧
    (∀ h, q_remove_head h (some ⟨none, none, 0⟩) none 0
      = Outcome.done (false, some ⟨none, none, 0⟩, h, none)) ∧
    q_size none = 0 :=
  ⟨rfl, rfl, rfl, rfl, rfl, rfl, fun _ => rfl, rfl⟩

/-- C19: on the trace `insert_head` "a", `remove_head`, `insert_head` "b", `insert_tail` "c",
`remove_head`, `remove_head` (allocations succeed, buffers of four bytes), with the allocator
handing the addresses freed by the first removal to "c", the queue does not follow the
reference list model. The first removal leaves `tail` stale, so `insert_tail` links "c" to
itself instead of behind "b": after it the strings reachable from `head` are "b" alone where
the model list is "b", "c"; and the last removal returns false where the model returns true
with "c". The shorter trace `insert_head` "a", `remove_head`, `insert_tail` "b", with the freed
addresses handed out again at once, leaves the only element linked to itself. -/
theorem queue_departs_from_list_model :
    (runObs candidateTrace initial).get?.map (fun r => removals r.2)
      = some [(true, [97]), (true, [98]), (false, [])] ∧
    (refRun candidateTrace []).2 = [(true, [97]), (true, [98]), (true, [99])] ∧
    (runObs (candidateTrace.take 4) initial).get?.map
      (fun r => (readFrom r.1.2 5 (r.1.1.bind (fun q => q.head)),
        r.1.1.map (fun q => (q.head, q.tail, q.size))))
      = some (some [[98]], some (some 1, some 0, 2)) ∧
    (refRun (candidateTrace.take 4) []).1 = [[98], [99]] ∧
    (runObs [Call.insert_head (some [97]) (some 0) (some 0), Call.remove_head none 0,
        Call.insert_tail (some [98]) (some 0) (some 0)] initial).get?.map
      (fun r => (r.1.1.map (fun q => (q.head, q.tail, q.size)), r.1.2.ele 0,
        readFrom r.1.2 5 (some 0)))
      = some (some (some 0, some 0, 1), some ⟨0, some 0⟩, none) ∧
    (refRun [Call.insert_head (some [97]) (some 0) (some 0), Call.remove_head none 0,
        Call.insert_tail (some [98]) (some 0) (some 0)] []).1 = [[98]] := by
  refine ⟨by decide, by decide, by decide, by decide, rfl, by decide⟩

/-! ## Sorting: results do not depend on the fuel -/

theorem partitionLoop_mono : ∀ (f : Nat) (h : Heap) (pv pt e : Option Nat)
    (r : Heap × Option Nat), partitionLoop f h pv pt e = Outcome.done r →
    ∀ k, partitionLoop (f + k) h pv pt e = Outcome.done r
  | 0, _, _, _, _, _, hr, _ => by simp [partitionLoop] at hr
  | f + 1, h, pv, pt, e, r, hr, k => by
    have hk : f + 1 + k = (f + k) + 1 := by omega
    rw [hk]
    simp only [partitionLoop] at hr ⊢
    split at hr
    · rename_i h1 pv1 pt1 hbody
      split at hr
      · rename_i hc
        rw [if_pos hc]
        exact partitionLoop_mono f h1 pv1 pt1 e r hr k
      · rename_i hc
        rw [if_neg hc]
        exact hr
    · cases hr
    · cases hr

theorem qsortImplement_mono : ∀ (f : Nat) (h : Heap) (start e : Option Nat) (r : Heap),
    qsortImplement f h start e = Outcome.done r →
    ∀ k, qsortImplement (f + k) h start e = Outcome.done r
  | 0, _, _, _, _, hr, _ => by simp [qsortImplement] at hr
  | f + 1, h, start, e, r, hr, k => by
    have hk : f + 1 + k = (f + k) + 1 := by omega
    rw [hk]
    simp only [qsortImplement] at hr ⊢
    split at hr
    · rename_i hc
      rw [if_pos hc]
      exact hr
    · rename_i hc
      rw [if_neg hc]
      split at hr
      · rename_i h1 pivot hp
        rw [partitionLoop_mono f h start start e (h1, pivot) hp k]
        simp only
        split at hr
        · rename_i h2 hq1
          rw [qsortImplement_mono f h1 start pivot h2 hq1 k]
          simp only
          split at hr
          · cases hr
          · rename_i ep hd
            exact qsortImplement_mono f h2 ep.next e r hr k
        · cases hr
        · cases hr
      · cases hr
      · cases hr

/-- The partition loop returns the same result with any two amounts of fuel with which it
returns. -/
theorem partitionLoop_det {f1 f2 : Nat} {h : Heap} {pv pt e : Option Nat}
    {r1 r2 : Heap × Option Nat} (h1 : partitionLoop f1 h pv pt e = Outcome.done r1)
    (h2 : partitionLoop f2 h pv pt e = Outcome.done r2) : r1 = r2 := by
  have a := partitionLoop_mono f1 h pv pt e r1 h1 f2
  have b := partitionLoop_mono f2 h pv pt e r2 h2 f1
  rw [Nat.add_comm f2 f1, a] at b
  exact Outcome.done.inj b

/-- `qsortImplement` returns the same heap with any two amounts of fuel with which it
returns. -/
theorem qsortImplement_det {f1 f2 : Nat} {h : Heap} {start e : Option Nat} {r1 r2 : Heap}
    (h1 : qsortImplement f1 h start e = Outcome.done r1)
    (h2 : qsortImplement f2 h start e = Outcome.done r2) : r1 = r2 := by
  have a := qsortImplement_mono f1 h start e r1 h1 f2
  have b := qsortImplement_mono f2 h start e r2 h2 f1
  rw [Nat.add_comm f2 f1, a] at b
  exact Outcome.done.inj b

/-! ## Sorting: every recursive call is on a range of the chain -/

/-- The recursive calls made by a call on a good range are again on good ranges. -/
theorem subcall_rangeOK {ns : List Nat} {c c1 : Heap × Option Nat × Option Nat}
    (hok : RangeOK ns c) (hsub : SubCall c c1) : RangeOK ns c1 := by
  obtain ⟨h, start, e⟩ := c
  obtain ⟨hguard, fuel, h1, pivot, hpart, hc1⟩ := hsub
  simp only at hguard hpart hc1
  rcases hok with hnone | ⟨seg, s0, en, r, hs, he, hnd, hl, hlive, hwin, hen, hpre, hns⟩
  · exact absurd (Or.inl hnone) hguard
  simp only at hs he hl hlive hwin hpre
  subst hs he
  have hs0en : s0 ≠ en := fun e => hguard (Or.inr (Or.inr (by rw [e])))
  match seg, hnd, hl, hlive, hwin, hen, hpre, hns with
  | [], _, _, _, _, hen, _, _ => simp at hen
  | [a], _, hl, _, _, hen, _, _ =>
    have h1' : s0 = a := Option.some.inj hl.1
    have h2' : en = a := by simpa using hen.symm
    exact absurd (h1'.trans h2'.symm) hs0en
  | a :: c :: C, hnd, hl, hlive, hwin, hen, hpre, hns =>
    have hs0 : s0 = a := Option.some.inj hl.1
    subst hs0
    obtain ⟨h1', A, pv, B, hrunP, hsplit, sl, hperm, hpiv, hlt, hge, hkeep⟩ :=
      partitionLoop_spec hnd hl hlive hwin hen
    have hwin1 : OneWindow h1' (s0 :: c :: C) := hwin.of_perm hperm
    have hdet := partitionLoop_det hpart (hrunP (C.length + 1) (by omega))
    simp only [Prod.mk.injEq] at hdet
    obtain ⟨rfl, rfl⟩ := hdet
    have hs0D : s0 ∈ (s0 :: c :: C).dropLast := by simp [List.dropLast]
    have hl1 := sl.Lseg hl
    have hlive1 := live_of_perm sl.str_eq hperm hlive
    have hBne := fun hmx =>
      (smax_after_partition hsplit hen hs0D sl.str_eq hperm hpiv hkeep hmx)
    generalize s0 :: c :: C = seg at *
    subst hsplit
    have hA : A ++ pv :: B = (A ++ [pv]) ++ B := by simp
    have hnd' := hnd
    rw [hA] at hnd' hl1 hen hwin1
    have hdisj := (List.nodup_append.1 hnd').2.2
    obtain ⟨m', hlA, hlB⟩ := Lseg_append.1 hl1
    have smaxA : SMax h1 (A ++ [pv]) pv := by
      intro x hx
      rw [List.dropLast_concat] at hx
      rw [key_congr sl.str_eq, key_congr sl.str_eq, hpiv]
      exact strcmp_lt_of_gt (hlt x hx)
    have hliveA : ∀ x ∈ A ++ [pv], h1.str (rdValue h1 x) ≠ none :=
      fun x hx => hlive1 x (by rw [hA]; exact List.mem_append_left _ hx)
    have hwinA : OneWindow h1 (A ++ [pv]) :=
      hwin1.window_mono (fun x hx => List.mem_append_left _ hx)
    have hnsA : ∀ x ∈ A ++ [pv], x ∈ ns :=
      fun x hx => hns x (by rw [hA]; exact List.mem_append_left _ hx)
    rcases hc1 with rfl | ⟨fuel2, h2, ep, hq1, hd, rfl⟩
    · -- the first recursive call
      exact Or.inr ⟨A ++ [pv], s0, pv, m', rfl, rfl, (List.nodup_append.1 hnd').1, hlA, hliveA,
        hwinA, List.getLast?_concat A, Or.inr smaxA, hnsA⟩
    · -- the second recursive call
      obtain ⟨h2', s1, f1, hrun1⟩ := qsortImplement_sorts (2 * (A ++ [pv]).length + 1)
        (A ++ [pv]) h1 s0 pv m' (List.nodup_append.1 hnd').1 hlA hliveA hwinA
        (List.getLast?_concat A) (Or.inr smaxA) (Or.inl (le_refl _))
      have hh2 : h2 = h2' := qsortImplement_det hq1 (hrun1 f1 (le_refl _))
      subst hh2
      obtain ⟨-, e1, he1, hn1⟩ := Lseg_snoc.1 hlA
      obtain ⟨e2, he2, hn2⟩ := s1.links.ele_some he1
      have hep : ep = e2 := by
        have : h2.ele pv = some ep := hd
        rw [he2] at this
        exact (Option.some.inj this).symm
      subst hep
      have hfr1 : ∀ b ∈ B, rdValue h2 b = rdValue h1 b := fun b hb =>
        rdValue_congr (s1.links.frame b (fun hx => hdisj hx hb))
      cases B with
      | nil =>
        have hr : r = none := by
          rcases hpre with hr | hmx
          · exact hr
          · exact absurd rfl (hBne hmx).1
        have hm' : m' = r := hlB
        left
        show ep.next = none
        rw [hn2, hn1, hm', hr]
      | cons b0 B1 =>
        have hm' : m' = some b0 := hlB.1
        obtain ⟨hlastB, henB⟩ := last_mem_suffix (by simp) hen
        have pre2 : r = none ∨ SMax h2 (b0 :: B1) en := by
          rcases hpre with hr | hmx
          · exact Or.inl hr
          · right
            have hmx1 := (hBne hmx).2
            intro x hx
            have hxB : x ∈ b0 :: B1 := List.mem_of_mem_dropLast hx
            have hxD : x ∈ (A ++ pv :: (b0 :: B1)).dropLast := by
              rw [List.dropLast_append_cons, List.dropLast_cons_of_ne_nil (by simp)]
              exact List.mem_append_right _ (List.mem_cons_of_mem _ hx)
            rw [key_congr s1.links.str_eq, key_congr s1.links.str_eq, hfr1 x hxB,
              hfr1 en henB]
            exact hmx1 x hxD
        have hlB2 : Lseg h2 (some b0) (b0 :: B1) r := by
          rw [hm'] at hlB; exact s1.links.Lseg hlB
        have hliveB : ∀ x ∈ b0 :: B1, h2.str (rdValue h2 x) ≠ none := by
          intro x hx
          rw [s1.links.str_eq, hfr1 x hx]
          exact hlive1 x (List.mem_append_right _ (List.mem_cons_of_mem _ hx))
        right
        refine ⟨b0 :: B1, b0, en, r, ?_, rfl, (List.nodup_append.1 hnd').2.1, hlB2, hliveB,
          (hwin1.window_mono (fun x hx => List.mem_append_right _ hx)).window_congr hfr1,
          hlastB, pre2, ?_⟩
        · show ep.next = some b0
          rw [hn2, hn1, hm']
        · intro x hx
          exact hns x (List.mem_append_right _ (List.mem_cons_of_mem _ hx))

/-- Every call in the call tree of a call on a good range is on a good range. -/
theorem callTree_rangeOK {ns : List Nat} {c0 c : Heap × Option Nat × Option Nat}
    (hok : RangeOK ns c0) (ht : Relation.ReflTransGen SubCall c0 c) : RangeOK ns c := by
  induction ht with
  | refl => exact hok
  | tail _ hstep ih => exact subcall_rangeOK ih hstep

/-- Whenever the loop body of a call on the range `s0 :: c0 :: C0` is entered, the partition
invariant holds with at least one element still to scan, `pivot` is the pivot element and `ptr`
the last element scanned. -/
theorem atHead_inv {h0 : Heap} {s0 c0 en : Nat} {C0 : List Nat} {r : Option Nat}
    (hnd : (s0 :: c0 :: C0).Nodup) (hl : Lseg h0 (some s0) (s0 :: c0 :: C0) r)
    (hlive : ∀ a ∈ s0 :: c0 :: C0, h0.str (rdValue h0 a) ≠ none)
    (hwin : OneWindow h0 (s0 :: c0 :: C0))
    (hen : (s0 :: c0 :: C0).getLast? = some en) {h : Heap} {pv pt : Option Nat}
    (hat : AtHead h0 (some s0) (some en) h pv pt) :
    ∃ A pvn B cc CC ptn, pv = some pvn ∧ pt = some ptn ∧ (pvn :: B).getLast? = some ptn ∧
      PInv h0 h (s0 :: c0 :: C0) (rdValue h0 s0) A pvn B (cc :: CC) := by
  induction hat with
  | entry =>
    exact ⟨[], s0, [], c0, C0, s0, rfl, rfl, rfl,
      ⟨rfl, SameLinks.links_refl _ _, List.Perm.refl _, fun _ ha => by simp at ha, rfl,
        fun _ hb => by simp at hb, fun _ _ => rfl⟩⟩
  | again _ hbody hcond ih =>
    obtain ⟨A, pvn, B, cc, CC, ptn, rfl, rfl, hpt, inv⟩ := ih
    obtain ⟨h1', A1, pv1', B1, hrun, inv1, hlast1, -⟩ :=
      partitionBody_spec hnd hl hlive hwin hpt inv
    rw [hrun] at hbody
    simp only [Outcome.done.injEq, Prod.mk.injEq] at hbody
    obtain ⟨rfl, rfl, rfl⟩ := hbody
    have hne : cc ≠ en := fun e => hcond.2.1 (by rw [e])
    cases CC with
    | nil =>
      exfalso
      have h2 := hen
      rw [inv1.split] at h2
      have : A1 ++ pv1' :: (B1 ++ []) = A1 ++ (pv1' :: B1) := by simp
      rw [this] at h2
      have h3 := (last_mem_suffix (by simp) h2).1
      rw [hlast1] at h3
      exact hne (Option.some.inj h3)
    | cons c2 CC1 => exact ⟨A1, pv1', B1, c2, CC1, cc, rfl, rfl, hlast1, inv1⟩

/-- Whenever the loop body of a call on the range `s0 :: c0 :: C0` is entered, `pivot` and
`ptr` are elements of the range, the pass through the body returns, and `pivot` and `ptr` are
elements of the range after it as well. -/
theorem body_in_range {h0 : Heap} {s0 c0 en : Nat} {C0 : List Nat} {r : Option Nat}
    (hnd : (s0 :: c0 :: C0).Nodup) (hl : Lseg h0 (some s0) (s0 :: c0 :: C0) r)
    (hlive : ∀ a ∈ s0 :: c0 :: C0, h0.str (rdValue h0 a) ≠ none)
    (hwin : OneWindow h0 (s0 :: c0 :: C0))
    (hen : (s0 :: c0 :: C0).getLast? = some en) {h : Heap} {pv pt : Option Nat}
    (hat : AtHead h0 (some s0) (some en) h pv pt) :
    ∃ a b h1 a1 b1, pv = some a ∧ pt = some b ∧
      partitionBody h pv pt = Outcome.done (h1, some a1, some b1) ∧
      a ∈ s0 :: c0 :: C0 ∧ b ∈ s0 :: c0 :: C0 ∧ a1 ∈ s0 :: c0 :: C0 ∧ b1 ∈ s0 :: c0 :: C0 := by
  obtain ⟨A, pvn, B, cc, CC, ptn, rfl, rfl, hpt, inv⟩ := atHead_inv hnd hl hlive hwin hen hat
  obtain ⟨h1, A1, pv1, B1, hrun, inv1, -, -⟩ := partitionBody_spec hnd hl hlive hwin hpt inv
  obtain ⟨ys, hys⟩ := List.getLast?_eq_some_iff.1 hpt
  have hptm : ptn ∈ pvn :: B := by rw [hys]; simp
  refine ⟨pvn, ptn, h1, pv1, cc, rfl, rfl, hrun, ?_, ?_, ?_, ?_⟩
  · rw [inv.split]; simp
  · rw [inv.split]
    rcases List.mem_cons.1 hptm with e | e
    · simp [e]
    · simp [e]
  · rw [inv1.split]; simp
  · rw [inv.split]; simp

/-- While `q_sort` runs on a well-formed queue with elements `ns` whose strings lie in one
window, no access faults (the call returns), and every call of `qsortImplement` in the call
tree has `start = NULL`, or `start = end`, or its `start` and `end` delimit a range `seg` of
distinct elements of the chain, linked from `start` to `end`. Such a call returns and changes
no element outside `seg`; and whenever its loop body is entered, `pivot` and `ptr` are elements
of `seg`, the pass through the body returns without a fault, and `pivot` and `ptr` are elements
of `seg` after it: the scan never leaves the range. -/
theorem qsort_range_of_window (h : Heap) (q : queue_t) (ns : List Nat) (L : List (List Nat))
    (w : WF h q ns L) (hwin : OneWindow h ns) :
    (∃ h1 fuel0, ∀ fuel, fuel0 ≤ fuel → q_sort fuel h (some q) = Outcome.done h1) ∧
    ∀ c, Relation.ReflTransGen SubCall (h, q.head, q.tail) c →
      c.2.1 = none ∨ c.2.1 = c.2.2 ∨
      ∃ seg s0 en r, c.2.1 = some s0 ∧ c.2.2 = some en ∧ s0 ≠ en ∧ seg.Nodup ∧
        (∀ a ∈ seg, a ∈ ns) ∧ Lseg c.1 (some s0) seg r ∧ seg.getLast? = some en ∧
        (∃ h1 fuel0, (∀ fuel, fuel0 ≤ fuel →
            qsortImplement fuel c.1 c.2.1 c.2.2 = Outcome.done h1) ∧
          ∀ a, a ∉ seg → h1.ele a = c.1.ele a) ∧
        (∀ hh pv pt, AtHead c.1 c.2.1 c.2.2 hh pv pt →
          ∃ a b h1 a1 b1, pv = some a ∧ pt = some b ∧
            partitionBody hh pv pt = Outcome.done (h1, some a1, some b1) ∧
            a ∈ seg ∧ b ∈ seg ∧ a1 ∈ seg ∧ b1 ∈ seg) := by
  constructor
  · obtain ⟨h1, ⟨fuel0, hrun⟩, -⟩ := q_sort_sortedRange w hwin
    exact ⟨h1, fuel0, hrun⟩
  · intro c hc
    have htop : RangeOK ns (h, q.head, q.tail) := by
      cases ns with
      | nil => exact Or.inl w.chain
      | cons s0 rest =>
        have hhead : q.head = some s0 := w.chain.1
        have hch := w.chain
        rw [hhead] at hch
        exact Or.inr ⟨s0 :: rest, s0, (s0 :: rest).getLast (by simp), none, hhead,
          (by
            show q.tail = _
            rw [w.tail_last]
            exact List.getLast?_eq_getLast _ _), Lseg_nodup w.chain, hch,
          w.str_live, hwin, List.getLast?_eq_getLast _ _, Or.inl rfl, fun _ ha => ha⟩
    rcases callTree_rangeOK htop hc with hnone | ⟨seg, s0, en, r, hs, he, hnd, hl, hlive, hw,
      hen, hpre, hns⟩
    · exact Or.inl hnone
    · by_cases hse : s0 = en
      · right; left
        rw [hs, he, hse]
      · right; right
        obtain ⟨h1, sr, fuel0, hrun⟩ := qsortImplement_sorts (2 * seg.length + 1) seg c.1 s0 en
          r hnd hl hlive hw hen hpre (Or.inl (le_refl _))
        refine ⟨seg, s0, en, r, hs, he, hse, hnd, hns, hl, hen,
          ⟨h1, fuel0, by rw [hs, he]; exact hrun, sr.links.frame⟩, ?_⟩
        intro hh pv pt hat
        rw [hs, he] at hat
        match seg, hnd, hl, hlive, hw, hen with
        | [], _, _, _, _, hen => simp at hen
        | [a], _, hl, _, _, hen =>
          have h1' : s0 = a := Option.some.inj hl.1
          have h2' : en = a := by simpa using hen.symm
          exact absurd (h1'.trans h2'.symm) hse
        | a :: c0 :: C0, hnd, hl, hlive, hw, hen =>
          have hs0 : s0 = a := Option.some.inj hl.1
          subst hs0
          exact body_in_range hnd hl hlive hw hen hat

/-- A chain that starts at an element whose `next` is `NULL` has at most that element. -/
theorem Lseg_from_last {h : Heap} {a : Nat} {e : list_ele_t} (he : h.ele a = some e)
    (hn : e.next = none) : ∀ {seg : List Nat} {r : Option Nat}, Lseg h (some a) seg r →
    seg = [] ∨ seg = [a]
  | [], _, _ => Or.inl rfl
  | b :: rest, r, hl => by
    obtain ⟨hp, e1, he1, hrest⟩ := hl
    have hb : a = b := Option.some.inj hp
    subst hb
    rw [he] at he1
    cases he1
    rw [hn] at hrest
    cases rest with
    | nil => exact Or.inr rfl
    | cons c cs => exact absurd hrest.1 (by simp)

/-- C17: `qsortImplement` does not stay inside its range on every well-formed queue. The queue
"b", "c", "a" of `strayState` is well formed; "a" lies at an address that differs from the
other two above the low 32 bits, and the caller has the string "x" at `2 ^ 32 + 9`. The first
partition loop exchanges only the low 32 bits of the `value` words, which leaves the element 0
holding "x" and the element 1 holding "b". The first recursive call, on the elements 0 and 1,
therefore ends its partition loop with the pivot on `end`, the element 1, although the chain
goes on after it; and its second recursive call is on `start` = element 2 and `end` = element
1, where `start` is neither `NULL` nor `end` and `end` is not reachable from `start`. In that
call the loop body is entered with `ptr` on the element 2, the last of the chain: `ptr->next`
is `NULL`, and the access `ptr->value` of the `strcmp` is to no element. `q_sort` faults for
every amount of fuel from 4 on. -/
theorem qsort_scans_past_end :
    WF strayState.heap ⟨some 0, some 2, 3⟩ [0, 1, 2] [[98], [99], [97]] ∧
    strayState.queue = some ⟨some 0, some 2, 3⟩ ∧
    (∃ h1 h2 e, SubCall (strayState.heap, some 0, some 2) (h1, some 0, some 1) ∧
      [0, 1, 2].map (strAt h1) = [some [120], some [98], none] ∧
      SubCall (h1, some 0, some 1) (h2, some 2, some 1) ∧
      (¬ ∃ seg r, Lseg h2 (some 2) seg r ∧ seg.getLast? = some 1) ∧
      AtHead h2 (some 2) (some 1) h2 (some 2) (some 2) ∧
      h2.ele 2 = some e ∧ e.next = none ∧ deref h2 e.next = none ∧
      partitionBody h2 (some 2) (some 2) = Outcome.fault) ∧
    ∀ k, q_sort (k + 4) strayState.heap strayState.queue = Outcome.fault := by
  refine ⟨⟨⟨rfl, _, rfl, rfl, _, rfl, rfl, _, rfl, rfl⟩, rfl, rfl, rfl, by decide⟩, rfl, ?_,
    fun _ => rfl⟩
  refine ⟨((partitionLoop 2 strayState.heap (some 0) (some 0) (some 2)).get?.map Prod.fst).getD
      emptyHeap,
    ((partitionLoop 1 (((partitionLoop 2 strayState.heap (some 0) (some 0) (some 2)).get?.map
      Prod.fst).getD emptyHeap) (some 0) (some 0) (some 1)).get?.map Prod.fst).getD emptyHeap,
    ⟨8589934599, none⟩, ?_, by decide, ?_, ?_, AtHead.entry, rfl, rfl, rfl, rfl⟩
  · exact ⟨by decide, 2, _, some 1, rfl, Or.inl rfl⟩
  · exact ⟨by decide, 1, _, some 1, rfl, Or.inr ⟨2, _, ⟨4294967305, some 2⟩, rfl, rfl, rfl⟩⟩
  · rintro ⟨seg, r, hl, hlast⟩
    rcases Lseg_from_last (e := ⟨8589934599, none⟩) rfl rfl hl with rfl | rfl
    · simp at hlast
    · simp at hlast

/-! ## Sorting: links and strings are kept whenever the call returns -/

/-- Whenever `swapValue` returns, every string and every link is as before. -/
theorem swapValue_links {h h1 : Heap} {a b : Option Nat}
    (hr : swapValue h a b = Outcome.done h1) :
    h1.str = h.str ∧ ∀ x, (h1.ele x).map (fun e => e.next) = (h.ele x).map (fun e => e.next) := by
  match a, b with
  | none, _ => simp [swapValue] at hr
  | some x, none => simp [swapValue] at hr
  | some x, some y =>
    cases hx : h.ele x with
    | none => simp [swapValue, hx] at hr
    | some ex =>
      cases hy : h.ele y with
      | none => simp [swapValue, hx, hy] at hr
      | some ey =>
        by_cases hxy : x = y
        · subst hxy
          rw [swapValue_self hx] at hr
          cases hr
          exact ⟨rfl, fun _ => rfl⟩
        · obtain ⟨h2, hrun, hstr, h2x, h2y, hfr⟩ := swapValue_int hx hy hxy
          rw [hrun] at hr
          cases hr
          refine ⟨hstr, fun z => ?_⟩
          by_cases hzx : z = x
          · subst hzx; rw [h2x, hx]; rfl
          · by_cases hzy : z = y
            · subst hzy; rw [h2y, hy]; rfl
            · rw [hfr z hzx hzy]

/-- Whenever a pass through the loop body returns, every string and every link is as
before. -/
theorem partitionBody_links {h h1 : Heap} {pv pt pv1 pt1 : Option Nat}
    (hr : partitionBody h pv pt = Outcome.done (h1, pv1, pt1)) :
    h1.str = h.str ∧ ∀ x, (h1.ele x).map (fun e => e.next) = (h.ele x).map (fun e => e.next) := by
  unfold partitionBody at hr
  split at hr
  · cases hr
  · dsimp only at hr
    split at hr
    · split at hr
      · split at hr
        · split at hr
          · rename_i h2 hs1
            split at hr
            · cases hr
            · split at hr
              · rename_i h3 hs2
                cases hr
                obtain ⟨a1, b1⟩ := swapValue_links hs1
                obtain ⟨a2, b2⟩ := swapValue_links hs2
                exact ⟨a2.trans a1, fun x => (b2 x).trans (b1 x)⟩
              · cases hr
              · cases hr
          · cases hr
          · cases hr
        · cases hr
          exact ⟨rfl, fun _ => rfl⟩
      · cases hr
    · cases hr

/-- Whenever the partition loop returns, every string and every link is as before. -/
theorem partitionLoop_links : ∀ (f : Nat) (h : Heap) (pv pt e : Option Nat)
    (r : Heap × Option Nat), partitionLoop f h pv pt e = Outcome.done r →
    r.1.str = h.str ∧ ∀ x, (r.1.ele x).map (fun e => e.next) = (h.ele x).map (fun e => e.next)
  | 0, _, _, _, _, _, hr => by simp [partitionLoop] at hr
  | f + 1, h, pv, pt, e, r, hr => by
    simp only [partitionLoop] at hr
    split at hr
    · rename_i h1 pv1 pt1 hbody
      obtain ⟨a1, b1⟩ := partitionBody_links hbody
      split at hr
      · obtain ⟨a2, b2⟩ := partitionLoop_links f h1 pv1 pt1 e r hr
        exact ⟨a2.trans a1, fun x => (b2 x).trans (b1 x)⟩
      · cases hr
        exact ⟨a1, b1⟩
    · cases hr
    · cases hr

/-- Whenever `qsortImplement` returns, every string and every link is as before. -/
theorem qsortImplement_links : ∀ (f : Nat) (h : Heap) (start e : Option Nat) (r : Heap),
    qsortImplement f h start e = Outcome.done r →
    r.str = h.str ∧ ∀ x, (r.ele x).map (fun e => e.next) = (h.ele x).map (fun e => e.next)
  | 0, _, _, _, _, hr => by simp [qsortImplement] at hr
  | f + 1, h, start, e, r, hr => by
    simp only [qsortImplement] at hr
    split at hr
    · cases hr
      exact ⟨rfl, fun _ => rfl⟩
    · split at hr
      · rename_i h1 pivot hp
        obtain ⟨a1, b1⟩ := partitionLoop_links f h start start e (h1, pivot) hp
        split at hr
        · rename_i h2 hq1
          obtain ⟨a2, b2⟩ := qsortImplement_links f h1 start pivot h2 hq1
          split at hr
          · cases hr
          · rename_i ep hd
            obtain ⟨a3, b3⟩ := qsortImplement_links f h2 ep.next e r hr
            exact ⟨a3.trans (a2.trans a1), fun x => (b3 x).trans ((b2 x).trans (b1 x))⟩
        · cases hr
        · cases hr
      · cases hr
      · cases hr

/-- Whenever `q_sort` returns, on any queue, every string and every link is as before (and the
queue header, which `q_sort` only reads, with them): the call can fail to keep the structure
of the chain only by not returning. -/
theorem q_sort_links {fuel : Nat} {h h1 : Heap} {q : Option queue_t}
    (hr : q_sort fuel h q = Outcome.done h1) :
    h1.str = h.str ∧ ∀ x, (h1.ele x).map (fun e => e.next) = (h.ele x).map (fun e => e.next) := by
  unfold q_sort at hr
  split at hr
  · cases hr
    exact ⟨rfl, fun _ => rfl⟩
  · split at hr
    · cases hr
      exact ⟨rfl, fun _ => rfl⟩
    · exact qsortImplement_links _ _ _ _ _ hr

end Queue
